import Mathlib

/-!
# Drelf2018/template: a shallow embedding

Go strings and byte slices are lists of bytes (`Bytes`, each byte a natural
number; the functions below never look at a value above 255 other than to
reject it).  Unsigned 64-bit integers are natural numbers, with `% 2 ^ 64`
written where the source's arithmetic can wrap.  A nil slice is the empty
list; a nil map is `none`.

The collaborators of the package (decoder, renderer, HTTP transport) are the
fields of a `Host` over an arbitrary state `σ` of the outside world: the
decoder and the transport read and change that state, the renderer is a
function of the functions registered on it and of the text.  `Unmarshal` and
`Template.Do` recurse as deep as the templates they are given nest, which the
source does not bound; here they take a `fuel` and return `none` when it runs
out.
-/

namespace Tmpl

/-- A Go `string` or `[]byte`: the sequence of its bytes. -/
abbrev Bytes := List Nat

/-- The bytes of an ASCII literal of the source. -/
def lit (s : String) : Bytes := s.toList.map Char.toNat

/-! ## version.go -/

/-- The two causes `strconv.ParseUint` reports (`ErrSyntax`, `ErrRange`). -/
inductive NumError where
  | ErrSyntax
  | ErrRange
  deriving DecidableEq, Repr

/-- The errors of version.go: the four sentinel values and the two
`fmt.Errorf` shapes of `UnmarshalText`. -/
inductive VersionError where
  | ErrEmptyInput
  | ErrNotString
  | ErrInvalidFormat
  | ErrEmptyComponent
  | invalidPrefix (c : Nat)
  | invalidNumber (clean : Bytes) (cause : NumError)
  deriving DecidableEq, Repr

/-- `type Version struct { Major, Minor, Patch uint64 }`. -/
structure Version where
  Major : Nat
  Minor : Nat
  Patch : Nat
  deriving DecidableEq, Repr

/-- The three components fit in 64 bits, as every Go value of the type does. -/
def Version.InRange (v : Version) : Prop :=
  v.Major < 2 ^ 64 ∧ v.Minor < 2 ^ 64 ∧ v.Patch < 2 ^ 64

instance (v : Version) : Decidable v.InRange := by
  unfold Version.InRange; infer_instance

/-- The digit loop of `fmt`'s `%d` for an unsigned integer: peel the last
decimal digit while the value is at least ten, then write the leading one. -/
def fmtUintAux : Nat → Nat → Bytes → Bytes
  | 0, _, acc => acc
  | fuel + 1, u, acc =>
    if u < 10 then (48 + u) :: acc
    else fmtUintAux fuel (u / 10) ((48 + u % 10) :: acc)

/-- `%d` of a `uint64`: the decimal digits, most significant first. -/
def fmtUint (u : Nat) : Bytes := fmtUintAux (u + 1) u []

/-- `func (v Version) String() string`: `fmt.Sprintf("v%d.%d.%d", ...)`. -/
def Version.String (v : Version) : Bytes :=
  118 :: (fmtUint v.Major ++ 46 :: (fmtUint v.Minor ++ 46 :: fmtUint v.Patch))

/-- `func (v Version) MarshalText() ([]byte, error)`. -/
def Version.MarshalText (v : Version) : Bytes × Option VersionError :=
  (v.String, none)

/-- `strings.Split(s, sep)` for a one-byte separator: the pieces between the
occurrences of `sep`, one more than there are occurrences. -/
def Split (sep : Nat) : Bytes → List Bytes
  | [] => [[]]
  | c :: cs =>
    if c = sep then [] :: Split sep cs
    else match Split sep cs with
      | [] => [[c]]
      | p :: ps => (c :: p) :: ps

/-- The UTF-8 encodings of the code points for which `unicode.IsSpace`
holds: tab, LF, VT, FF, CR, space, U+0085, U+00A0, U+1680, U+2000..U+200A,
U+2028, U+2029, U+202F, U+205F, U+3000. -/
def spaceEncodings : List Bytes :=
  [[0x09], [0x0A], [0x0B], [0x0C], [0x0D], [0x20],
   [0xC2, 0x85], [0xC2, 0xA0], [0xE1, 0x9A, 0x80],
   [0xE2, 0x80, 0x80], [0xE2, 0x80, 0x81], [0xE2, 0x80, 0x82], [0xE2, 0x80, 0x83],
   [0xE2, 0x80, 0x84], [0xE2, 0x80, 0x85], [0xE2, 0x80, 0x86], [0xE2, 0x80, 0x87],
   [0xE2, 0x80, 0x88], [0xE2, 0x80, 0x89], [0xE2, 0x80, 0x8A],
   [0xE2, 0x80, 0xA8], [0xE2, 0x80, 0xA9], [0xE2, 0x80, 0xAF],
   [0xE2, 0x81, 0x9F], [0xE3, 0x80, 0x80]]

/-- The white-space code point encoded at the start of `s`, if any. -/
def leadingSpace (s : Bytes) : Option Bytes :=
  spaceEncodings.find? (fun e => e.isPrefixOf s)

/-- The white-space code point encoded at the end of `s`, if any. -/
def trailingSpace (s : Bytes) : Option Bytes :=
  spaceEncodings.find? (fun e => e.reverse.isPrefixOf s.reverse)

/-- Drop white-space code points from the front, at most `fuel` of them. -/
def trimLeftAux : Nat → Bytes → Bytes
  | 0, s => s
  | fuel + 1, s =>
    match leadingSpace s with
    | some e => trimLeftAux fuel (s.drop e.length)
    | none => s

/-- Drop white-space code points from the back, at most `fuel` of them;
the argument is the string reversed. -/
def trimRightAux : Nat → Bytes → Bytes
  | 0, r => r
  | fuel + 1, r =>
    match trailingSpace r.reverse with
    | some e => trimRightAux fuel (r.drop e.length)
    | none => r

/-- `strings.TrimSpace`: all leading and trailing white space removed, as
defined by Unicode. -/
def TrimSpace (s : Bytes) : Bytes :=
  let l := trimLeftAux s.length s
  (trimRightAux l.length l.reverse).reverse

/-- ASCII lower-casing of strconv, `c | ('x' - 'X')`. -/
def lower (c : Nat) : Nat := c ||| 32

/-- The loop of `strconv.ParseUint(s, 10, 64)` over the bytes of `s`:
`cutoff = maxUint64/10 + 1`, `maxVal = 1<<64 - 1`, the accumulator `n` a
`uint64`. -/
def parseUintLoop : Bytes → Nat → Except NumError Nat
  | [], n => .ok n
  | c :: cs, n =>
    let d : Option Nat :=
      if 48 ≤ c ∧ c ≤ 57 then some (c - 48)
      else if 97 ≤ lower c ∧ lower c ≤ 122 then some (lower c - 97 + 10)
      else none
    match d with
    | none => .error .ErrSyntax
    | some d =>
      if d ≥ 10 then .error .ErrSyntax
      else if n ≥ (2 ^ 64 - 1) / 10 + 1 then .error .ErrRange
      else
        let n10 := n * 10 % 2 ^ 64
        let n1 := (n10 + d) % 2 ^ 64
        if n1 < n10 ∨ n1 > 2 ^ 64 - 1 then .error .ErrRange
        else parseUintLoop cs n1

/-- `strconv.ParseUint(s, 10, 64)`. -/
def ParseUint (s : Bytes) : Except NumError Nat :=
  if s = [] then .error .ErrSyntax else parseUintLoop s 0

/-- The closure `parsePart` of `UnmarshalText`. -/
def parsePart (part : Bytes) : Except VersionError Nat :=
  let clean := TrimSpace part
  if clean = [] then .error .ErrEmptyComponent
  else match ParseUint clean with
    | .error e => .error (.invalidNumber clean e)
    | .ok val => .ok val

/-- `func (v *Version) UnmarshalText(data []byte) error`: the receiver after
the call and the error (`none` for `nil`). -/
def Version.UnmarshalText (v : Version) (data : Bytes) : Version × Option VersionError :=
  match data with
  | [] => (v, some .ErrEmptyInput)
  | c :: s =>
    if c ≠ 118 then (v, some (.invalidPrefix c))
    else match Split 46 s with
      | [p0, p1, p2] =>
        match parsePart p0 with
        | .error e => (v, some e)
        | .ok major =>
          match parsePart p1 with
          | .error e => (v, some e)
          | .ok minor =>
            match parsePart p2 with
            | .error e => (v, some e)
            | .ok patch => ({ Major := major, Minor := minor, Patch := patch }, none)
      | _ => (v, some .ErrInvalidFormat)

/-- `func (v Version) Equal(other Version) bool`. -/
def Version.Equal (v other : Version) : Bool :=
  v.Major == other.Major && v.Minor == other.Minor && v.Patch == other.Patch

/-- `func (v Version) Less(other Version) bool`. -/
def Version.Less (v other : Version) : Bool :=
  if v.Major < other.Major then true
  else if v.Major > other.Major then false
  else if v.Minor < other.Minor then true
  else if v.Minor > other.Minor then false
  else decide (v.Patch < other.Patch)

/-- `func (v Version) IsZero() bool`. -/
def Version.IsZero (v : Version) : Bool :=
  v.Major == 0 && v.Minor == 0 && v.Patch == 0

/-! ## template.go, decode.go, utils.go: the data model -/

/-- A value of Go type `any` as an environment holds it: the nil interface,
a string, a `map[string]any`, an `Env` (either map possibly a nil map), or a
value of any other dynamic type (number, boolean, list, ...), kept as a tag.
A map is the list of its entries, the first entry under a key being the one
the map holds; the order of the list stands for the order in which a `range`
loop visits the keys.  Each map is owned by the field that holds it: two
fields never share one map object. -/
inductive Value where
  | nil
  | str (s : Bytes)
  | other (tag : Nat)
  | map (m : Option (List (Bytes × Value)))
  | env (m : Option (List (Bytes × Value)))

/-- The entries of a non-nil map. -/
abbrev EnvMap := List (Bytes × Value)

/-- `type Env map[string]any`; `none` is the nil map. -/
abbrev Env := Option EnvMap

/-- The entry of a map under a key, if there is one. -/
def EnvMap.lookup : EnvMap → Bytes → Option Value
  | [], _ => none
  | (k', v) :: tl, k => if k' = k then some v else EnvMap.lookup tl k

/-- The assignment `m[k] = v`. -/
def EnvMap.assign : EnvMap → Bytes → Value → EnvMap
  | [], k, v => [(k, v)]
  | (k', v') :: tl, k, v => if k' = k then (k, v) :: tl else (k', v') :: EnvMap.assign tl k v

/-- The statement `delete(m, k)`. -/
def EnvMap.delete (m : EnvMap) (k : Bytes) : EnvMap := m.filter (fun p => p.1 ≠ k)

/-- The entries a `range` loop over the map visits: one for each key. -/
def EnvMap.range : EnvMap → EnvMap
  | [] => []
  | (k, v) :: tl => (k, v) :: (EnvMap.range tl).filter (fun p => p.1 ≠ k)

/-- The entries of a map, none for the nil map. -/
def Env.entries (e : Env) : EnvMap := e.getD []

/-- The expression `e[key]`: the nil interface when the key is absent. -/
def Env.index (e : Env) (key : Bytes) : Value := (e.entries.lookup key).getD .nil

/-- Whether the map has an entry under the key. -/
def Env.has (e : Env) (key : Bytes) : Bool := (e.entries.lookup key).isSome

/-- The loop `for k, v := range e { n[k] = v }`. -/
def copyInto (n : EnvMap) (e : Env) : EnvMap :=
  e.entries.range.foldl (fun n kv => n.assign kv.1 kv.2) n

/-- `func AppendEnv(e Env, elems ...Env) Env`. -/
def AppendEnv (e : Env) (elems : List Env) : Env :=
  some (elems.foldl copyInto (copyInto [] e))

/-- The fields of `type Template struct`, over the type of its steps. -/
structure TemplateOf (S : Type) where
  ID : Nat
  Description : Bytes
  Author : Bytes
  Namespace : Bytes
  Version : Version
  Env : Env
  Steps : List S

/-- `type Step struct`: the embedded `Template` and the step's own fields. -/
inductive Step where
  | mk (Template : TemplateOf Step) (TemplateID : Nat) (Skip Uses Method URL Body : Bytes)
      (Header : List (Bytes × List Bytes)) (Set Out : Env)

/-- `type Template struct`. -/
abbrev Template := TemplateOf Step

namespace Step

def Template : Step → TemplateOf Step | mk t _ _ _ _ _ _ _ _ _ => t
def TemplateID : Step → Nat | mk _ i _ _ _ _ _ _ _ _ => i
def Skip : Step → Bytes | mk _ _ s _ _ _ _ _ _ _ => s
def Uses : Step → Bytes | mk _ _ _ u _ _ _ _ _ _ => u
def Method : Step → Bytes | mk _ _ _ _ m _ _ _ _ _ => m
def URL : Step → Bytes | mk _ _ _ _ _ u _ _ _ _ => u
def Body : Step → Bytes | mk _ _ _ _ _ _ b _ _ _ => b
def Header : Step → List (Bytes × List Bytes) | mk _ _ _ _ _ _ _ h _ _ => h
def Set : Step → Env | mk _ _ _ _ _ _ _ _ s _ => s
def Out : Step → Env | mk _ _ _ _ _ _ _ _ _ o => o

/-- The step with its embedded template replaced. -/
def withTemplate : Step → TemplateOf Step → Step
  | mk _ i s u m l b h st o, t => mk t i s u m l b h st o

/-- The step with its `Set` map replaced. -/
def withSet : Step → Env → Step
  | mk t i s u m l b h _ o, st => mk t i s u m l b h st o

/-- The step with its `Out` map replaced. -/
def withOut : Step → Env → Step
  | mk t i s u m l b h st _, o => mk t i s u m l b h st o

/-- The statement `if s.Out == nil { s.Out = Env{} }`. -/
def defaultOut (s : Step) : Step :=
  match s.Out with
  | none => s.withOut (some [])
  | some _ => s

end Step

/-- The error values of the package.  `external` is an error produced by a
collaborator (decoder, renderer, transport, request constructor); a
constructor with a `cause` is a `fmt.Errorf` that wraps it with `%w`, and
its other fields are what the message prints. -/
inductive Error where
  | version (e : VersionError)
  | external (msg : Bytes)
  | ErrInvalidDecoder
  | ErrEmptyURL
  | invalidType (ext : Bytes)
  | usesNotFound (uses : Bytes)
  | invalidName (name : Bytes)
  | invalidUses (uses : Bytes)
  | envFailed (tmpl : Bytes) (cause : Error)
  | skipFailed (skip : Bytes) (cause : Error)
  | skipParse (skip : Bytes) (rendered : Bytes)
  | unmarshalUses (uses : Bytes) (cause : Error)
  | requestFailed (step : Bytes) (cause : Error)
  | readFailed (step : Bytes) (cause : Error)
  | badStatus (step : Bytes) (code : Int) (body : Bytes)
  | outFailed (step : Bytes) (cause : Error)
  | invalidSetValue (v : Value)
  | urlFailed (url : Bytes) (cause : Error)
  | bodyFailed (body : Bytes) (cause : Error)
  | createFailed (step : Bytes) (cause : Error)
  | headerFailed (key : Bytes) (cause : Error)

/-- `func (t Template) String() string`. -/
def TemplateOf.String {S : Type} (t : TemplateOf S) : Bytes :=
  if t.Description = [] then
    t.Author ++ 47 :: (t.Namespace ++ 64 :: t.Version.String)
  else
    t.Author ++ 47 :: (t.Namespace ++ 64 :: (t.Version.String ++ lit ": " ++ t.Description))

/-- `strings.Cut(s, sep)` for a one-byte separator: the text before the
first occurrence, the text after it, and whether there is one. -/
def Cut (sep : Nat) : Bytes → Bytes × Bytes × Bool
  | [] => ([], [], false)
  | c :: cs =>
    if c = sep then ([], cs, true)
    else match Cut sep cs with
      | (before, after, found) => (c :: before, after, found)

/-- `func (t *Template) Unmarshal(uses string) error`: the receiver after
the call and the error. -/
def TemplateOf.Unmarshal {S : Type} (t : TemplateOf S) (uses : Bytes) :
    TemplateOf S × Option Error :=
  let err := Error.invalidUses uses
  match Cut 47 uses with
  | (author, uses, ok) =>
    let t := { t with Author := author }
    if !ok then (t, some err)
    else match Cut 64 uses with
      | (ns, uses, ok) =>
        let t := { t with Namespace := ns }
        if !ok then (t, some err)
        else match t.Version.UnmarshalText uses with
          | (v, e) => ({ t with Version := v }, e.map Error.version)

/-- A decoder, `Unmarshaler.UnmarshalTemplate(uses, tmpl)`: from the
identity, the template it is handed and the state of the outside world
(files, database) to the template it leaves, its error and the new state.
A decoder changes nothing but the template it is handed. -/
abbrev DecoderFn (σ : Type) := Bytes → Template → σ → (Template × Option Error) × σ

/-- The loop over `tmpl.Steps` of `Unmarshal`, `rec` being the recursive
call: the steps after the loop, the error it returned with, the world. -/
def unmarshalSteps {σ : Type}
    (rec : Bytes → Template → σ → Option (Template × Option Error × σ)) :
    List Step → σ → Option (List Step × Option Error × σ)
  | [], w => some ([], none, w)
  | s :: rest, w =>
    let sub : Option (Step × Option Error × σ) :=
      if s.Uses ≠ [] then
        match rec s.Uses s.Template w with
        | none => none
        | some (t, err, w) => some (s.withTemplate t, err, w)
      else some (s, none, w)
    match sub with
    | none => none
    | some (s, some err, w) => some (s :: rest, some err, w)
    | some (s, none, w) =>
      let s := s.defaultOut
      match unmarshalSteps rec rest w with
      | none => none
      | some (rest, err, w) => some (s :: rest, err, w)

/-- `func Unmarshal(uses string, tmpl *Template) error` with the package
variable `Decoder` (`none` when it is nil): the template after the call, the
error, the world.  The recursion is as deep as the decoded templates nest,
bounded here by `fuel`; `none` is a run that needs more. -/
def Unmarshal {σ : Type} (Decoder : Option (DecoderFn σ)) :
    Nat → Bytes → Template → σ → Option (Template × Option Error × σ)
  | 0, _, _, _ => none
  | fuel + 1, uses, tmpl, w =>
    match Decoder with
    | none => some (tmpl, some .ErrInvalidDecoder, w)
    | some decoder =>
      let env := AppendEnv tmpl.Env []
      let ns := tmpl.Namespace
      match decoder uses tmpl w with
      | ((tmpl, some err), w) => some (tmpl, some err, w)
      | ((tmpl, none), w) =>
        let tmpl := if ns ≠ [] then { tmpl with Namespace := ns } else tmpl
        let tmpl := { tmpl with Env := AppendEnv tmpl.Env [env] }
        match unmarshalSteps (Unmarshal Decoder fuel) tmpl.Steps w with
        | none => none
        | some (steps, err, w) => some ({ tmpl with Steps := steps }, err, w)

/-! ## template.go, utils.go, safe.go: execution -/

/-- The functions registered on a renderer by `Funcs`, oldest first: the
name and the value its zero-argument function returns.  `text/template`
keeps them in the `common` part that a template shares with every template
made from it by `New`, so one log stands for a renderer and its children. -/
abbrev FuncLog := List (Bytes × Value)

/-- What `Step.Request` builds: the arguments of `http.NewRequest` and the
header values added to the request, in the order they were added. -/
structure Request where
  Method : Bytes
  URL : Bytes
  Body : Option Bytes
  Header : List (Bytes × Bytes)

/-- What `http.DefaultClient.Do` followed by `io.ReadAll(resp.Body)` gives:
a transport error, a response whose body could not be read to the end (the
bytes read so far and the error), or a response and its body. -/
inductive HttpOutcome where
  | failed (err : Error)
  | unread (status : Int) (read : Bytes) (err : Error)
  | response (status : Int) (body : Bytes)

/-- The collaborators of the package, over the state `σ` of the outside
world: the package variable `Decoder`, `text/template`'s `goodName` (linked
in as `GoodName`), parsing and executing a text on a renderer that has the
given functions with the data of the run (`ToString`, `ToBuffer`),
`strconv.Quote`, the checks of `http.NewRequest`, and the HTTP transport. -/
structure Host (σ : Type) where
  Decoder : Option (DecoderFn σ)
  GoodName : Bytes → Bool
  render : FuncLog → Bytes → Except Error Bytes
  Quote : Bytes → Bytes
  NewRequest : Bytes → Bytes → Option Bytes → Option Error
  Transport : Request → σ → HttpOutcome × σ

/-- `func ToString(tmpl, text, data) (string, error)`. -/
def ToString {σ : Type} (H : Host σ) (funcs : FuncLog) (text : Bytes) : Except Error Bytes :=
  H.render funcs text

/-- The loop of `ToEnv` over the entries still to visit, `out` being the map
built so far. -/
def toEnvLoop {σ : Type} (H : Host σ) (funcs : FuncLog) (text : Bytes) :
    EnvMap → EnvMap → EnvMap × Option Error
  | [], out => (out, none)
  | (k, v) :: rest, out =>
    match v with
    | .str s =>
      match ToString H funcs (text ++ s) with
      | .error err => (out.assign k (.str []), some err)
      | .ok r => toEnvLoop H funcs text rest (out.assign k (.str r))
    | v => toEnvLoop H funcs text rest (out.assign k v)

/-- `func ToEnv(tmpl, text, data, env) (out Env, err error)`. -/
def ToEnv {σ : Type} (H : Host σ) (funcs : FuncLog) (text : Bytes) (env : Env) :
    Env × Option Error :=
  match toEnvLoop H funcs text env.entries.range [] with
  | (out, err) => (some out, err)

/-- The loop of `Env.Set` over the keys still to visit, `funcMap` being the
map built so far. -/
def envSetLoop {σ : Type} (H : Host σ) (e : Env) (pfx : Bytes) :
    EnvMap → EnvMap → Except Error EnvMap
  | [], funcMap => .ok funcMap
  | (k, _) :: rest, funcMap =>
    if !H.GoodName (pfx ++ k) then .error (.invalidName (pfx ++ k))
    else envSetLoop H e pfx rest (funcMap.assign (pfx ++ k) (e.index k))

/-- `func (e Env) Set(tmpl *template.Template, prefix string) error`: the
functions of the renderer after the call and the error. -/
def Env.Set {σ : Type} (H : Host σ) (e : Env) (funcs : FuncLog) (pfx : Bytes) :
    FuncLog × Option Error :=
  match e with
  | none => (funcs, none)
  | some m =>
    match envSetLoop H e pfx m.range [] with
    | .error err => (funcs, some err)
    | .ok funcMap => (if funcMap.length ≠ 0 then funcs ++ funcMap else funcs, none)

/-- `strconv.ParseBool`. -/
def ParseBool (str : Bytes) : Option Bool :=
  if str ∈ [lit "1", lit "t", lit "T", lit "true", lit "TRUE", lit "True"] then some true
  else if str ∈ [lit "0", lit "f", lit "F", lit "false", lit "FALSE", lit "False"] then some false
  else none

/-- The inner loop of `Step.Request` over the values of one header key. -/
def renderHeaderValues {σ : Type} (H : Host σ) (funcs : FuncLog) (k : Bytes) :
    List Bytes → List (Bytes × Bytes) → Except Error (List (Bytes × Bytes))
  | [], added => .ok added
  | v :: vs, added =>
    match ToString H funcs v with
    | .error err => .error (.headerFailed k err)
    | .ok v => renderHeaderValues H funcs k vs (added ++ [(k, v)])

/-- The outer loop of `Step.Request` over the header. -/
def renderHeader {σ : Type} (H : Host σ) (funcs : FuncLog) :
    List (Bytes × List Bytes) → List (Bytes × Bytes) → Except Error (List (Bytes × Bytes))
  | [], added => .ok added
  | (k, vs) :: rest, added =>
    match renderHeaderValues H funcs k vs added with
    | .error err => .error err
    | .ok added => renderHeader H funcs rest added

/-- `func (s *Step) Request(tmpl, data) (*http.Request, error)`. -/
def Step.Request {σ : Type} (H : Host σ) (s : Step) (funcs : FuncLog) : Except Error Request :=
  if s.URL = [] then .error .ErrEmptyURL
  else match ToString H funcs s.URL with
    | .error err => .error (.urlFailed s.URL err)
    | .ok url =>
      let body : Except Error (Option Bytes) :=
        if s.Body ≠ [] then
          match ToString H funcs s.Body with
          | .error err => .error (.bodyFailed s.Body err)
          | .ok b => .ok (some b)
        else .ok none
      match body with
      | .error err => .error err
      | .ok body =>
        match H.NewRequest s.Method url body with
        | some err => .error (.createFailed s.Template.String err)
        | none =>
          match renderHeader H funcs s.Header [] with
          | .error err => .error err
          | .ok header => .ok { Method := s.Method, URL := url, Body := body, Header := header }

/-- What a call of `Template.Do` leaves: its three results, the functions of
the renderer, the outside world, and the receiver (whose maps the call may
have changed). -/
structure DoResult (σ : Type) where
  out : Env
  result : Bytes
  err : Option Error
  funcs : FuncLog
  world : σ
  tmpl : Template

/-- The variables of `Template.Do` that live across iterations of its loop
over the steps: `out`, `result`, the renderer's functions, the world. -/
structure LoopState (σ : Type) where
  out : EnvMap
  result : Bytes
  funcs : FuncLog
  world : σ

/-- How a piece of the loop body ends: it falls through with a value, or it
executes a `return` with the three results of `Do`. -/
inductive Flow (α : Type) where
  | next (a : α)
  | ret (out : Env) (result : Bytes) (err : Option Error)

/-- The skip check of the loop body: `next true` is the `continue`. -/
def skipCheck {σ : Type} (H : Host σ) (funcs : FuncLog) (step : Step) : Flow Bool :=
  if step.Skip ≠ [] then
    match ToString H funcs step.Skip with
    | .error err => .ret none [] (some (.skipFailed step.Skip err))
    | .ok skip =>
      match ParseBool skip with
      | none => .ret none [] (some (.skipParse step.Skip skip))
      | some p => .next p
  else .next false

mutual
/-- The number of iterations the `set` loop makes from a `set["set"]` value. -/
def Value.setLinks : Value → Nat
  | .map m => Env.setLinks m
  | .env m => Env.setLinks m
  | _ => 0
/-- The number of iterations the `set` loop makes at most from `set`: one for
each map of the chain `set`, `set["set"]`, ... -/
def Env.setLinks : Option (List (Bytes × Value)) → Nat
  | none => 0
  | some m => 1 + EnvMap.nextLinks m
/-- The iterations that follow the one on the map with these entries. -/
def EnvMap.nextLinks : List (Bytes × Value) → Nat
  | [] => 0
  | (k, v) :: tl => if k = lit "set" then v.setLinks else EnvMap.nextLinks tl
end

/-- `fmt.Sprintf("\x7b\x7b $response := %s \x7d\x7d", strconv.Quote(string(result)))`. -/
def responseText {σ : Type} (H : Host σ) (result : Bytes) : Bytes :=
  lit "\x7b\x7b $response := " ++ H.Quote result ++ lit " \x7d\x7d"

/-- The `for set := step.Set; set != nil;` loop of the body, with the
renderer's functions as its state.  Every iteration takes one unit of
`fuel`; the body calls it with `Env.setLinks set`, which is enough. -/
def setLoop {σ : Type} (H : Host σ) (name text result : Bytes) :
    Nat → Env → FuncLog → Option (FuncLog × Flow Unit)
  | _, none, funcs => some (funcs, .next ())
  | 0, some _, _ => none
  | fuel + 1, some m, funcs =>
    let v := Env.index (some m) (lit "set")
    let m := m.delete (lit "set")
    match ToEnv H funcs text (some m) with
    | (_, some err) => some (funcs, .ret none result (some (.envFailed name err)))
    | (parent, none) =>
      match Env.Set H parent funcs [] with
      | (funcs, some err) => some (funcs, .ret none [] (some err))
      | (funcs, none) =>
        match v with
        | .map m' => setLoop H name text result fuel m' funcs
        | .env m' => setLoop H name text result fuel m' funcs
        | .nil => some (funcs, .next ())
        | v => some (funcs, .ret none [] (some (.invalidSetValue v)))

/-- The sub-template branch of the loop body (`step.Uses != ""`): the local
copy `step` after the branch, the state, and how the branch ends.  `doSub` is
the recursive call of `Do` and `unm` the call of `Unmarshal`. -/
def runUses {σ : Type} (H : Host σ)
    (unm : Bytes → Template → σ → Option (Template × Option Error × σ))
    (doSub : Template → FuncLog → σ → Option (DoResult σ))
    (step : Step) (st : LoopState σ) : Option (Step × Bool × LoopState σ × Flow Unit) :=
  let resolved : Option (Step × Bool × σ × Option Error) :=
    if step.Template.Steps.length = 0 then
      match unm step.Uses step.Template st.world with
      | none => none
      | some (t, err, w) => some (step.withTemplate t, true, w, err)
    else some (step, false, st.world, none)
  match resolved with
  | none => none
  | some (step, fresh, w, some err) =>
    some (step, fresh, { st with world := w }, .ret none [] (some (.unmarshalUses step.Uses err)))
  | some (step, fresh, w, none) =>
    match doSub step.Template st.funcs w with
    | none => none
    | some r =>
      let step := step.withTemplate r.tmpl
      let st := { st with result := r.result, funcs := r.funcs, world := r.world }
      match r.err with
      | some err => some (step, fresh, st, .ret none [] (some err))
      | none =>
        let set := if step.Template.Namespace ≠ [] then
            Env.Set H r.out st.funcs (step.Template.Namespace ++ lit "_")
          else Env.Set H r.out st.funcs []
        match set with
        | (funcs, some err) => some (step, fresh, { st with funcs := funcs }, .ret none [] (some err))
        | (funcs, none) => some (step, fresh, { st with funcs := funcs }, .next ())

/-- The HTTP branch of the loop body (`step.Uses == ""`). -/
def runRequest {σ : Type} (H : Host σ) (step : Step) (st : LoopState σ) :
    LoopState σ × Flow Unit :=
  match step.Request H st.funcs with
  | .error err => (st, .ret none [] (some err))
  | .ok req =>
    match H.Transport req st.world with
    | (.failed err, w) =>
      ({ st with world := w }, .ret none [] (some (.requestFailed step.Template.String err)))
    | (.unread _ read err, w) =>
      ({ st with world := w, result := read },
        .ret none read (some (.readFailed step.Template.String err)))
    | (.response status body, w) =>
      let st := { st with world := w, result := body }
      if status < 200 ∨ status ≥ 300 then
        (st, .ret none body (some (.badStatus step.Template.String status body)))
      else (st, .next ())

/-- The out projection that ends the loop body. -/
def projectOut {σ : Type} (H : Host σ) (name text : Bytes) (step : Step) (st : LoopState σ) :
    Flow (LoopState σ) :=
  if step.Out.entries.length ≠ 0 then
    match ToEnv H st.funcs text step.Out with
    | (_, some err) => .ret none st.result (some (.outFailed name err))
    | (exported, none) => .next { st with out := copyInto st.out exported }
  else .next st

/-- The visible effect of the body's `delete(set, "set")` on the step the
receiver holds: its `Set` map, when not nil, loses the key. -/
def Step.afterSet (s : Step) : Step :=
  s.withSet (s.Set.map (fun m => m.delete (lit "set")))

/-- The dispatch of the loop body on `step.Uses`: the local copy `step`
after the branch, the step as the receiver holds it (the copy, unless
`Unmarshal` filled the copy in), the state and how the branch ends. -/
def runBranch {σ : Type} (H : Host σ) (fuel : Nat)
    (doSub : Template → FuncLog → σ → Option (DoResult σ))
    (step : Step) (st : LoopState σ) : Option (Step × Step × LoopState σ × Flow Unit) :=
  if step.Uses ≠ [] then
    match runUses H (Unmarshal H.Decoder fuel) doSub step st with
    | none => none
    | some (step', fresh, st, flow) => some (step', if fresh then step else step', st, flow)
  else
    match runRequest H step st with
    | (st, flow) => some (step, step, st, flow)

/-- One iteration of the loop of `Template.Do` over `step`, a copy of the
receiver's step: the state after it, how it ends, and the step as the
receiver holds it afterwards. -/
def doStep {σ : Type} (H : Host σ) (fuel : Nat)
    (doSub : Template → FuncLog → σ → Option (DoResult σ))
    (step : Step) (st : LoopState σ) : Option (LoopState σ × Flow Unit × Step) :=
  match skipCheck H st.funcs step with
  | .ret out result err => some (st, .ret out result err, step)
  | .next true => some (st, .next (), step)
  | .next false =>
    match runBranch H fuel doSub step st with
    | none => none
    | some (_, held, st, .ret out result err) => some (st, .ret out result err, held)
    | some (step, held, st, .next ()) =>
      let text := responseText H st.result
      match setLoop H step.Template.String text st.result (Env.setLinks step.Set) step.Set
          st.funcs with
      | none => none
      | some (funcs, .ret out result err) =>
        some ({ st with funcs := funcs }, .ret out result err, held.afterSet)
      | some (funcs, .next ()) =>
        let st := { st with funcs := funcs }
        match projectOut H step.Template.String text step st with
        | .ret out result err => some (st, .ret out result err, held.afterSet)
        | .next st => some (st, .next (), held.afterSet)

/-- The loop `for _, step := range t.Steps` of `Template.Do`: the state
after it, how it ends, and the receiver's steps afterwards. -/
def doSteps {σ : Type} (H : Host σ) (fuel : Nat)
    (doSub : Template → FuncLog → σ → Option (DoResult σ)) :
    List Step → LoopState σ → Option (LoopState σ × Flow Unit × List Step)
  | [], st => some (st, .next (), [])
  | step :: rest, st =>
    match doStep H fuel doSub step st with
    | none => none
    | some (st, .ret out result err, held) => some (st, .ret out result err, held :: rest)
    | some (st, .next (), held) =>
      match doSteps H fuel doSub rest st with
      | none => none
      | some (st, flow, rest) => some (st, flow, held :: rest)

/-- `func (t *Template) Do(tmpl *template.Template, data any)
(out Env, result []byte, err error)` on a renderer with the functions
`funcs`.  The recursion is as deep as the sub-templates nest, bounded here by
`fuel`, which also bounds the recursion of `Unmarshal`; `none` is a run that
needs more. -/
def TemplateOf.Do {σ : Type} (H : Host σ) :
    Nat → Template → FuncLog → σ → Option (DoResult σ)
  | 0, _, _, _ => none
  | fuel + 1, t, funcs, w =>
    match ToEnv H funcs [] t.Env with
    | (_, some err) =>
      some { out := none, result := [], err := some (.envFailed t.String err),
             funcs := funcs, world := w, tmpl := t }
    | (env, none) =>
      match Env.Set H env funcs [] with
      | (funcs, some err) =>
        some { out := none, result := [], err := some err, funcs := funcs, world := w, tmpl := t }
      | (funcs, none) =>
        match doSteps H fuel (TemplateOf.Do H fuel) t.Steps
            { out := [], result := [], funcs := funcs, world := w } with
        | none => none
        | some (st, .ret out result err, steps) =>
          some { out := out, result := result, err := err, funcs := st.funcs,
                 world := st.world, tmpl := { t with Steps := steps } }
        | some (st, .next (), steps) =>
          some { out := some st.out, result := st.result, err := none, funcs := st.funcs,
                 world := st.world, tmpl := { t with Steps := steps } }

/-- `type SafeTemplate struct`: the data and the root renderer, a renderer
being the functions registered on it. -/
structure SafeTemplate where
  root : FuncLog

/-- `func (st *SafeTemplate) Do(rt *Template)`: `rt.Do` on the child
`st.root.New(uuid.NewString())`, which shares the root's functions. -/
def SafeTemplate.Do {σ : Type} (H : Host σ) (st : SafeTemplate) (fuel : Nat) (rt : Template)
    (w : σ) : Option (DoResult σ) :=
  TemplateOf.Do H fuel rt st.root w

/-! ## Definitions that follow the spec's words -/

/-- Decimal value of a digit string, as the spec reads "base-10 integer". -/
def decimalValue (d : Bytes) : Nat := d.foldl (fun acc c => acc * 10 + (c - 48)) 0

/-- A byte that is an ASCII decimal digit. -/
def IsDigit (c : Nat) : Prop := 48 ≤ c ∧ c ≤ 57

instance (c : Nat) : Decidable (IsDigit c) := by unfold IsDigit; infer_instance

/-- The spec's "non-empty base-10 unsigned integer (digits only, value below
2^64)": `d` is such a text and `n` its value. -/
def IsUintText (d : Bytes) (n : Nat) : Prop :=
  d ≠ [] ∧ (∀ c ∈ d, IsDigit c) ∧ decimalValue d = n ∧ n < 2 ^ 64

/-- The spec's accepted version text: the byte `v`, then three components
separated by two dots (no further dot), each of which trims to an unsigned
integer text; `M`, `m`, `p` are their values. -/
def IsVersionText (data : Bytes) (M m p : Nat) : Prop :=
  ∃ a b c, data = 118 :: (a ++ 46 :: (b ++ 46 :: c)) ∧ 46 ∉ a ∧ 46 ∉ b ∧ 46 ∉ c ∧
    IsUintText (TrimSpace a) M ∧ IsUintText (TrimSpace b) m ∧ IsUintText (TrimSpace c) p

/-- A step of the step tree of a template with the steps `steps`: one of
`steps`, or a step of the tree nested under one of them. -/
inductive Step.InTree : Step → List Step → Prop where
  | here {s : Step} {steps : List Step} : s ∈ steps → Step.InTree s steps
  | under {s p : Step} {steps : List Step} :
      p ∈ steps → Step.InTree s p.Template.Steps → Step.InTree s steps

/-- A step that resolution reaches: one of `steps`, or a step reached under
one of them that has a non-empty `uses`. -/
inductive Step.InUsesTree : Step → List Step → Prop where
  | here {s : Step} {steps : List Step} : s ∈ steps → Step.InUsesTree s steps
  | under {s p : Step} {steps : List Step} :
      p ∈ steps → p.Uses ≠ [] → Step.InUsesTree s p.Template.Steps → Step.InUsesTree s steps

/-- The run of `t.Do` on a renderer with the functions `funcs` in the world
`w` has rendered and registered the template's env, has executed the steps
`pre` without returning, and stands before the next step in the state `st`;
`held` is what the receiver holds in place of `pre`. -/
def ReachesStep {σ : Type} (H : Host σ) (fuel : Nat) (t : Template) (funcs : FuncLog) (w : σ)
    (pre : List Step) (st : LoopState σ) (held : List Step) : Prop :=
  ∃ env funcs1, ToEnv H funcs [] t.Env = (env, none) ∧ Env.Set H env funcs [] = (funcs1, none) ∧
    doSteps H fuel (TemplateOf.Do H fuel) pre
      { out := [], result := [], funcs := funcs1, world := w } = some (st, .next (), held)

/-- A piece of the loop body that returns, returns a nil environment and a
non-nil error. -/
def Flow.Aborts {α : Type} : Flow α → Prop
  | .next _ => True
  | .ret out _ err => out = none ∧ err ≠ none

/-- The name prefix under which a sub-template step registers the exports
of its sub-template: the namespace and an underscore when the namespace is
not empty, nothing otherwise. -/
def exportPrefix (ns : Bytes) : Bytes := if ns ≠ [] then ns ++ lit "_" else []

/-- The chain of a step's `set`: `SetChain set links v` when `set` is a map
`s0`, `s0["set"]` a map `s1`, and so on to a last map `sn`; `links` are
`s0`, ..., `sn`, each without its "set" key, and `v` is `sn["set"]`, a value
that is not a non-nil map (the nil interface when the key is absent). -/
inductive SetChain : Env → List EnvMap → Value → Prop where
  | stop (m : EnvMap) (v : Value) :
      Env.index (some m) (lit "set") = v → v.setLinks = 0 →
      SetChain (some m) [m.delete (lit "set")] v
  | linkMap (m m' : EnvMap) (rest : List EnvMap) (v : Value) :
      Env.index (some m) (lit "set") = .map (some m') → SetChain (some m') rest v →
      SetChain (some m) (m.delete (lit "set") :: rest) v
  | linkEnv (m m' : EnvMap) (rest : List EnvMap) (v : Value) :
      Env.index (some m) (lit "set") = .env (some m') → SetChain (some m') rest v →
      SetChain (some m) (m.delete (lit "set") :: rest) v

/-- The batches of a chain registered one after the other: each batch is
rendered on the renderer as the batches before it left it, then registered
under its own keys; the first failure returns. -/
def registerLinks {σ : Type} (H : Host σ) (name text result : Bytes) :
    List EnvMap → FuncLog → FuncLog × Flow Unit
  | [], funcs => (funcs, .next ())
  | b :: rest, funcs =>
    match ToEnv H funcs text (some b) with
    | (_, some err) => (funcs, .ret none result (some (.envFailed name err)))
    | (parent, none) =>
      match Env.Set H parent funcs [] with
      | (funcs, some err) => (funcs, .ret none [] (some err))
      | (funcs, none) => registerLinks H name text result rest funcs

/-- How a chain ends on the value under its last "set" key: a string or a
value of another type is an error, nil (or a nil map) ends the loop. -/
def chainEnd (v : Value) : Flow Unit :=
  match v with
  | .str _ => .ret none [] (some (.invalidSetValue v))
  | .other _ => .ret none [] (some (.invalidSetValue v))
  | _ => .next ()

/-- The batches registered in order, then the end of the chain. -/
def chainResult {σ : Type} (H : Host σ) (name text result : Bytes) (links : List EnvMap)
    (v : Value) (funcs : FuncLog) : FuncLog × Flow Unit :=
  match registerLinks H name text result links funcs with
  | (funcs, .next ()) => (funcs, chainEnd v)
  | r => r

/-! ## Concrete templates, decoders and hosts -/

/-- The zero value of `Template`. -/
def zeroTemplate : Template :=
  { ID := 0, Description := [], Author := [], Namespace := [], Version := ⟨0, 0, 0⟩,
    Env := none, Steps := [] }

/-- The zero value of `Step`. -/
def zeroStep : Step := Step.mk zeroTemplate 0 [] [] [] [] [] [] none none

/-- A decoder whose source declares namespace "y" and env {k: 2, j: 3}. -/
def declaringDecoder : DecoderFn Unit := fun _ t w =>
  (({ t with Namespace := lit "y",
             Env := some [(lit "k", .other 2), (lit "j", .other 3)] }, none), w)

/-- A template on which the caller has set namespace "x" and env {k: 1}. -/
def callerTemplate : Template :=
  { zeroTemplate with Namespace := lit "x", Env := some [(lit "k", .other 1)] }

/-- A decoder whose source declares namespace "y" and no env. -/
def namingDecoder : DecoderFn Unit := fun _ t w =>
  (({ t with Namespace := lit "y", Env := none }, none), w)

/-- An HTTP step (no `uses`) that carries a nested step without `out`. -/
def nestingStep : Step :=
  Step.mk { zeroTemplate with Steps := [zeroStep] } 0 [] [] (lit "GET") (lit "http://h") [] []
    none none

/-- A decoder whose source has the one step `nestingStep`. -/
def nestingDecoder : DecoderFn Unit := fun _ t w =>
  (({ t with Steps := [nestingStep] }, none), w)

/-- A step that uses the template "a/b@v1.0.0" and declares no `out`. -/
def usingStep : Step :=
  Step.mk zeroTemplate 0 [] (lit "a/b@v1.0.0") [] [] [] [] none none

/-- A decoder whose source for "root" has the one step `usingStep`, and for
any other identity the one step `nestingStep`. -/
def chainingDecoder : DecoderFn Unit := fun uses t w =>
  if uses = lit "root" then (({ t with Steps := [usingStep] }, none), w)
  else (({ t with Steps := [nestingStep] }, none), w)

/-- An ASCII stand-in for `goodName`: non-empty, letters, digits and
underscores, no digit first. -/
def asciiGoodName (name : Bytes) : Bool :=
  match name with
  | [] => false
  | c :: cs =>
    (c = 95 ∨ (65 ≤ c ∧ c ≤ 90) ∨ (97 ≤ c ∧ c ≤ 122)) ∧
      cs.all (fun d => d = 95 ∨ (65 ≤ d ∧ d ≤ 90) ∨ (97 ≤ d ∧ d ≤ 122) ∨ (48 ≤ d ∧ d ≤ 57))

/-- The value of one action of the small renderer: the assignment of
`$response` prints nothing, a name prints the string its most recently
registered function returns. -/
def smallEval (funcs : FuncLog) (action : Bytes) : Except Error Bytes :=
  let name := action.filter (fun c => c ≠ 32)
  if (lit "$response:=").isPrefixOf name then .ok []
  else match EnvMap.lookup funcs.reverse name with
    | some (.str s) => .ok s
    | _ => .error (.external (lit "function not defined"))

/-- A small renderer: text is copied, an action between double braces is
evaluated by `smallEval`; the second argument is the action being read. -/
def smallRender (funcs : FuncLog) : Bytes → Option Bytes → Except Error Bytes
  | [], none => .ok []
  | [], some _ => .error (.external (lit "unclosed action"))
  | 123 :: 123 :: rest, none => smallRender funcs rest (some [])
  | c :: rest, none =>
    match smallRender funcs rest none with
    | .error err => .error err
    | .ok s => .ok (c :: s)
  | 125 :: 125 :: rest, some a =>
    match smallEval funcs a with
    | .error err => .error err
    | .ok v =>
      match smallRender funcs rest none with
      | .error err => .error err
      | .ok s => .ok (v ++ s)
  | c :: rest, some a => smallRender funcs rest (some (a ++ [c]))

/-- A host for the examples: no decoder, the small renderer, quoting by
double quotes, a request constructor that accepts everything, and a
transport that answers 404 "not found" for the URL "http://h/missing" and
200 "hello" for any other; the world is the list of the requests sent. -/
def smallHost : Host (List Request) :=
  { Decoder := none
    GoodName := asciiGoodName
    render := fun funcs text => smallRender funcs text none
    Quote := fun s => 34 :: (s ++ [34])
    NewRequest := fun _ _ _ => none
    Transport := fun req sent =>
      (if req.URL = lit "http://h/missing" then .response 404 (lit "not found")
       else .response 200 (lit "hello"), sent ++ [req]) }

/-- An HTTP step: GET of the URL, with the given skip text, set and out. -/
def httpStep (skip url : Bytes) (set out : Env) : Step :=
  Step.mk zeroTemplate 0 skip [] (lit "GET") url [] [] set out

/-- A template with the given steps. -/
def templateOf (steps : List Step) : Template := { zeroTemplate with Steps := steps }

/-- A step whose skip text renders to "true". -/
def skippedStep : Step :=
  httpStep (lit "true") (lit "http://h/a") (some [(lit "x", .str (lit "1"))])
    (some [(lit "a", .str (lit "1"))])

/-- A step whose skip text renders to "maybe". -/
def maybeStep : Step :=
  httpStep (lit "maybe") (lit "http://h/a") none (some [(lit "a", .str (lit "1"))])

/-- A step with an empty skip that exports {b: "2"}. -/
def plainStep : Step :=
  httpStep [] (lit "http://h/b") none (some [(lit "b", .str (lit "2"))])

/-- The request `plainStep` sends. -/
def plainRequest : Request :=
  { Method := lit "GET", URL := lit "http://h/b", Body := none, Header := [] }

/-- The state of the loop before the first step, on a fresh renderer. -/
def startState : LoopState (List Request) :=
  { out := [], result := [], funcs := [], world := [] }

/-- The state of the loop after `plainStep` alone. -/
def afterPlain : LoopState (List Request) :=
  { out := [(lit "b", .str (lit "2"))], result := lit "hello", funcs := [],
    world := [plainRequest] }

/-- A step whose skip renders to "true", followed by a plain step. -/
def skippingTemplate : Template := templateOf [skippedStep, plainStep]

/-- A step whose skip renders to "maybe", after a plain step. -/
def maybeTemplate : Template := templateOf [plainStep, maybeStep]

/-- A step whose request is answered 404 "not found". -/
def missingStep : Step :=
  httpStep [] (lit "http://h/missing") (some [(lit "x", .str (lit "1"))])
    (some [(lit "m", .str (lit "2"))])

/-- The request `missingStep` sends. -/
def missingRequest : Request :=
  { Method := lit "GET", URL := lit "http://h/missing", Body := none, Header := [] }

/-- A step answered 200, a step answered 404, and a third step. -/
def failingTemplate : Template := templateOf [plainStep, missingStep, skippedStep]

/-- The spec's set chain {x: "1", set: {y: ..., set: nil}}, with `y`
declared from `x`, and an out that reads both. -/
def chainSet : Env :=
  some [(lit "x", .str (lit "1")),
        (lit "set", .map (some [(lit "y", .str (lit "\x7b\x7bx\x7d\x7d2")), (lit "set", .nil)]))]

/-- The HTTP step with the set chain `chainSet` and an out that reads `x`
and `y`. -/
def chainStep : Step :=
  httpStep [] (lit "http://h/a") chainSet
    (some [(lit "r", .str (lit "\x7b\x7bx\x7d\x7d-\x7b\x7by\x7d\x7d"))])

/-- A template with the one step `chainStep`. -/
def chainTemplate : Template := templateOf [chainStep]

/-- A step whose `set` holds a string under the key "set". -/
def brokenSetStep : Step :=
  httpStep [] (lit "http://h/a") (some [(lit "x", .str (lit "1")), (lit "set", .str (lit "y"))])
    (some [(lit "r", .str (lit "1"))])

/-- A template with the one step `brokenSetStep`. -/
def brokenSetTemplate : Template := templateOf [brokenSetStep]

/-! ## Definitions for the version order and the environment merge -/

/-- The spec's order on versions: `(Major, Minor, Patch)` of `a` is
lexicographically smaller than that of `b`. -/
def Version.LexLess (a b : Version) : Prop :=
  a.Major < b.Major ∨
    (a.Major = b.Major ∧ (a.Minor < b.Minor ∨ (a.Minor = b.Minor ∧ a.Patch < b.Patch)))

/-- The entry under `k` of the last of the environments that has the key. -/
def lastEntry (k : Bytes) (envs : List Env) : Option Value :=
  envs.reverse.findSome? (fun e => e.entries.lookup k)

/-! ## cmd/template/main.go -/

/-- `strings.TrimPrefix(s, prefix)`. -/
def TrimPrefix (s pfx : Bytes) : Bytes :=
  if pfx.isPrefixOf s then s.drop pfx.length else s

/-- The assignment `e[k] = v` on a map that may be nil: an assignment to an
entry of a nil map panics, which is `none`. -/
def Env.store (e : Env) (k : Bytes) (v : Value) : Option Env :=
  match e with
  | none => none
  | some m => some (some (m.assign k v))

/-- The loop of `main` over `os.Args[2:]` that writes the `--name=value`
overrides into `t.Env`: the env after the loop, `none` when it panics. -/
def overrideLoop : List Bytes → Env → Option Env
  | [], env => some env
  | expr :: rest, env =>
    match Cut 61 expr with
    | (k, v, ok) =>
      if !ok then overrideLoop rest env
      else match env.store (TrimPrefix k (lit "--")) (.str v) with
        | none => none
        | some env => overrideLoop rest env

/-- A decoder whose source declares nothing: it leaves the template as it
was handed it. -/
def silentDecoder : DecoderFn Unit := fun _ t w => ((t, none), w)

/-! ## Definitions for the identity of a template -/

/-- The message of `Error.invalidUses uses`, `fmt.Errorf("template: invalid
template uses: \"%s\", expected \"author/namespace@vX.Y.Z\"", uses)`. -/
def invalidUsesText (uses : Bytes) : Bytes :=
  lit "template: invalid template uses: " ++ 34 :: (uses ++ 34 :: (lit ", expected " ++
    34 :: (lit "author/namespace@vX.Y.Z" ++ [34])))

/-- A template by author "drelf", namespace "weibo", version 1.2.3, without
description. -/
def namedTemplate : Template :=
  { zeroTemplate with Author := lit "drelf", Namespace := lit "weibo", Version := ⟨1, 2, 3⟩ }

/-- A template whose author contains a slash. -/
def slashTemplate : Template :=
  { zeroTemplate with Author := lit "a/b", Namespace := lit "n", Version := ⟨1, 2, 3⟩ }

/-! ## Further concrete templates -/

/-- A step with no skip, no uses and no URL, which declares a set and an
out. -/
def degenerateStep : Step :=
  httpStep [] [] (some [(lit "x", .str (lit "1"))]) (some [(lit "a", .str (lit "1"))])

/-- The degenerate step followed by a plain step. -/
def degenerateTemplate : Template := templateOf [degenerateStep, plainStep]

/-- The request `chainStep` sends. -/
def chainRequest : Request :=
  { Method := lit "GET", URL := lit "http://h/a", Body := none, Header := [] }

/-- The step `chainStep` as a run of `Do` leaves it in the template: its
set has lost the entry under "set". -/
def chainStepAfter : Step :=
  httpStep [] (lit "http://h/a") (some [(lit "x", .str (lit "1"))])
    (some [(lit "r", .str (lit "\x7b\x7bx\x7d\x7d-\x7b\x7by\x7d\x7d"))])

/-! ## Definitions for the calls of the decoder -/

/-- The decoder `dec` with a record of its calls kept beside the world:
every call appends the identity it was called with and the error it
returned; the call itself is that of `dec`. -/
def recordingDecoder {σ : Type} (dec : DecoderFn σ) :
    DecoderFn (σ × List (Bytes × Option Error)) :=
  fun uses t s =>
    match dec uses t s.1 with
    | ((t', err), w') => ((t', err), (w', s.2 ++ [(uses, err)]))

/-- A sequence of decoder calls that stops at its first failure, `err`
being the result: when `err` is nil every call succeeded, otherwise the last
call failed with exactly `err` and every call before it succeeded. -/
def StopsAtFirstFailure (calls : List (Bytes × Option Error)) (err : Option Error) : Prop :=
  match err with
  | none => ∀ c ∈ calls, c.2 = none
  | some e => ∃ init u, calls = init ++ [(u, some e)] ∧ ∀ c ∈ init, c.2 = none

/-! ## Executions that share a renderer root -/

/-- The safe template after a call of `Do` that returned `res`: the child
`st.root.New(...)` shares the function maps of the root, so the functions
registered during the call are those of the root afterwards. -/
def SafeTemplate.afterDo {σ : Type} (_st : SafeTemplate) (res : DoResult σ) : SafeTemplate :=
  { root := res.funcs }

/-- A template without steps whose environment declares foo = "1". -/
def fooTemplate : Template :=
  { zeroTemplate with Env := some [(lit "foo", .str (lit "1"))] }

/-- A template without steps whose environment declares foo from the
function foo: the text is the action foo followed by "2". -/
def fooAgainTemplate : Template :=
  { zeroTemplate with Env := some [(lit "foo", .str (lit "\x7b\x7bfoo\x7d\x7d2"))] }

/-! ## Definitions that follow the spec's words: the order of resolution -/

/-- What resolution works on: an identity with the template it is resolved
into, or the steps of a decoded template. -/
inductive ResolveTask where
  | template (uses : Bytes) (tmpl : Template)
  | steps (steps : List Step)

/-- The spec's resolution, depth first and in declared order, over a decoder
`dec`: `Resolves dec task w calls err w1` when, from the world `w`, the task
makes exactly the decoder calls `calls` (the identity and the error of each,
in the order they are made) and ends with `err` in the world `w1`.  An
identity is decoded and then the steps of the decoded template are resolved;
a failed call ends everything with its error.  Of a list of steps, those
with a non-empty `uses` are resolved one after the other, each as the
identity `uses` into the step's template, and the first that ends with an
error ends the list with that error. -/
inductive Resolves {σ : Type} (dec : DecoderFn σ) :
    ResolveTask → σ → List (Bytes × Option Error) → Option Error → σ → Prop where
  | fail (uses : Bytes) (tmpl d : Template) (e : Error) (w w1 : σ) :
      dec uses tmpl w = ((d, some e), w1) →
      Resolves dec (.template uses tmpl) w [(uses, some e)] (some e) w1
  | decoded (uses : Bytes) (tmpl d : Template) (w w1 w2 : σ)
      (calls : List (Bytes × Option Error)) (err : Option Error) :
      dec uses tmpl w = ((d, none), w1) →
      Resolves dec (.steps d.Steps) w1 calls err w2 →
      Resolves dec (.template uses tmpl) w ((uses, none) :: calls) err w2
  | done (w : σ) : Resolves dec (.steps []) w [] none w
  | pass (s : Step) (rest : List Step) (w w1 : σ) (calls : List (Bytes × Option Error))
      (err : Option Error) :
      s.Uses = [] → Resolves dec (.steps rest) w calls err w1 →
      Resolves dec (.steps (s :: rest)) w calls err w1
  | stop (s : Step) (rest : List Step) (w w1 : σ) (calls : List (Bytes × Option Error))
      (e : Error) :
      s.Uses ≠ [] → Resolves dec (.template s.Uses s.Template) w calls (some e) w1 →
      Resolves dec (.steps (s :: rest)) w calls (some e) w1
  | next (s : Step) (rest : List Step) (w w1 w2 : σ)
      (calls1 calls2 : List (Bytes × Option Error)) (err : Option Error) :
      s.Uses ≠ [] → Resolves dec (.template s.Uses s.Template) w calls1 none w1 →
      Resolves dec (.steps rest) w1 calls2 err w2 →
      Resolves dec (.steps (s :: rest)) w (calls1 ++ calls2) err w2

mutual
/-- The identities under a step, depth first: its `uses` and then those
under the steps of its template, when its `uses` is not empty. -/
def Step.usesOrder : Step → List Bytes
  | .mk t _ _ uses _ _ _ _ _ _ => if uses ≠ [] then uses :: usesOrderOf t else []
/-- The identities under the steps of a template. -/
def usesOrderOf : TemplateOf Step → List Bytes
  | ⟨_, _, _, _, _, _, steps⟩ => usesOrderList steps
/-- The identities under a list of steps, in declared order. -/
def usesOrderList : List Step → List Bytes
  | [] => []
  | s :: rest => s.usesOrder ++ usesOrderList rest
end

/-- A step that uses the template with the given identity and declares
nothing else. -/
def usesStep (uses : Bytes) : Step := Step.mk zeroTemplate 0 [] uses [] [] [] [] none none

/-- A decoder over four sources: "root" has the steps uses a/b, a plain HTTP
step, uses c/d and uses e/f; "a/b@v1.0.0" has the one step uses g/h;
"c/d@v1.0.0" fails with "gone"; any other identity has no steps. -/
def treeDecoder : DecoderFn Unit := fun uses t w =>
  if uses = lit "root" then
    (({ t with Steps := [usesStep (lit "a/b@v1.0.0"), plainStep, usesStep (lit "c/d@v1.0.0"),
        usesStep (lit "e/f@v1.0.0")] }, none), w)
  else if uses = lit "a/b@v1.0.0" then
    (({ t with Steps := [usesStep (lit "g/h@v1.0.0")] }, none), w)
  else if uses = lit "c/d@v1.0.0" then ((t, some (.external (lit "gone"))), w)
  else ((t, none), w)

/-! ## Definitions that follow the spec's words: the out projection -/

theorem parseUintLoop_nondigit (c : Nat) (cs : Bytes) (n : Nat) (hc : ¬ IsDigit c) :
    parseUintLoop (c :: cs) n = .error .ErrSyntax := by
  unfold IsDigit at hc
  rw [parseUintLoop]
  simp only [hc, if_false]
  by_cases hl : 97 ≤ lower c ∧ lower c ≤ 122
  · have : lower c - 97 + 10 ≥ 10 := by omega
    simp [hl, this]
  · simp [hl]

theorem parseUintLoop_digit (c : Nat) (cs : Bytes) (n : Nat) (hc : IsDigit c)
    (hn : n * 10 + (c - 48) < 2 ^ 64) :
    parseUintLoop (c :: cs) n = parseUintLoop cs (n * 10 + (c - 48)) := by
  unfold IsDigit at hc
  rw [parseUintLoop]
  simp only [hc, and_self, if_true]
  have h2 : ¬ (c - 48 ≥ 10) := by omega
  have h3 : ¬ (n ≥ (2 ^ 64 - 1) / 10 + 1) := by norm_num at hn ⊢; omega
  have h4 : n * 10 % 2 ^ 64 = n * 10 := Nat.mod_eq_of_lt (by omega)
  have h5 : (n * 10 + (c - 48)) % 2 ^ 64 = n * 10 + (c - 48) := Nat.mod_eq_of_lt hn
  have h6 : ¬ (n * 10 + (c - 48) < n * 10 ∨ n * 10 + (c - 48) > 2 ^ 64 - 1) := by omega
  simp only [h2, h3, h4, h5, h6, if_false]

theorem parseUintLoop_overflow (c : Nat) (cs : Bytes) (n : Nat) (hc : IsDigit c)
    (hn : n < 2 ^ 64) (ho : 2 ^ 64 ≤ n * 10 + (c - 48)) :
    parseUintLoop (c :: cs) n = .error .ErrRange := by
  unfold IsDigit at hc
  rw [parseUintLoop]
  simp only [hc, and_self, if_true]
  have h2 : ¬ (c - 48 ≥ 10) := by omega
  simp only [h2, if_false]
  by_cases h3 : n ≥ (2 ^ 64 - 1) / 10 + 1
  · simp only [h3, if_true]
  · simp only [h3, if_false]
    have h4 : n * 10 % 2 ^ 64 = n * 10 := by
      apply Nat.mod_eq_of_lt; norm_num at h3 ⊢; omega
    have h6 : (n * 10 + (c - 48)) % 2 ^ 64 < n * 10 ∨ (n * 10 + (c - 48)) % 2 ^ 64 > 2 ^ 64 - 1 := by
      left; norm_num at h3 ho hn ⊢; omega
    simp only [h4, h6, if_true]

theorem fmtUintAux_parse (fuel : Nat) : ∀ (u : Nat) (acc : Bytes), u < fuel → u < 2 ^ 64 →
    parseUintLoop (fmtUintAux fuel u acc) 0 = parseUintLoop acc u := by
  induction fuel with
  | zero => intro u acc h; omega
  | succ fuel ih =>
    intro u acc hf hu
    unfold fmtUintAux
    by_cases h10 : u < 10
    · simp only [h10, if_true]
      rw [parseUintLoop_digit _ _ _ (by unfold IsDigit; omega) (by norm_num; omega)]
      congr 1; omega
    · simp only [h10, if_false]
      rw [ih (u / 10) _ (by omega) (by omega)]
      rw [parseUintLoop_digit _ _ _ (by unfold IsDigit; omega) (by norm_num at hu ⊢; omega)]
      congr 1; omega

theorem fmtUintAux_digits (fuel : Nat) : ∀ (u : Nat) (acc : Bytes), u < fuel →
    ∃ d ds, fmtUintAux fuel u acc = d :: ds ++ acc ∧ IsDigit d ∧ ∀ c ∈ ds, IsDigit c := by
  induction fuel with
  | zero => intro u acc h; omega
  | succ fuel ih =>
    intro u acc hf
    unfold fmtUintAux
    by_cases h10 : u < 10
    · simp only [h10, if_true]
      exact ⟨48 + u, [], by simp, by unfold IsDigit; omega, by simp⟩
    · simp only [h10, if_false]
      obtain ⟨d, ds, h1, h2, h3⟩ := ih (u / 10) ((48 + u % 10) :: acc) (by omega)
      refine ⟨d, ds ++ [48 + u % 10], by simp [h1], h2, ?_⟩
      intro c hc
      rcases List.mem_append.mp hc with h | h
      · exact h3 c h
      · simp at h; subst h; unfold IsDigit; omega

theorem fmtUint_digits (u : Nat) :
    ∃ d ds, fmtUint u = d :: ds ∧ IsDigit d ∧ ∀ c ∈ ds, IsDigit c := by
  obtain ⟨d, ds, h1, h2, h3⟩ := fmtUintAux_digits (u + 1) u [] (by omega)
  exact ⟨d, ds, by simpa [fmtUint] using h1, h2, h3⟩

theorem fmtUint_parse (u : Nat) (hu : u < 2 ^ 64) : ParseUint (fmtUint u) = .ok u := by
  obtain ⟨d, ds, h1, _, _⟩ := fmtUint_digits u
  unfold ParseUint
  rw [if_neg (by rw [h1]; simp)]
  unfold fmtUint
  rw [fmtUintAux_parse _ _ _ (by omega) hu]
  rfl

theorem Split_ne_nil (sep : Nat) (s : Bytes) : Split sep s ≠ [] := by
  cases s with
  | nil => simp [Split]
  | cons c cs =>
    unfold Split
    split
    · simp
    · split <;> simp

theorem Split_of_not_mem (sep : Nat) : ∀ (a : Bytes), sep ∉ a → Split sep a = [a] := by
  intro a
  induction a with
  | nil => intro _; rfl
  | cons c cs ih =>
    intro h
    have hc : c ≠ sep := fun e => h (by simp [e])
    have hcs : sep ∉ cs := fun e => h (by simp [e])
    rw [Split, if_neg hc, ih hcs]

theorem Split_append_sep (sep : Nat) (rest : Bytes) : ∀ (a : Bytes), sep ∉ a →
    Split sep (a ++ sep :: rest) = a :: Split sep rest := by
  intro a
  induction a with
  | nil => intro _; simp [Split]
  | cons c cs ih =>
    intro h
    have hc : c ≠ sep := fun e => h (by simp [e])
    have hcs : sep ∉ cs := fun e => h (by simp [e])
    rw [List.cons_append, Split, if_neg hc, ih hcs]

/-- Every piece `Split` returns is free of the separator, and the pieces
joined by the separator give the string back. -/
theorem Split_spec (sep : Nat) : ∀ (s : Bytes),
    (∀ p ∈ Split sep s, sep ∉ p) ∧ List.intercalate [sep] (Split sep s) = s := by
  intro s
  induction s with
  | nil => simp [Split, List.intercalate]
  | cons c cs ih =>
    obtain ⟨ih1, ih2⟩ := ih
    by_cases hc : c = sep
    · rw [Split, if_pos hc]
      refine ⟨?_, ?_⟩
      · intro p hp
        rcases List.mem_cons.mp hp with h | h
        · subst h; simp
        · exact ih1 p h
      · cases hS : Split sep cs with
        | nil => exact absurd hS (Split_ne_nil sep cs)
        | cons q qs =>
          rw [hS] at ih2
          rw [← ih2, hc]
          simp [List.intercalate, List.intersperse]
    · rw [Split, if_neg hc]
      cases hS : Split sep cs with
      | nil => exact absurd hS (Split_ne_nil sep cs)
      | cons q qs =>
        rw [hS] at ih1 ih2
        refine ⟨?_, ?_⟩
        · intro p hp
          rcases List.mem_cons.mp hp with h | h
          · subst h
            intro hm
            rcases List.mem_cons.mp hm with h' | h'
            · exact hc h'.symm
            · exact ih1 q (by simp) h'
          · exact ih1 p (by simp [h])
        · rw [← ih2]
          cases qs <;> simp [List.intercalate, List.intersperse]

theorem Split_three (s a b c : Bytes) :
    Split 46 s = [a, b, c] ↔
      s = a ++ 46 :: (b ++ 46 :: c) ∧ 46 ∉ a ∧ 46 ∉ b ∧ 46 ∉ c := by
  constructor
  · intro h
    obtain ⟨h1, h2⟩ := Split_spec 46 s
    rw [h] at h1 h2
    refine ⟨?_, h1 a (by simp), h1 b (by simp), h1 c (by simp)⟩
    rw [← h2]; simp [List.intercalate, List.intersperse]
  · rintro ⟨rfl, ha, hb, hc⟩
    rw [Split_append_sep 46 _ a ha, Split_append_sep 46 _ b hb, Split_of_not_mem 46 c hc]

theorem leadingSpace_digit (c : Nat) (t : Bytes) (hc : IsDigit c) :
    leadingSpace (c :: t) = none := by
  unfold IsDigit at hc
  have h : ∀ x : Nat, x < 48 ∨ 57 < x → (x == c) = false := by
    intro x hx; simp; omega
  simp [leadingSpace, spaceEncodings, List.find?, List.isPrefixOf, h]

theorem trailingSpace_digit (c : Nat) (t : Bytes) (hc : IsDigit c) :
    trailingSpace (c :: t).reverse = none := by
  unfold IsDigit at hc
  have h : ∀ x : Nat, x < 48 ∨ 57 < x → (x == c) = false := by
    intro x hx; simp; omega
  unfold trailingSpace
  rw [List.reverse_reverse]
  simp [spaceEncodings, List.find?, List.isPrefixOf, h]

theorem trimLeftAux_digit (fuel c : Nat) (t : Bytes) (hc : IsDigit c) :
    trimLeftAux fuel (c :: t) = c :: t := by
  cases fuel with
  | zero => rfl
  | succ n => simp [trimLeftAux, leadingSpace_digit c t hc]

theorem trimRightAux_digit (fuel c : Nat) (t : Bytes) (hc : IsDigit c) :
    trimRightAux fuel (c :: t) = c :: t := by
  cases fuel with
  | zero => rfl
  | succ n => simp only [trimRightAux, trailingSpace_digit c t hc]

/-- A non-empty string of digits has no white space to trim. -/
theorem TrimSpace_digits (d : Nat) (ds : Bytes) (hd : IsDigit d) (hds : ∀ c ∈ ds, IsDigit c) :
    TrimSpace (d :: ds) = d :: ds := by
  unfold TrimSpace
  simp only [trimLeftAux_digit _ d ds hd]
  have hne : (d :: ds).reverse ≠ [] := by simp
  obtain ⟨c, t, hct⟩ := List.exists_cons_of_ne_nil hne
  have hc : IsDigit c := by
    have : c ∈ (d :: ds).reverse := by rw [hct]; simp
    rw [List.mem_reverse] at this
    rcases List.mem_cons.mp this with h | h
    · exact h ▸ hd
    · exact hds c h
  rw [hct, trimRightAux_digit _ c t hc, ← hct, List.reverse_reverse]

theorem parsePart_fmtUint (u : Nat) (hu : u < 2 ^ 64) : parsePart (fmtUint u) = .ok u := by
  obtain ⟨d, ds, h1, h2, h3⟩ := fmtUint_digits u
  unfold parsePart
  simp only []
  rw [h1, TrimSpace_digits d ds h2 h3, if_neg (by simp), ← h1, fmtUint_parse u hu]

theorem fmtUint_no_dot (u : Nat) : 46 ∉ fmtUint u := by
  obtain ⟨d, ds, h1, h2, h3⟩ := fmtUint_digits u
  rw [h1]
  intro hm
  rcases List.mem_cons.mp hm with h | h
  · unfold IsDigit at h2; omega
  · have := h3 46 h; unfold IsDigit at this; omega

/-- C1. For every version `v` whose three components are unsigned 64-bit
values and every prior content `r` of the receiver, `UnmarshalText` applied
to the bytes of `v.String()` returns no error and leaves the receiver equal
to `v`: Parse(Format(v)) == v. -/
theorem C1_version_round_trip (v r : Version) (hv : v.InRange) :
    r.UnmarshalText v.String = (v, none) := by
  obtain ⟨hM, hm, hp⟩ := hv
  unfold Version.UnmarshalText Version.String
  simp only [ne_eq, not_true_eq_false, if_false]
  rw [Split_append_sep 46 _ _ (fmtUint_no_dot _), Split_append_sep 46 _ _ (fmtUint_no_dot _),
    Split_of_not_mem 46 _ (fmtUint_no_dot _)]
  simp only [parsePart_fmtUint _ hM, parsePart_fmtUint _ hm, parsePart_fmtUint _ hp]

/-- C1 at a concrete version: the largest major, a zero minor and a
twenty-digit patch come back from their text, over a receiver that held
7.8.9. -/
theorem C1_version_round_trip_witness :
    (Version.mk (2 ^ 64 - 1) 0 12345678901234567890).InRange ∧
      (Version.mk 7 8 9).UnmarshalText (Version.mk (2 ^ 64 - 1) 0 12345678901234567890).String
        = (Version.mk (2 ^ 64 - 1) 0 12345678901234567890, none) :=
  ⟨by decide, C1_version_round_trip _ _ (by decide)⟩

theorem le_foldl_dec (s : Bytes) : ∀ n0 : Nat,
    n0 ≤ s.foldl (fun acc c => acc * 10 + (c - 48)) n0 := by
  induction s with
  | nil => intro n0; simp
  | cons c cs ih =>
    intro n0
    simp only [List.foldl_cons]
    exact le_trans (by omega) (ih _)

theorem parseUintLoop_iff (s : Bytes) : ∀ (n0 n : Nat), n0 < 2 ^ 64 →
    (parseUintLoop s n0 = .ok n ↔
      (∀ c ∈ s, IsDigit c) ∧ s.foldl (fun acc c => acc * 10 + (c - 48)) n0 = n ∧ n < 2 ^ 64) := by
  induction s with
  | nil =>
    intro n0 n h0
    simp only [parseUintLoop, Except.ok.injEq, List.not_mem_nil, false_implies, implies_true,
      List.foldl_nil, true_and]
    constructor
    · rintro rfl; exact ⟨rfl, h0⟩
    · rintro ⟨h, _⟩; exact h
  | cons c cs ih =>
    intro n0 n h0
    by_cases hc : IsDigit c
    · by_cases ho : n0 * 10 + (c - 48) < 2 ^ 64
      · rw [parseUintLoop_digit c cs n0 hc ho, ih _ n ho]
        simp only [List.mem_cons, forall_eq_or_imp, hc, true_and, List.foldl_cons]
      · rw [parseUintLoop_overflow c cs n0 hc h0 (by omega)]
        constructor
        · intro h; cases h
        · rintro ⟨_, h2, h3⟩
          exfalso
          simp only [List.foldl_cons] at h2
          have := le_foldl_dec cs (n0 * 10 + (c - 48))
          omega
    · rw [parseUintLoop_nondigit c cs n0 hc]
      constructor
      · intro h; cases h
      · rintro ⟨h1, _⟩
        exact absurd (h1 c (by simp)) hc

theorem ParseUint_iff (s : Bytes) (n : Nat) : ParseUint s = .ok n ↔ IsUintText s n := by
  unfold ParseUint IsUintText decimalValue
  by_cases hs : s = []
  · simp [hs]
  · rw [if_neg hs, parseUintLoop_iff s 0 n (by norm_num)]
    simp [hs]

theorem parsePart_iff (part : Bytes) (n : Nat) :
    parsePart part = .ok n ↔ IsUintText (TrimSpace part) n := by
  unfold parsePart
  simp only []
  by_cases hs : TrimSpace part = []
  · rw [if_pos hs]
    constructor
    · intro h; cases h
    · intro h; exact absurd hs h.1
  · rw [if_neg hs, ← ParseUint_iff]
    cases hP : ParseUint (TrimSpace part) with
    | error e => simp
    | ok val => simp

theorem UnmarshalText_ok_iff (v : Version) (data : Bytes) (M m p : Nat) :
    v.UnmarshalText data = (⟨M, m, p⟩, none) ↔
      ∃ s p0 p1 p2, data = 118 :: s ∧ Split 46 s = [p0, p1, p2] ∧
        parsePart p0 = .ok M ∧ parsePart p1 = .ok m ∧ parsePart p2 = .ok p := by
  constructor
  · intro h
    unfold Version.UnmarshalText at h
    split at h
    · simp at h
    · rename_i c s
      split at h
      · simp at h
      · rename_i hc
        simp only [ne_eq, Decidable.not_not] at hc
        subst hc
        split at h
        · rename_i p0 p1 p2 hS
          refine ⟨s, p0, p1, p2, rfl, hS, ?_⟩
          cases h0 : parsePart p0 with
          | error e => rw [h0] at h; simp at h
          | ok a =>
            cases h1 : parsePart p1 with
            | error e => rw [h0, h1] at h; simp at h
            | ok b =>
              cases h2 : parsePart p2 with
              | error e => rw [h0, h1, h2] at h; simp at h
              | ok c =>
                rw [h0, h1, h2] at h
                simp only [Prod.mk.injEq, Version.mk.injEq, and_true] at h
                obtain ⟨rfl, rfl, rfl⟩ := h
                exact ⟨rfl, rfl, rfl⟩
        · simp at h
  · rintro ⟨s, p0, p1, p2, rfl, hS, h0, h1, h2⟩
    unfold Version.UnmarshalText
    simp only [ne_eq, not_true_eq_false, if_false, hS, h0, h1, h2]

theorem UnmarshalText_success (v : Version) (data : Bytes)
    (h : (v.UnmarshalText data).2 = none) :
    ∃ M m p, v.UnmarshalText data = (⟨M, m, p⟩, none) := by
  unfold Version.UnmarshalText at h ⊢
  split
  · simp at h
  · rename_i c s
    by_cases hc : c = 118
    · subst hc
      simp only [ne_eq, not_true_eq_false, if_false] at h ⊢
      split
      · rename_i p0 p1 p2 hS
        rw [hS] at h
        simp only [] at h
        cases h0 : parsePart p0 with
        | error e => rw [h0] at h; simp at h
        | ok a =>
          cases h1 : parsePart p1 with
          | error e => rw [h0, h1] at h; simp at h
          | ok b =>
            cases h2 : parsePart p2 with
            | error e => rw [h0, h1, h2] at h; simp at h
            | ok c => exact ⟨a, b, c, rfl⟩
      · rename_i hS
        split at h
        · rename_i p0 p1 p2 hS2
          exact absurd hS2 (hS p0 p1 p2)
        · simp at h
    · simp [hc] at h

theorem UnmarshalText_iff (v : Version) (data : Bytes) (M m p : Nat) :
    v.UnmarshalText data = (⟨M, m, p⟩, none) ↔ IsVersionText data M m p := by
  rw [UnmarshalText_ok_iff]
  unfold IsVersionText
  constructor
  · rintro ⟨s, p0, p1, p2, rfl, hS, h0, h1, h2⟩
    obtain ⟨rfl, ha, hb, hc⟩ := (Split_three s p0 p1 p2).mp hS
    exact ⟨p0, p1, p2, rfl, ha, hb, hc, (parsePart_iff _ _).mp h0, (parsePart_iff _ _).mp h1,
      (parsePart_iff _ _).mp h2⟩
  · rintro ⟨a, b, c, rfl, ha, hb, hc, h0, h1, h2⟩
    exact ⟨_, a, b, c, rfl, (Split_three _ a b c).mpr ⟨rfl, ha, hb, hc⟩,
      (parsePart_iff _ _).mpr h0, (parsePart_iff _ _).mpr h1, (parsePart_iff _ _).mpr h2⟩

/-- C2. For every byte string `data` and receiver `v`, `UnmarshalText`
succeeds exactly when `data` is the byte `v` followed by three dot-separated
components, each of which is, after trimming white space, a non-empty string
of decimal digits with value below 2^64; on success major, minor and patch
are those values.  A missing `v` ("1.2.3"), a wrong component count
("v1.2"), a non-numeric component ("va.b.c") and an empty one ("v1..3") are
rejected with an error. -/
theorem C2_unmarshal_text_accepts (v : Version) (data : Bytes) :
    ((v.UnmarshalText data).2 = none ↔ ∃ M m p, IsVersionText data M m p) ∧
    (∀ M m p, v.UnmarshalText data = (⟨M, m, p⟩, none) ↔ IsVersionText data M m p) ∧
    v.UnmarshalText (lit "1.2.3") = (v, some (.invalidPrefix 49)) ∧
    v.UnmarshalText (lit "v1.2") = (v, some .ErrInvalidFormat) ∧
    v.UnmarshalText (lit "va.b.c") = (v, some (.invalidNumber (lit "a") .ErrSyntax)) ∧
    v.UnmarshalText (lit "v1..3") = (v, some .ErrEmptyComponent) := by
  refine ⟨?_, fun M m p => UnmarshalText_iff v data M m p, rfl, rfl, rfl, rfl⟩
  constructor
  · intro h
    obtain ⟨M, m, p, hr⟩ := UnmarshalText_success v data h
    exact ⟨M, m, p, (UnmarshalText_iff v data M m p).mp hr⟩
  · rintro ⟨M, m, p, h⟩
    rw [(UnmarshalText_iff v data M m p).mpr h]

/-- C2 at a concrete text: "v 10.\t2.3\n" is accepted as 10.2.3 (white space
around a component is trimmed), and it is a version text in the spec's sense. -/
theorem C2_unmarshal_text_accepts_witness :
    IsVersionText (lit "v 10.\t2.3\n") 10 2 3 ∧
      (Version.mk 0 0 0).UnmarshalText (lit "v 10.\t2.3\n") = (⟨10, 2, 3⟩, none) :=
  ⟨((C2_unmarshal_text_accepts (Version.mk 0 0 0) (lit "v 10.\t2.3\n")).2.1 10 2 3).mp
      (by decide), by decide⟩

/-! ## Maps -/

theorem EnvMap.lookup_assign (m : EnvMap) (k : Bytes) (v : Value) (k' : Bytes) :
    (m.assign k v).lookup k' = if k = k' then some v else m.lookup k' := by
  induction m with
  | nil => simp [EnvMap.assign, EnvMap.lookup]
  | cons p tl ih =>
    obtain ⟨k0, v0⟩ := p
    unfold EnvMap.assign
    by_cases h0 : k0 = k
    · subst h0
      simp only [if_true, EnvMap.lookup]
      by_cases h : k0 = k' <;> simp [h]
    · simp only [h0, if_false, EnvMap.lookup, ih]
      by_cases h1 : k0 = k'
      · subst h1
        simp [h0, Ne.symm h0]
      · simp [h1]

theorem EnvMap.lookup_filter_ne (m : EnvMap) (k0 k : Bytes) :
    EnvMap.lookup (m.filter (fun p => p.1 ≠ k0)) k = if k = k0 then none else m.lookup k := by
  induction m with
  | nil => simp [EnvMap.lookup]
  | cons p tl ih =>
    obtain ⟨k1, v1⟩ := p
    by_cases h1 : k1 = k0
    · subst h1
      simp only [List.filter, ne_eq, not_true_eq_false, decide_False, ih, EnvMap.lookup]
      by_cases h2 : k = k1
      · simp [h2]
      · simp [h2, Ne.symm h2]
    · simp only [List.filter, ne_eq, h1, not_false_eq_true, decide_True, EnvMap.lookup, ih]
      by_cases h2 : k1 = k
      · subst h2; simp [h1]
      · simp [h2]

theorem EnvMap.lookup_delete (m : EnvMap) (k0 k : Bytes) :
    (m.delete k0).lookup k = if k = k0 then none else m.lookup k :=
  EnvMap.lookup_filter_ne m k0 k

theorem EnvMap.lookup_range (m : EnvMap) (k : Bytes) : m.range.lookup k = m.lookup k := by
  induction m with
  | nil => rfl
  | cons p tl ih =>
    obtain ⟨k0, v0⟩ := p
    simp only [EnvMap.range, EnvMap.lookup]
    by_cases h : k0 = k
    · simp [h]
    · simp only [h, if_false, EnvMap.lookup_filter_ne, ih]
      simp [Ne.symm h]

theorem EnvMap.lookup_eq_none_of_not_mem (m : EnvMap) (k : Bytes)
    (h : k ∉ m.map Prod.fst) : m.lookup k = none := by
  induction m with
  | nil => rfl
  | cons p tl ih =>
    obtain ⟨k0, v0⟩ := p
    simp only [List.map_cons, List.mem_cons, not_or] at h
    simp only [EnvMap.lookup, Ne.symm h.1, if_false]
    exact ih h.2

theorem EnvMap.range_nodup (m : EnvMap) : (m.range.map Prod.fst).Nodup := by
  induction m with
  | nil => simp [EnvMap.range]
  | cons p tl ih =>
    obtain ⟨k0, v0⟩ := p
    simp only [EnvMap.range, List.map_cons, List.nodup_cons]
    constructor
    · simp [List.mem_map, List.mem_filter]
    · exact (ih.sublist (List.Sublist.map _ (List.filter_sublist _)))

/-- Assigning the entries of a list with distinct keys, in order: the list's
entry wins, a key it lacks keeps what the target had. -/
theorem EnvMap.lookup_foldl_assign (l : EnvMap) (hl : (l.map Prod.fst).Nodup) :
    ∀ (n : EnvMap) (k : Bytes),
      (l.foldl (fun n kv => n.assign kv.1 kv.2) n).lookup k =
        match l.lookup k with
        | some v => some v
        | none => n.lookup k := by
  induction l with
  | nil => intro n k; rfl
  | cons p tl ih =>
    intro n k
    obtain ⟨k0, v0⟩ := p
    simp only [List.map_cons, List.nodup_cons] at hl
    simp only [List.foldl_cons, ih hl.2, EnvMap.lookup, EnvMap.lookup_assign]
    by_cases h : k0 = k
    · subst h
      simp [EnvMap.lookup_eq_none_of_not_mem tl k0 hl.1]
    · simp [h]

theorem lookup_copyInto (n : EnvMap) (e : Env) (k : Bytes) :
    (copyInto n e).lookup k =
      match e.entries.lookup k with
      | some v => some v
      | none => n.lookup k := by
  unfold copyInto
  rw [EnvMap.lookup_foldl_assign _ (EnvMap.range_nodup _), EnvMap.lookup_range]

/-- `AppendEnv(e)` holds exactly the entries of `e`. -/
theorem lookup_AppendEnv_nil (e : Env) (k : Bytes) :
    (AppendEnv e []).entries.lookup k = e.entries.lookup k := by
  simp only [AppendEnv, Env.entries, Option.getD_some, List.foldl_nil]
  rw [lookup_copyInto]
  cases h : EnvMap.lookup (e.getD []) k <;> simp [Env.entries, h, EnvMap.lookup]

/-- `AppendEnv(d, c)` holds the entry of `c` under a key `c` has, and the
entry of `d` under any other key. -/
theorem lookup_AppendEnv_one (d c : Env) (k : Bytes) :
    (AppendEnv d [c]).entries.lookup k =
      match c.entries.lookup k with
      | some v => some v
      | none => d.entries.lookup k := by
  simp only [AppendEnv, Env.entries, Option.getD_some, List.foldl_cons, List.foldl_nil]
  rw [lookup_copyInto, lookup_copyInto]
  cases h : EnvMap.lookup (c.getD []) k with
  | some v => simp [Env.entries, h]
  | none =>
    cases h' : EnvMap.lookup (d.getD []) k <;> simp [Env.entries, h, h', EnvMap.lookup]

/-! ## Resolution -/

/-- What a successful `Unmarshal` did: the decoder succeeded on the
template, the loop over the decoded steps succeeded, and the result is the
decoded template with the caller's namespace restored, the caller's env
merged over the decoded one, and the steps the loop left. -/
theorem Unmarshal_ok {σ : Type} (D : Option (DecoderFn σ)) (fuel : Nat) (uses : Bytes)
    (tmpl tmpl' : Template) (w w' : σ)
    (h : Unmarshal D fuel uses tmpl w = some (tmpl', none, w')) :
    ∃ dec fuel' d w1 steps, D = some dec ∧ fuel = fuel' + 1 ∧
      dec uses tmpl w = ((d, none), w1) ∧
      unmarshalSteps (Unmarshal D fuel') d.Steps w1 = some (steps, none, w') ∧
      tmpl'.Namespace = (if tmpl.Namespace ≠ [] then tmpl.Namespace else d.Namespace) ∧
      tmpl'.Env = AppendEnv d.Env [AppendEnv tmpl.Env []] ∧
      tmpl'.Steps = steps := by
  cases fuel with
  | zero => simp [Unmarshal] at h
  | succ fuel' =>
    cases D with
    | none => simp [Unmarshal] at h
    | some dec =>
      simp only [Unmarshal] at h
      rcases hd : dec uses tmpl w with ⟨⟨d, e⟩, w1⟩
      rw [hd] at h
      cases e with
      | some err => simp at h
      | none =>
        simp only [] at h
        have hsteps : (if tmpl.Namespace ≠ [] then { d with Namespace := tmpl.Namespace }
            else d).Steps = d.Steps := by
          split <;> rfl
        have henv : (if tmpl.Namespace ≠ [] then { d with Namespace := tmpl.Namespace }
            else d).Env = d.Env := by
          split <;> rfl
        have hns : (if tmpl.Namespace ≠ [] then { d with Namespace := tmpl.Namespace }
            else d).Namespace = (if tmpl.Namespace ≠ [] then tmpl.Namespace else d.Namespace) := by
          split <;> rfl
        rw [hsteps, henv] at h
        cases hs : unmarshalSteps (Unmarshal (some dec) fuel') d.Steps w1 with
        | none => rw [hs] at h; simp at h
        | some r =>
          obtain ⟨steps, err, w2⟩ := r
          rw [hs] at h
          simp only [Option.some.injEq, Prod.mk.injEq] at h
          obtain ⟨h1, h2, h3⟩ := h
          subst h1 h2 h3
          exact ⟨dec, fuel', d, w1, steps, rfl, rfl, hd, hs, hns, rfl, rfl⟩

/-- C3. Resolver env rule: when `Unmarshal(uses, tmpl)` succeeds with a
decoder that left the env `D` on the template, the final env is a non-nil
map that holds, under every key, the entry the caller's env `C` had before
the call if `C` has the key, and otherwise the entry `D` has (none when
neither has the key). -/
theorem C3_unmarshal_env_rule {σ : Type} (dec : DecoderFn σ) (fuel : Nat) (uses : Bytes)
    (tmpl tmpl' : Template) (w w' : σ)
    (h : Unmarshal (some dec) fuel uses tmpl w = some (tmpl', none, w')) :
    tmpl'.Env ≠ none ∧
    ∀ k, tmpl'.Env.entries.lookup k =
      match tmpl.Env.entries.lookup k with
      | some v => some v
      | none => (dec uses tmpl w).1.1.Env.entries.lookup k := by
  obtain ⟨dec', fuel', d, w1, steps, hD, _, hd, _, _, henv, _⟩ := Unmarshal_ok _ _ _ _ _ _ _ h
  cases hD
  refine ⟨by rw [henv]; simp [AppendEnv], fun k => ?_⟩
  rw [henv, lookup_AppendEnv_one, lookup_AppendEnv_nil, hd]

/-- C3 on the spec's example: the caller's env {k: 1} over the decoded env
{k: 2, j: 3} gives {k: 1, j: 3}, and no entry under another key. -/
theorem C3_unmarshal_env_rule_witness :
    ∃ t', Unmarshal (some declaringDecoder) 1 (lit "a/b@v1.0.0") callerTemplate () =
        some (t', none, ()) ∧
      t'.Env.entries.lookup (lit "k") = some (.other 1) ∧
      t'.Env.entries.lookup (lit "j") = some (.other 3) ∧
      t'.Env.entries.lookup (lit "z") = none :=
  ⟨_, rfl,
    ((C3_unmarshal_env_rule declaringDecoder 1 (lit "a/b@v1.0.0") callerTemplate _ () ()
      rfl).2 (lit "k")).trans rfl,
    ((C3_unmarshal_env_rule declaringDecoder 1 (lit "a/b@v1.0.0") callerTemplate _ () ()
      rfl).2 (lit "j")).trans rfl,
    ((C3_unmarshal_env_rule declaringDecoder 1 (lit "a/b@v1.0.0") callerTemplate _ () ()
      rfl).2 (lit "z")).trans rfl⟩

/-- C4. Resolver namespace rule: when `Unmarshal(uses, tmpl)` succeeds, the
final namespace is the one the caller had set on `tmpl` if that was not
empty, and the one the decoder left otherwise. -/
theorem C4_unmarshal_namespace_rule {σ : Type} (dec : DecoderFn σ) (fuel : Nat) (uses : Bytes)
    (tmpl tmpl' : Template) (w w' : σ)
    (h : Unmarshal (some dec) fuel uses tmpl w = some (tmpl', none, w')) :
    (tmpl.Namespace ≠ [] → tmpl'.Namespace = tmpl.Namespace) ∧
    (tmpl.Namespace = [] → tmpl'.Namespace = (dec uses tmpl w).1.1.Namespace) := by
  obtain ⟨dec', fuel', d, w1, steps, hD, _, hd, _, hns, _, _⟩ := Unmarshal_ok _ _ _ _ _ _ _ h
  cases hD
  rw [hns, hd]
  constructor
  · intro hne; simp [hne]
  · intro he; simp [he]

/-- C4 on the spec's example: a caller namespace "x" over a decoded "y"
stays "x", and an empty caller namespace becomes the decoded "y". -/
theorem C4_unmarshal_namespace_rule_witness :
    (∃ t', Unmarshal (some declaringDecoder) 1 (lit "a/b@v1.0.0") callerTemplate () =
        some (t', none, ()) ∧ t'.Namespace = lit "x") ∧
    (∃ t', Unmarshal (some namingDecoder) 1 (lit "a/b@v1.0.0") zeroTemplate () =
        some (t', none, ()) ∧ t'.Namespace = lit "y") :=
  ⟨⟨_, rfl, (C4_unmarshal_namespace_rule declaringDecoder 1 (lit "a/b@v1.0.0") callerTemplate _
      () () rfl).1 (by decide)⟩,
   ⟨_, rfl, (C4_unmarshal_namespace_rule namingDecoder 1 (lit "a/b@v1.0.0") zeroTemplate _
      () () rfl).2 rfl⟩⟩

@[simp] theorem Step.withTemplate_Uses (s : Step) (t : TemplateOf Step) :
    (s.withTemplate t).Uses = s.Uses := by cases s; rfl

@[simp] theorem Step.withTemplate_Out (s : Step) (t : TemplateOf Step) :
    (s.withTemplate t).Out = s.Out := by cases s; rfl

@[simp] theorem Step.withTemplate_Set (s : Step) (t : TemplateOf Step) :
    (s.withTemplate t).Set = s.Set := by cases s; rfl

@[simp] theorem Step.withTemplate_Template (s : Step) (t : TemplateOf Step) :
    (s.withTemplate t).Template = t := by cases s; rfl

@[simp] theorem Step.withOut_Uses (s : Step) (o : Env) : (s.withOut o).Uses = s.Uses := by
  cases s; rfl

@[simp] theorem Step.withOut_Out (s : Step) (o : Env) : (s.withOut o).Out = o := by
  cases s; rfl

@[simp] theorem Step.withOut_Template (s : Step) (o : Env) :
    (s.withOut o).Template = s.Template := by cases s; rfl

@[simp] theorem Step.defaultOut_Uses (s : Step) : s.defaultOut.Uses = s.Uses := by
  unfold Step.defaultOut; split <;> simp

@[simp] theorem Step.defaultOut_Template (s : Step) : s.defaultOut.Template = s.Template := by
  unfold Step.defaultOut; split <;> simp

theorem Step.defaultOut_Out (s : Step) : s.defaultOut.Out ≠ none := by
  unfold Step.defaultOut
  split
  · simp
  · rename_i v h; rw [h]; simp

theorem Step.inUsesTree_nil (s : Step) : ¬ Step.InUsesTree s [] := by
  intro h
  cases h with
  | here h => simp at h
  | under h _ _ => simp at h

theorem Step.inUsesTree_cons (s p : Step) (rest : List Step) :
    Step.InUsesTree s (p :: rest) ↔
      s = p ∨ (p.Uses ≠ [] ∧ Step.InUsesTree s p.Template.Steps) ∨ Step.InUsesTree s rest := by
  constructor
  · intro h
    cases h with
    | here h =>
      rcases List.mem_cons.mp h with h | h
      · exact Or.inl h
      · exact Or.inr (Or.inr (Step.InUsesTree.here h))
    | under hp hu ht =>
      rcases List.mem_cons.mp hp with h | h
      · subst h; exact Or.inr (Or.inl ⟨hu, ht⟩)
      · exact Or.inr (Or.inr (Step.InUsesTree.under h hu ht))
  · rintro (h | ⟨hu, ht⟩ | h)
    · subst h; exact Step.InUsesTree.here (List.mem_cons_self _ _)
    · exact Step.InUsesTree.under (List.mem_cons_self _ _) hu ht
    · cases h with
      | here h => exact Step.InUsesTree.here (List.mem_cons_of_mem _ h)
      | under hp hu ht => exact Step.InUsesTree.under (List.mem_cons_of_mem _ hp) hu ht

/-- The loop of `Unmarshal` leaves every step it reaches with a non-nil
`Out`, when the recursive call does so for the templates it resolves. -/
theorem unmarshalSteps_out {σ : Type}
    (rec : Bytes → Template → σ → Option (Template × Option Error × σ))
    (hrec : ∀ u t w t' w', rec u t w = some (t', none, w') →
      ∀ s, Step.InUsesTree s t'.Steps → s.Out ≠ none) :
    ∀ (steps : List Step) (w : σ) (steps' : List Step) (w' : σ),
      unmarshalSteps rec steps w = some (steps', none, w') →
      ∀ s, Step.InUsesTree s steps' → s.Out ≠ none := by
  intro steps
  induction steps with
  | nil =>
    intro w steps' w' h s hs
    simp only [unmarshalSteps, Option.some.injEq, Prod.mk.injEq] at h
    rw [← h.1] at hs
    exact absurd hs (Step.inUsesTree_nil s)
  | cons p rest ih =>
    intro w steps' w' h s hs
    simp only [unmarshalSteps] at h
    by_cases hu : p.Uses = []
    · simp only [hu, ne_eq, not_true_eq_false, if_false] at h
      cases hr : unmarshalSteps rec rest w with
      | none => rw [hr] at h; simp at h
      | some r =>
        obtain ⟨rest', err, w2⟩ := r
        rw [hr] at h
        simp only [Option.some.injEq, Prod.mk.injEq] at h
        obtain ⟨h1, h2, h3⟩ := h
        subst h1 h2 h3
        rcases (Step.inUsesTree_cons _ _ _).mp hs with h | ⟨hu', _⟩ | h
        · subst h
          exact Step.defaultOut_Out p
        · exact absurd (by simpa using hu) hu'
        · exact ih w rest' w2 hr s h
    · simp only [hu, ne_eq, not_false_eq_true, if_true] at h
      cases hc : rec p.Uses p.Template w with
      | none => rw [hc] at h; simp at h
      | some r =>
        obtain ⟨t, e, w1⟩ := r
        rw [hc] at h
        cases e with
        | some err => simp at h
        | none =>
          simp only [] at h
          cases hr : unmarshalSteps rec rest w1 with
          | none => rw [hr] at h; simp at h
          | some r =>
            obtain ⟨rest', err, w2⟩ := r
            rw [hr] at h
            simp only [Option.some.injEq, Prod.mk.injEq] at h
            obtain ⟨h1, h2, h3⟩ := h
            subst h1 h2 h3
            rcases (Step.inUsesTree_cons _ _ _).mp hs with h | ⟨_, ht⟩ | h
            · subst h
              exact Step.defaultOut_Out _
            · have ht' : Step.InUsesTree s t.Steps := by simpa using ht
              exact hrec _ _ _ _ _ hc s ht'
            · exact ih w1 rest' w2 hr s h

theorem Unmarshal_out {σ : Type} (D : Option (DecoderFn σ)) (fuel : Nat) :
    ∀ (uses : Bytes) (tmpl tmpl' : Template) (w w' : σ),
      Unmarshal D fuel uses tmpl w = some (tmpl', none, w') →
      ∀ s, Step.InUsesTree s tmpl'.Steps → s.Out ≠ none := by
  induction fuel with
  | zero => intro uses tmpl tmpl' w w' h; simp [Unmarshal] at h
  | succ n ih =>
    intro uses tmpl tmpl' w w' h
    obtain ⟨dec, fuel', d, w1, steps, _, hf, _, hs, _, _, hst⟩ := Unmarshal_ok _ _ _ _ _ _ _ h
    have hf' : fuel' = n := by omega
    subst hf'
    rw [hst]
    exact unmarshalSteps_out _ (fun u t w t' w' hh => ih u t t' w w' hh) _ _ _ _ hs

/-- C5 as stated fails: the decoder hands back a template whose one step is
an HTTP step (no `uses`) carrying a nested step without `out`; `Unmarshal`
succeeds, and that nested step of the resolved step tree still has a nil
`Out`. -/
theorem C5_out_set_in_whole_tree_counterexample :
    ∃ t', Unmarshal (some nestingDecoder) 1 (lit "root") zeroTemplate () = some (t', none, ()) ∧
      ∃ s, Step.InTree s t'.Steps ∧ s.Out = none :=
  ⟨_, rfl, zeroStep,
    Step.InTree.under (p := nestingStep.defaultOut) (List.mem_cons_self _ _)
      (Step.InTree.here (List.mem_cons_self _ _)), rfl⟩

/-- C5, amended. After a successful `Unmarshal(uses, tmpl)` every step that
resolution reaches (the template's own steps and, recursively, the steps of
the template under any step that has a non-empty `uses`) has a non-nil
`Out`. -/
theorem C5_out_set_where_resolved {σ : Type} (D : Option (DecoderFn σ)) (fuel : Nat)
    (uses : Bytes) (tmpl tmpl' : Template) (w w' : σ)
    (h : Unmarshal D fuel uses tmpl w = some (tmpl', none, w')) :
    ∀ s, Step.InUsesTree s tmpl'.Steps → s.Out ≠ none :=
  Unmarshal_out D fuel uses tmpl tmpl' w w' h

/-- C5 amended, on a template whose step uses another template: the step
and the step of the template it uses both end with a non-nil `Out`. -/
theorem C5_out_set_where_resolved_witness :
    ∃ t', Unmarshal (some chainingDecoder) 2 (lit "root") zeroTemplate () = some (t', none, ()) ∧
      ∃ s p, t'.Steps = [p] ∧ p.Uses ≠ [] ∧ p.Template.Steps = [s] ∧
        p.Out ≠ none ∧ s.Out ≠ none :=
  ⟨_, rfl, nestingStep.defaultOut, _, rfl, by decide, rfl,
    C5_out_set_where_resolved (some chainingDecoder) 2 (lit "root") zeroTemplate _ () () rfl _
      (Step.InUsesTree.here (List.mem_cons_self _ _)),
    C5_out_set_where_resolved (some chainingDecoder) 2 (lit "root") zeroTemplate _ () () rfl _
      (Step.InUsesTree.under (List.mem_cons_self _ _) (by decide)
        (Step.InUsesTree.here (List.mem_cons_self _ _)))⟩

/-! ## Execution: the loop over the steps -/

theorem Step.afterSet_of_nil (s : Step) (h : s.Set = none) : s.afterSet = s := by
  cases s
  simp only [Step.Set] at h
  subst h
  rfl

theorem EnvMap.nextLinks_eq (m : EnvMap) :
    EnvMap.nextLinks m = (Env.index (some m) (lit "set")).setLinks := by
  induction m with
  | nil => simp [EnvMap.nextLinks, Env.index, Env.entries, EnvMap.lookup, Value.setLinks]
  | cons p tl ih =>
    obtain ⟨k, v⟩ := p
    simp only [EnvMap.nextLinks, Env.index, Env.entries, Option.getD_some, EnvMap.lookup]
    by_cases hk : k = lit "set"
    · simp [hk]
    · simp only [hk, if_false]
      rw [ih]
      rfl

/-- The `set` loop ends within `Env.setLinks set` iterations. -/
theorem setLoop_total {σ : Type} (H : Host σ) (name text result : Bytes) (n : Nat) :
    ∀ (set : Env) (funcs : FuncLog), Env.setLinks set ≤ n →
      ∃ r, setLoop H name text result n set funcs = some r := by
  induction n with
  | zero =>
    intro set funcs h
    cases set with
    | none => exact ⟨_, rfl⟩
    | some m => simp [Env.setLinks] at h
  | succ n ih =>
    intro set funcs h
    cases set with
    | none => exact ⟨(funcs, Flow.next ()), by simp [setLoop]⟩
    | some m =>
      simp only [Env.setLinks, EnvMap.nextLinks_eq] at h
      simp only [setLoop]
      rcases hT : ToEnv H funcs text (some (EnvMap.delete m (lit "set"))) with ⟨parent, e⟩
      cases e with
      | some err => exact ⟨_, rfl⟩
      | none =>
        simp only []
        rcases hS : Env.Set H parent funcs [] with ⟨funcs', e'⟩
        cases e' with
        | some err => exact ⟨_, rfl⟩
        | none =>
          simp only []
          cases hv : Env.index (some m) (lit "set") with
          | nil => exact ⟨_, rfl⟩
          | str s => exact ⟨_, rfl⟩
          | other t => exact ⟨_, rfl⟩
          | map m' =>
            rw [hv] at h
            simp only [Value.setLinks] at h
            exact ih m' funcs' (by omega)
          | env m' =>
            rw [hv] at h
            simp only [Value.setLinks] at h
            exact ih m' funcs' (by omega)

/-- The loop over `pre ++ post`, when the loop over `pre` falls through:
the loop over `post` from the state it reached. -/
theorem doSteps_append {σ : Type} (H : Host σ) (fuel : Nat)
    (doSub : Template → FuncLog → σ → Option (DoResult σ)) (post : List Step) :
    ∀ (pre : List Step) (st st1 : LoopState σ) (held : List Step),
      doSteps H fuel doSub pre st = some (st1, .next (), held) →
      doSteps H fuel doSub (pre ++ post) st =
        (doSteps H fuel doSub post st1).map (fun r => (r.1, r.2.1, held ++ r.2.2)) := by
  intro pre
  induction pre with
  | nil =>
    intro st st1 held h
    simp only [doSteps, Option.some.injEq, Prod.mk.injEq] at h
    obtain ⟨h1, _, h3⟩ := h
    subst h1 h3
    cases hp : doSteps H fuel doSub post st <;> simp [hp]
  | cons p pre ih =>
    intro st st1 held h
    simp only [doSteps, List.cons_append] at h ⊢
    cases hs : doStep H fuel doSub p st with
    | none => rw [hs] at h; simp at h
    | some r =>
      obtain ⟨st', flow, hp⟩ := r
      rw [hs] at h
      cases flow with
      | ret o r e => simp at h
      | next u =>
        simp only [] at h ⊢
        cases hr : doSteps H fuel doSub pre st' with
        | none => rw [hr] at h; simp at h
        | some r' =>
          obtain ⟨st'', flow', held'⟩ := r'
          rw [hr] at h
          simp only [Option.some.injEq, Prod.mk.injEq] at h
          obtain ⟨h1, h2, h3⟩ := h
          subst h1 h2 h3
          simp only [List.append_eq]
          rw [ih st' st'' held' hr]
          cases hq : doSteps H fuel doSub post st'' with
          | none => simp
          | some q => simp

/-- A loop that has fallen through `pre` and whose next step returns,
returns what that step returns, and leaves the later steps alone. -/
theorem doSteps_ret {σ : Type} (H : Host σ) (fuel : Nat)
    (doSub : Template → FuncLog → σ → Option (DoResult σ))
    (pre rest : List Step) (step : Step) (st st1 st2 : LoopState σ) (held : List Step)
    (out : Env) (result : Bytes) (err : Option Error) (step' : Step)
    (hpre : doSteps H fuel doSub pre st = some (st1, .next (), held))
    (hstep : doStep H fuel doSub step st1 = some (st2, .ret out result err, step')) :
    doSteps H fuel doSub (pre ++ step :: rest) st =
      some (st2, .ret out result err, held ++ step' :: rest) := by
  rw [doSteps_append H fuel doSub _ pre st st1 held hpre]
  simp [doSteps, hstep]

/-- The result of `Do` when the run reaches a step at which the loop body
returns. -/
theorem Do_of_ret {σ : Type} (H : Host σ) (fuel : Nat) (t : Template) (funcs : FuncLog) (w : σ)
    (pre rest : List Step) (step : Step) (st st2 : LoopState σ) (held : List Step)
    (out : Env) (result : Bytes) (err : Option Error) (step' : Step)
    (hsteps : t.Steps = pre ++ step :: rest)
    (hreach : ReachesStep H fuel t funcs w pre st held)
    (hstep : doStep H fuel (TemplateOf.Do H fuel) step st = some (st2, .ret out result err, step')) :
    TemplateOf.Do H (fuel + 1) t funcs w =
      some { out := out, result := result, err := err, funcs := st2.funcs, world := st2.world,
             tmpl := { t with Steps := held ++ step' :: rest } } := by
  obtain ⟨env, funcs1, hE, hS, hpre⟩ := hreach
  simp only [TemplateOf.Do, hE, hS, hsteps]
  rw [doSteps_ret H fuel _ pre rest step _ st st2 held out result err step' hpre hstep]

/-! ## Execution: the skip check -/

theorem skipCheck_bool {σ : Type} (H : Host σ) (funcs : FuncLog) (step : Step) (r : Bytes)
    (b : Bool) (hs : step.Skip ≠ []) (hr : H.render funcs step.Skip = .ok r)
    (hb : ParseBool r = some b) : skipCheck H funcs step = .next b := by
  simp only [skipCheck, hs, ne_eq, not_false_eq_true, if_true, ToString, hr, hb]

theorem skipCheck_invalid {σ : Type} (H : Host σ) (funcs : FuncLog) (step : Step) (r : Bytes)
    (hs : step.Skip ≠ []) (hr : H.render funcs step.Skip = .ok r)
    (hb : ParseBool r = none) :
    skipCheck H funcs step = .ret none [] (some (.skipParse step.Skip r)) := by
  simp only [skipCheck, hs, ne_eq, not_false_eq_true, if_true, ToString, hr, hb]

theorem skipCheck_empty {σ : Type} (H : Host σ) (funcs : FuncLog) (step : Step)
    (hs : step.Skip = []) : skipCheck H funcs step = .next false := by
  simp [skipCheck, hs]

/-- The HTTP branch leaves the world the transport returns for the request
it built. -/
theorem runRequest_world {σ : Type} (H : Host σ) (step : Step) (st : LoopState σ)
    (req : Request) (hreq : step.Request H st.funcs = .ok req) :
    (runRequest H step st).1.world = (H.Transport req st.world).2 ∧
    (runRequest H step st).1.funcs = st.funcs := by
  simp only [runRequest, hreq]
  rcases hT : H.Transport req st.world with ⟨o, w'⟩
  cases o with
  | failed err => exact ⟨rfl, rfl⟩
  | unread status read err => exact ⟨rfl, rfl⟩
  | response status body =>
    simp only []
    split <;> exact ⟨rfl, rfl⟩

/-- An iteration on a step without `uses` that is not skipped always
completes, in the world the HTTP branch left. -/
theorem doStep_request {σ : Type} (H : Host σ) (fuel : Nat)
    (doSub : Template → FuncLog → σ → Option (DoResult σ)) (step : Step) (st : LoopState σ)
    (hskip : skipCheck H st.funcs step = .next false) (huses : step.Uses = []) :
    ∃ st' flow held, doStep H fuel doSub step st = some (st', flow, held) ∧
      st'.world = (runRequest H step st).1.world := by
  simp only [doStep, runBranch, hskip, huses, ne_eq, not_true_eq_false, if_false]
  rcases hR : runRequest H step st with ⟨st1, flow⟩
  cases flow with
  | ret o r e => exact ⟨_, _, _, rfl, rfl⟩
  | next u =>
    simp only []
    obtain ⟨⟨funcs', fl⟩, hL⟩ := setLoop_total H step.Template.String (responseText H st1.result)
      st1.result (Env.setLinks step.Set) step.Set st1.funcs (le_refl _)
    rw [hL]
    cases fl with
    | ret o r e => exact ⟨_, _, _, rfl, rfl⟩
    | next u' =>
      simp only []
      cases hP : projectOut H step.Template.String (responseText H st1.result) step
          { st1 with funcs := funcs' } with
      | ret o r e => exact ⟨_, _, _, rfl, rfl⟩
      | next st2 =>
        refine ⟨_, _, _, rfl, ?_⟩
        simp only [projectOut] at hP
        split at hP
        · split at hP
          · cases hP
          · cases hP; rfl
        · cases hP; rfl

/-- C6. Skip semantics, for a step `step` that the loop of `Do` meets in the
state `st`.  (1) If its non-empty skip text renders to a string that
`strconv.ParseBool` reads as true, the iteration is a `continue`: whatever
the sub-template run would do, the state (accumulated out, last result,
renderer functions, outside world) and the step are unchanged, so no HTTP
call is issued, no sub-template runs, nothing of its set is registered and
nothing of its out is exported.  (2) If the rendered text is not a boolean
literal, the iteration returns a nil environment and an error, and so does
`Do` for any template in which the run reaches this step, without touching
the renderer or the world further.  (3) An empty skip does not skip: the
check falls through, and for a step without `uses` whose request can be
built the HTTP call is issued.  "true" reads as true and "maybe" is not a
boolean literal. -/
theorem C6_skip_semantics {σ : Type} (H : Host σ) (fuel : Nat) (step : Step)
    (st : LoopState σ) :
    (∀ (doSub : Template → FuncLog → σ → Option (DoResult σ)) (r : Bytes),
      step.Skip ≠ [] → H.render st.funcs step.Skip = .ok r → ParseBool r = some true →
      doStep H fuel doSub step st = some (st, .next (), step)) ∧
    (∀ (doSub : Template → FuncLog → σ → Option (DoResult σ)) (r : Bytes),
      step.Skip ≠ [] → H.render st.funcs step.Skip = .ok r → ParseBool r = none →
      doStep H fuel doSub step st =
        some (st, .ret none [] (some (.skipParse step.Skip r)), step)) ∧
    (∀ (r : Bytes) (t : Template) (funcs : FuncLog) (w : σ) (pre rest held : List Step),
      step.Skip ≠ [] → H.render st.funcs step.Skip = .ok r → ParseBool r = none →
      t.Steps = pre ++ step :: rest → ReachesStep H fuel t funcs w pre st held →
      TemplateOf.Do H (fuel + 1) t funcs w =
        some { out := none, result := [], err := some (.skipParse step.Skip r),
               funcs := st.funcs, world := st.world,
               tmpl := { t with Steps := held ++ step :: rest } }) ∧
    (step.Skip = [] → skipCheck H st.funcs step = .next false) ∧
    (∀ (doSub : Template → FuncLog → σ → Option (DoResult σ)) (req : Request),
      step.Skip = [] → step.Uses = [] → step.Request H st.funcs = .ok req →
      ∃ st' flow held, doStep H fuel doSub step st = some (st', flow, held) ∧
        st'.world = (H.Transport req st.world).2) ∧
    ParseBool (lit "true") = some true ∧ ParseBool (lit "maybe") = none := by
  have hb : ∀ (doSub : Template → FuncLog → σ → Option (DoResult σ)) (r : Bytes),
      step.Skip ≠ [] → H.render st.funcs step.Skip = .ok r → ParseBool r = none →
      doStep H fuel doSub step st =
        some (st, .ret none [] (some (.skipParse step.Skip r)), step) := by
    intro doSub r hs hr hp
    simp only [doStep, skipCheck_invalid H st.funcs step r hs hr hp]
  refine ⟨?_, hb, ?_, skipCheck_empty H st.funcs step, ?_, by decide, by decide⟩
  · intro doSub r hs hr hp
    simp only [doStep, skipCheck_bool H st.funcs step r true hs hr hp]
  · intro r t funcs w pre rest held hs hr hp hsteps hreach
    exact Do_of_ret H fuel t funcs w pre rest step st st held _ _ _ step hsteps hreach
      (hb _ r hs hr hp)
  · intro doSub req hs hu hreq
    obtain ⟨st', flow, held, h1, h2⟩ :=
      doStep_request H fuel doSub step st (skipCheck_empty H st.funcs step hs) hu
    exact ⟨st', flow, held, h1, h2.trans (runRequest_world H step st req hreq).1⟩

/-- C6 on the small host: the step whose skip renders to "true" changes
nothing, and the run of the template that starts with it sends only the
request of the step after it and exports only that step's out; a template
whose second step has a skip rendering to "maybe" returns a nil environment
and the parse error, after the one request of its first step; the step with
an empty skip sends its request. -/
theorem C6_skip_semantics_witness :
    doStep smallHost 0 (TemplateOf.Do smallHost 0) skippedStep startState =
      some (startState, .next (), skippedStep) ∧
    (∃ res, TemplateOf.Do smallHost 1 skippingTemplate [] [] = some res ∧
      res.world = [plainRequest] ∧ res.out = some [(lit "b", .str (lit "2"))] ∧
      res.funcs = [] ∧ res.err = none) ∧
    TemplateOf.Do smallHost 1 maybeTemplate [] [] =
      some { out := none, result := [],
             err := some (.skipParse (lit "maybe") (lit "maybe")),
             funcs := [], world := [plainRequest],
             tmpl := { maybeTemplate with Steps := [plainStep] ++ maybeStep :: [] } } ∧
    (∃ st' flow held, doStep smallHost 0 (TemplateOf.Do smallHost 0) plainStep startState =
      some (st', flow, held) ∧ st'.world = [plainRequest]) :=
  ⟨(C6_skip_semantics smallHost 0 skippedStep startState).1 _ (lit "true") (by decide) rfl rfl,
   ⟨_, rfl, rfl, rfl, rfl, rfl⟩,
   (C6_skip_semantics smallHost 0 maybeStep afterPlain).2.2.1 (lit "maybe") maybeTemplate [] []
      [plainStep] [] [plainStep] (by decide) rfl rfl rfl ⟨_, _, rfl, rfl, rfl⟩,
   (C6_skip_semantics smallHost 0 plainStep startState).2.2.2.2.1 _ plainRequest rfl rfl rfl⟩

/-! ## Execution: the HTTP branch -/

theorem runRequest_response {σ : Type} (H : Host σ) (step : Step) (st : LoopState σ)
    (req : Request) (status : Int) (body : Bytes) (w' : σ)
    (hreq : step.Request H st.funcs = .ok req)
    (hresp : H.Transport req st.world = (.response status body, w')) :
    runRequest H step st =
      ({ st with world := w', result := body },
        if status < 200 ∨ status ≥ 300 then
          .ret none body (some (.badStatus step.Template.String status body))
        else .next ()) := by
  simp only [runRequest, hreq, hresp]
  split <;> rfl

/-- C7. HTTP failure, for a step without `uses` that the loop of `Do`
executes (it is not skipped) in the state `st`, whose request `req` is
answered by a response with status `status` and body `body`, leaving the
world `w'`.  If the status is below 200 or at least 300, the iteration
returns a nil environment, the body, and the error that carries the step's
name, the status code and the body; `Do` of any template in which the run
reaches this step returns exactly that, with the renderer's functions as
they were before the step, the world as the call left it and the later steps
untouched: nothing after the call is executed.  If the status is in
[200, 300) the HTTP branch falls through, and a step with no set and no out
completes with the body as the last result. -/
theorem C7_http_failure {σ : Type} (H : Host σ) (fuel : Nat) (step : Step) (st : LoopState σ)
    (req : Request) (status : Int) (body : Bytes) (w' : σ)
    (hskip : skipCheck H st.funcs step = .next false) (huses : step.Uses = [])
    (hreq : step.Request H st.funcs = .ok req)
    (hresp : H.Transport req st.world = (.response status body, w')) :
    ((status < 200 ∨ status ≥ 300) →
      (∀ doSub : Template → FuncLog → σ → Option (DoResult σ),
        doStep H fuel doSub step st =
          some ({ st with world := w', result := body },
            .ret none body (some (.badStatus step.Template.String status body)), step)) ∧
      (∀ (t : Template) (funcs : FuncLog) (w : σ) (pre rest held : List Step),
        t.Steps = pre ++ step :: rest → ReachesStep H fuel t funcs w pre st held →
        TemplateOf.Do H (fuel + 1) t funcs w =
          some { out := none, result := body,
                 err := some (.badStatus step.Template.String status body),
                 funcs := st.funcs, world := w',
                 tmpl := { t with Steps := held ++ step :: rest } })) ∧
    ((200 ≤ status ∧ status < 300) →
      runRequest H step st = ({ st with world := w', result := body }, .next ()) ∧
      (step.Set = none → step.Out.entries = [] →
        ∀ doSub : Template → FuncLog → σ → Option (DoResult σ),
          doStep H fuel doSub step st =
            some ({ st with world := w', result := body }, .next (), step))) := by
  have hR := runRequest_response H step st req status body w' hreq hresp
  constructor
  · intro hbad
    rw [if_pos hbad] at hR
    have hstep : ∀ doSub : Template → FuncLog → σ → Option (DoResult σ),
        doStep H fuel doSub step st =
          some ({ st with world := w', result := body },
            .ret none body (some (.badStatus step.Template.String status body)), step) := by
      intro doSub
      simp only [doStep, runBranch, hskip, huses, ne_eq, not_true_eq_false, if_false, hR]
    refine ⟨hstep, ?_⟩
    intro t funcs w pre rest held hsteps hreach
    exact Do_of_ret H fuel t funcs w pre rest step st _ held _ _ _ step hsteps hreach (hstep _)
  · intro hgood
    have hnb : ¬ (status < 200 ∨ status ≥ 300) := by omega
    rw [if_neg hnb] at hR
    refine ⟨hR, ?_⟩
    intro hset hout doSub
    simp only [doStep, runBranch, hskip, huses, ne_eq, not_true_eq_false, if_false, hR, hset, setLoop,
      projectOut, hout, List.length_nil, Step.afterSet_of_nil step hset]

/-- C7 on the small host: the second step of the template is answered 404
"not found"; `Do` returns a nil environment and the error with the code 404
and that body, the renderer has none of the step's set registered, and the
world holds the requests of the first two steps only. -/
theorem C7_http_failure_witness :
    TemplateOf.Do smallHost 1 failingTemplate [] [] =
      some { out := none, result := lit "not found",
             err := some (.badStatus missingStep.Template.String 404 (lit "not found")),
             funcs := [], world := [plainRequest, missingRequest],
             tmpl := { failingTemplate with
                         Steps := [plainStep] ++ missingStep :: [skippedStep] } } :=
  ((C7_http_failure smallHost 0 missingStep afterPlain missingRequest 404 (lit "not found")
      [plainRequest, missingRequest] rfl rfl rfl rfl).1 (by decide)).2
    failingTemplate [] [] [plainStep] [skippedStep] [plainStep] rfl ⟨_, _, rfl, rfl, rfl⟩

/-! ## Execution: every return inside the loop is an abort -/

theorem skipCheck_aborts {σ : Type} (H : Host σ) (funcs : FuncLog) (step : Step) :
    (skipCheck H funcs step).Aborts := by
  unfold skipCheck
  split
  · split
    · simp [Flow.Aborts]
    · split <;> simp [Flow.Aborts]
  · simp [Flow.Aborts]

theorem setLoop_aborts {σ : Type} (H : Host σ) (name text result : Bytes) (n : Nat) :
    ∀ (set : Env) (funcs funcs' : FuncLog) (flow : Flow Unit),
      setLoop H name text result n set funcs = some (funcs', flow) → flow.Aborts := by
  induction n with
  | zero =>
    intro set funcs funcs' flow h
    cases set with
    | none =>
      simp only [setLoop, Option.some.injEq, Prod.mk.injEq] at h
      rw [← h.2]; simp [Flow.Aborts]
    | some m => simp [setLoop] at h
  | succ n ih =>
    intro set funcs funcs' flow h
    cases set with
    | none =>
      simp only [setLoop, Option.some.injEq, Prod.mk.injEq] at h
      rw [← h.2]; simp [Flow.Aborts]
    | some m =>
      simp only [setLoop] at h
      rcases hT : ToEnv H funcs text (some (EnvMap.delete m (lit "set"))) with ⟨parent, e⟩
      rw [hT] at h
      cases e with
      | some err =>
        simp only [Option.some.injEq, Prod.mk.injEq] at h
        rw [← h.2]; simp [Flow.Aborts]
      | none =>
        simp only [] at h
        rcases hS : Env.Set H parent funcs [] with ⟨funcs1, e'⟩
        rw [hS] at h
        cases e' with
        | some err =>
          simp only [Option.some.injEq, Prod.mk.injEq] at h
          rw [← h.2]; simp [Flow.Aborts]
        | none =>
          simp only [] at h
          cases hv : Env.index (some m) (lit "set") with
          | nil =>
            rw [hv] at h
            simp only [Option.some.injEq, Prod.mk.injEq] at h
            rw [← h.2]; simp [Flow.Aborts]
          | str s =>
            rw [hv] at h
            simp only [Option.some.injEq, Prod.mk.injEq] at h
            rw [← h.2]; simp [Flow.Aborts]
          | other t =>
            rw [hv] at h
            simp only [Option.some.injEq, Prod.mk.injEq] at h
            rw [← h.2]; simp [Flow.Aborts]
          | map m' => rw [hv] at h; exact ih m' funcs1 funcs' flow h
          | env m' => rw [hv] at h; exact ih m' funcs1 funcs' flow h

theorem runRequest_aborts {σ : Type} (H : Host σ) (step : Step) (st : LoopState σ) :
    (runRequest H step st).2.Aborts := by
  unfold runRequest
  split
  · simp [Flow.Aborts]
  · split
    · simp [Flow.Aborts]
    · simp [Flow.Aborts]
    · simp only []
      split <;> simp [Flow.Aborts]

theorem runUses_aborts {σ : Type} (H : Host σ)
    (unm : Bytes → Template → σ → Option (Template × Option Error × σ))
    (doSub : Template → FuncLog → σ → Option (DoResult σ)) (step : Step) (st : LoopState σ)
    (step' : Step) (fresh : Bool) (st' : LoopState σ) (flow : Flow Unit)
    (h : runUses H unm doSub step st = some (step', fresh, st', flow)) : flow.Aborts := by
  unfold runUses at h
  simp only [] at h
  split at h
  · cases h
  · simp only [Option.some.injEq, Prod.mk.injEq] at h
    rw [← h.2.2.2]; simp [Flow.Aborts]
  · split at h
    · cases h
    · split at h
      · simp only [Option.some.injEq, Prod.mk.injEq] at h
        rw [← h.2.2.2]; simp [Flow.Aborts]
      · split at h
        · simp only [Option.some.injEq, Prod.mk.injEq] at h
          rw [← h.2.2.2]; simp [Flow.Aborts]
        · simp only [Option.some.injEq, Prod.mk.injEq] at h
          rw [← h.2.2.2]; simp [Flow.Aborts]

theorem projectOut_aborts {σ : Type} (H : Host σ) (name text : Bytes) (step : Step)
    (st : LoopState σ) : (projectOut H name text step st).Aborts := by
  unfold projectOut
  split
  · split <;> simp [Flow.Aborts]
  · simp [Flow.Aborts]

theorem runBranch_aborts {σ : Type} (H : Host σ) (fuel : Nat)
    (doSub : Template → FuncLog → σ → Option (DoResult σ)) (step : Step) (st : LoopState σ)
    (s1 h1 : Step) (st1 : LoopState σ) (fl : Flow Unit)
    (hb : runBranch H fuel doSub step st = some (s1, h1, st1, fl)) : fl.Aborts := by
  unfold runBranch at hb
  split at hb
  · cases hu : runUses H (Unmarshal H.Decoder fuel) doSub step st with
    | none => rw [hu] at hb; cases hb
    | some r =>
      obtain ⟨s2, fr, st2, fl2⟩ := r
      rw [hu] at hb
      simp only [Option.some.injEq, Prod.mk.injEq] at hb
      rw [← hb.2.2.2]
      exact runUses_aborts H _ doSub step st s2 fr st2 fl2 hu
  · have := runRequest_aborts H step st
    rcases hr : runRequest H step st with ⟨st2, fl2⟩
    rw [hr] at hb this
    simp only [Option.some.injEq, Prod.mk.injEq] at hb
    rw [← hb.2.2.2]; exact this

theorem doStep_aborts {σ : Type} (H : Host σ) (fuel : Nat)
    (doSub : Template → FuncLog → σ → Option (DoResult σ)) (step : Step) (st st' : LoopState σ)
    (flow : Flow Unit) (held : Step)
    (h : doStep H fuel doSub step st = some (st', flow, held)) : flow.Aborts := by
  unfold doStep at h
  have hk := skipCheck_aborts H st.funcs step
  cases hsk : skipCheck H st.funcs step with
  | ret o r e =>
    rw [hsk] at h hk
    simp only [Option.some.injEq, Prod.mk.injEq] at h
    rw [← h.2.1]; exact hk
  | next b =>
    rw [hsk] at h
    cases b with
    | true =>
      simp only [Option.some.injEq, Prod.mk.injEq] at h
      rw [← h.2.1]; simp [Flow.Aborts]
    | false =>
      simp only [] at h
      split at h
      · cases h
      · rename_i s1 h1 st1 o r e hb
        simp only [Option.some.injEq, Prod.mk.injEq] at h
        rw [← h.2.1]
        exact runBranch_aborts H fuel doSub step st _ _ _ _ hb
      · rename_i s1 h1 st1 hb
        split at h
        · cases h
        · rename_i f1 o r e hl
          simp only [Option.some.injEq, Prod.mk.injEq] at h
          rw [← h.2.1]
          exact setLoop_aborts H _ _ _ _ _ _ _ _ hl
        · rename_i f1 hl
          have hp := projectOut_aborts H s1.Template.String (responseText H st1.result) s1
            { st1 with funcs := f1 }
          split at h
          · rename_i o r e hpo
            rw [hpo] at hp
            simp only [Option.some.injEq, Prod.mk.injEq] at h
            rw [← h.2.1]; exact hp
          · simp only [Option.some.injEq, Prod.mk.injEq] at h
            rw [← h.2.1]; simp [Flow.Aborts]

theorem doSteps_aborts {σ : Type} (H : Host σ) (fuel : Nat)
    (doSub : Template → FuncLog → σ → Option (DoResult σ)) :
    ∀ (steps : List Step) (st st' : LoopState σ) (flow : Flow Unit) (held : List Step),
      doSteps H fuel doSub steps st = some (st', flow, held) → flow.Aborts := by
  intro steps
  induction steps with
  | nil =>
    intro st st' flow held h
    simp only [doSteps, Option.some.injEq, Prod.mk.injEq] at h
    rw [← h.2.1]; simp [Flow.Aborts]
  | cons p rest ih =>
    intro st st' flow held h
    simp only [doSteps] at h
    cases hs : doStep H fuel doSub p st with
    | none => rw [hs] at h; cases h
    | some r =>
      obtain ⟨st1, fl, hp⟩ := r
      rw [hs] at h
      cases fl with
      | ret o r e =>
        simp only [Option.some.injEq, Prod.mk.injEq] at h
        rw [← h.2.1]
        exact doStep_aborts H fuel doSub p st st1 _ hp hs
      | next u =>
        simp only [] at h
        cases hr : doSteps H fuel doSub rest st1 with
        | none => rw [hr] at h; cases h
        | some r' =>
          obtain ⟨st2, fl2, held2⟩ := r'
          rw [hr] at h
          simp only [Option.some.injEq, Prod.mk.injEq] at h
          rw [← h.2.1]
          exact ih st1 st2 fl2 held2 hr

/-- C8. All-or-nothing result of `Do`: for every host (renderer, transport,
decoder), template, renderer state and world, a call of `Do` that returns
with a non-nil error returns a nil exported environment, and one that
returns with a nil error returns a non-nil one. -/
theorem C8_do_all_or_nothing {σ : Type} (H : Host σ) (fuel : Nat) (t : Template)
    (funcs : FuncLog) (w : σ) (res : DoResult σ)
    (h : TemplateOf.Do H fuel t funcs w = some res) :
    (res.err ≠ none → res.out = none) ∧ (res.err = none → res.out ≠ none) := by
  cases fuel with
  | zero => simp [TemplateOf.Do] at h
  | succ n =>
    simp only [TemplateOf.Do] at h
    split at h
    · cases h; simp
    · split at h
      · cases h; simp
      · split at h
        · cases h
        · rename_i st o r e steps hd
          have := doSteps_aborts H n _ _ _ _ _ _ hd
          cases h
          simp only [Flow.Aborts] at this
          simp [this.1, this.2]
        · cases h; simp

/-- C8 on the small host: the run that meets a 404 returns an error and a
nil environment; the run of the skipping template returns no error and a
non-nil environment. -/
theorem C8_do_all_or_nothing_witness :
    (∃ res, TemplateOf.Do smallHost 1 failingTemplate [] [] = some res ∧
      res.err ≠ none ∧ res.out = none) ∧
    (∃ res, TemplateOf.Do smallHost 1 skippingTemplate [] [] = some res ∧
      res.err = none ∧ res.out ≠ none) :=
  ⟨⟨_, rfl, by simp, (C8_do_all_or_nothing smallHost 1 failingTemplate [] [] _ rfl).1 (by simp)⟩,
   ⟨_, rfl, rfl, (C8_do_all_or_nothing smallHost 1 skippingTemplate [] [] _ rfl).2 rfl⟩⟩

/-! ## Execution: the out projection -/

@[simp] theorem copyInto_none (n : EnvMap) : copyInto n none = n := rfl

theorem projectOut_next {σ : Type} (H : Host σ) (name text : Bytes) (step : Step)
    (st st' : LoopState σ) (h : projectOut H name text step st = .next st') :
    st'.funcs = st.funcs ∧ st'.result = st.result ∧ st'.world = st.world ∧
    ((step.Out.entries.length = 0 ∧ st'.out = st.out) ∨
     (step.Out.entries.length ≠ 0 ∧
       ∃ e, ToEnv H st.funcs text step.Out = (e, none) ∧ st'.out = copyInto st.out e)) := by
  unfold projectOut at h
  split at h
  · rename_i hlen
    rcases hT : ToEnv H st.funcs text step.Out with ⟨e, err⟩
    rw [hT] at h
    cases err with
    | some er => cases h
    | none =>
      simp only [Flow.next.injEq] at h
      subst h
      exact ⟨rfl, rfl, rfl, Or.inr ⟨hlen, e, rfl, rfl⟩⟩
  · rename_i hlen
    simp only [Flow.next.injEq] at h
    subst h
    exact ⟨rfl, rfl, rfl, Or.inl ⟨by simpa using hlen, rfl⟩⟩

theorem runRequest_out {σ : Type} (H : Host σ) (step : Step) (st : LoopState σ) :
    (runRequest H step st).1.out = st.out := by
  unfold runRequest
  split
  · rfl
  · split
    · rfl
    · rfl
    · simp only []
      split <;> rfl

theorem runUses_inv {σ : Type} (H : Host σ)
    (unm : Bytes → Template → σ → Option (Template × Option Error × σ))
    (doSub : Template → FuncLog → σ → Option (DoResult σ)) (step : Step) (st : LoopState σ)
    (step1 : Step) (fresh : Bool) (st1 : LoopState σ) (flow : Flow Unit)
    (h : runUses H unm doSub step st = some (step1, fresh, st1, flow)) :
    st1.out = st.out ∧ step1.Out = step.Out ∧ step1.Set = step.Set ∧
    (flow = .next () →
      ∃ sub w1 r,
        ((step.Template.Steps.length = 0 ∧ unm step.Uses step.Template st.world =
            some (sub, none, w1)) ∨
         (step.Template.Steps.length ≠ 0 ∧ sub = step.Template ∧ w1 = st.world)) ∧
        doSub sub st.funcs w1 = some r ∧ r.err = none ∧ step1 = step.withTemplate r.tmpl ∧
        Env.Set H r.out r.funcs (exportPrefix r.tmpl.Namespace) = (st1.funcs, none) ∧
        st1.result = r.result ∧ st1.world = r.world) := by
  unfold runUses at h
  simp only [] at h
  split at h
  · cases h
  · rename_i s0 fr w0 err hres
    simp only [Option.some.injEq, Prod.mk.injEq] at h
    obtain ⟨h1, h2, h3, h4⟩ := h
    subst h1 h3 h4
    refine ⟨rfl, ?_, ?_, fun hf => by cases hf⟩
    · split at hres
      · split at hres
        · cases hres
        · simp only [Option.some.injEq, Prod.mk.injEq] at hres
          rw [← hres.1]; simp
      · simp only [Option.some.injEq, Prod.mk.injEq] at hres
        rw [← hres.1]
    · split at hres
      · split at hres
        · cases hres
        · simp only [Option.some.injEq, Prod.mk.injEq] at hres
          rw [← hres.1]; simp
      · simp only [Option.some.injEq, Prod.mk.injEq] at hres
        rw [← hres.1]
  · rename_i s0 fr w0 hres
    have hs0 : s0.Out = step.Out ∧ s0.Set = step.Set ∧
        ∃ sub, s0 = step.withTemplate sub ∧
          ((step.Template.Steps.length = 0 ∧ unm step.Uses step.Template st.world =
              some (sub, none, w0)) ∨
           (step.Template.Steps.length ≠ 0 ∧ sub = step.Template ∧ w0 = st.world)) := by
      split at hres
      · rename_i hlen
        split at hres
        · cases hres
        · rename_i t e w2 hu
          simp only [Option.some.injEq, Prod.mk.injEq] at hres
          obtain ⟨h1, _, h3, h4⟩ := hres
          subst h1 h3 h4
          exact ⟨by simp, by simp, t, rfl, Or.inl ⟨hlen, hu⟩⟩
      · rename_i hlen
        simp only [Option.some.injEq, Prod.mk.injEq] at hres
        obtain ⟨h1, _, h3, _⟩ := hres
        subst h1 h3
        refine ⟨rfl, rfl, step.Template, ?_, Or.inr ⟨hlen, rfl, rfl⟩⟩
        cases step; rfl
    obtain ⟨hO, hS, sub, hsub, hres'⟩ := hs0
    have hsubT : s0.Template = sub := by rw [hsub]; simp
    split at h
    · cases h
    · rename_i r hd
      split at h
      · rename_i err he
        simp only [Option.some.injEq, Prod.mk.injEq] at h
        obtain ⟨h1, h2, h3, h4⟩ := h
        subst h1 h3 h4
        exact ⟨rfl, by simp [hO], by simp [hS], fun hf => by cases hf⟩
      · rename_i he
        split at h
        · rename_i f1 err hset
          simp only [Option.some.injEq, Prod.mk.injEq] at h
          obtain ⟨h1, h2, h3, h4⟩ := h
          subst h1 h3 h4
          exact ⟨rfl, by simp [hO], by simp [hS], fun hf => by cases hf⟩
        · rename_i f1 hset
          simp only [Option.some.injEq, Prod.mk.injEq] at h
          obtain ⟨h1, h2, h3, h4⟩ := h
          subst h1 h3
          refine ⟨rfl, by simp [hO], by simp [hS], fun _ => ?_⟩
          refine ⟨sub, w0, r, hres', by rw [← hsubT]; exact hd, he, ?_, ?_, rfl, rfl⟩
          · rw [hsub]; cases step; rfl
          · simp only [Step.withTemplate_Template] at hset
            unfold exportPrefix
            split
            · rename_i hn; rw [if_pos hn] at hset; exact hset
            · rename_i hn; rw [if_neg hn] at hset; exact hset

theorem runBranch_inv {σ : Type} (H : Host σ) (fuel : Nat)
    (doSub : Template → FuncLog → σ → Option (DoResult σ)) (step : Step) (st : LoopState σ)
    (step1 h1 : Step) (st1 : LoopState σ) (flow : Flow Unit)
    (h : runBranch H fuel doSub step st = some (step1, h1, st1, flow)) :
    st1.out = st.out ∧ step1.Out = step.Out ∧ step1.Set = step.Set := by
  unfold runBranch at h
  split at h
  · split at h
    · cases h
    · rename_i s2 fr st2 fl hu
      simp only [Option.some.injEq, Prod.mk.injEq] at h
      obtain ⟨e1, _, e3, _⟩ := h
      subst e1 e3
      obtain ⟨a, b, c, _⟩ := runUses_inv H _ doSub step st _ _ _ _ hu
      exact ⟨a, b, c⟩
  · have ho := runRequest_out H step st
    rcases hr : runRequest H step st with ⟨st2, fl⟩
    rw [hr] at h ho
    simp only [Option.some.injEq, Prod.mk.injEq] at h
    obtain ⟨e1, _, e3, _⟩ := h
    subst e1 e3
    exact ⟨ho, rfl, rfl⟩

/-- An iteration that falls through either skipped the step, or ran its
branch, its set loop and its out projection, each falling through. -/
theorem doStep_next {σ : Type} (H : Host σ) (fuel : Nat)
    (doSub : Template → FuncLog → σ → Option (DoResult σ)) (step : Step) (st st' : LoopState σ)
    (held : Step) (h : doStep H fuel doSub step st = some (st', .next (), held)) :
    (skipCheck H st.funcs step = .next true ∧ st' = st ∧ held = step) ∨
    (skipCheck H st.funcs step = .next false ∧
      ∃ step1 h1 st1 f1,
        runBranch H fuel doSub step st = some (step1, h1, st1, .next ()) ∧
        setLoop H step1.Template.String (responseText H st1.result) st1.result
          (Env.setLinks step1.Set) step1.Set st1.funcs = some (f1, .next ()) ∧
        projectOut H step1.Template.String (responseText H st1.result) step1
          { st1 with funcs := f1 } = .next st' ∧
        held = h1.afterSet) := by
  unfold doStep at h
  cases hsk : skipCheck H st.funcs step with
  | ret o r e => rw [hsk] at h; simp at h
  | next b =>
    rw [hsk] at h
    cases b with
    | true =>
      simp only [Option.some.injEq, Prod.mk.injEq, true_and] at h
      exact Or.inl ⟨rfl, h.1.symm, h.2.symm⟩
    | false =>
      right
      refine ⟨rfl, ?_⟩
      simp only [] at h
      split at h
      · cases h
      · simp at h
      · rename_i s1 h1 st1 hb
        split at h
        · cases h
        · simp at h
        · rename_i f1 hl
          split at h
          · simp at h
          · rename_i st2 hp
            simp only [Option.some.injEq, Prod.mk.injEq, true_and] at h
            obtain ⟨e1, e2⟩ := h
            subst e1 e2
            exact ⟨s1, h1, st1, f1, hb, hl, hp, rfl⟩

theorem EnvMap.assign_of_not_mem (m : EnvMap) (k : Bytes) (v : Value)
    (h : k ∉ m.map Prod.fst) : m.assign k v = m ++ [(k, v)] := by
  induction m with
  | nil => rfl
  | cons p tl ih =>
    obtain ⟨k0, v0⟩ := p
    simp only [List.map_cons, List.mem_cons, not_or] at h
    simp only [EnvMap.assign, Ne.symm h.1, if_false, ih h.2, List.cons_append]

theorem EnvMap.lookup_of_mem (l : EnvMap) (hl : (l.map Prod.fst).Nodup) (k : Bytes) (v : Value)
    (h : (k, v) ∈ l) : l.lookup k = some v := by
  induction l with
  | nil => simp at h
  | cons p tl ih =>
    obtain ⟨k0, v0⟩ := p
    simp only [List.map_cons, List.nodup_cons] at hl
    rcases List.mem_cons.mp h with h | h
    · cases h; simp [EnvMap.lookup]
    · have hne : k0 ≠ k := by
        intro e
        subst e
        exact hl.1 (List.mem_map.mpr ⟨(k0, v), h, rfl⟩)
      simp only [EnvMap.lookup, hne, if_false]
      exact ih hl.2 h

theorem Env.index_of_mem_range (m : EnvMap) (k : Bytes) (v : Value) (h : (k, v) ∈ m.range) :
    Env.index (some m) k = v := by
  have := EnvMap.lookup_of_mem m.range (EnvMap.range_nodup m) k v h
  rw [EnvMap.lookup_range] at this
  simp [Env.index, Env.entries, this]

theorem envSetLoop_ok {σ : Type} (H : Host σ) (e : Env) (pfx : Bytes) :
    ∀ (l fm fm' : EnvMap), (l.map Prod.fst).Nodup →
      (∀ kv ∈ l, pfx ++ kv.1 ∉ fm.map Prod.fst) →
      envSetLoop H e pfx l fm = .ok fm' →
      fm' = fm ++ l.map (fun kv => (pfx ++ kv.1, e.index kv.1)) := by
  intro l
  induction l with
  | nil =>
    intro fm fm' _ _ h
    simp only [envSetLoop, Except.ok.injEq] at h
    simp [h]
  | cons p tl ih =>
    intro fm fm' hnd hfresh h
    obtain ⟨k0, v0⟩ := p
    simp only [List.map_cons, List.nodup_cons] at hnd
    simp only [envSetLoop] at h
    split at h
    · cases h
    · have hk0 : pfx ++ k0 ∉ fm.map Prod.fst := hfresh (k0, v0) (by simp)
      rw [EnvMap.assign_of_not_mem fm _ _ hk0] at h
      have := ih _ fm' hnd.2 (by
        intro kv hkv
        simp only [List.map_append, List.map_cons, List.map_nil, List.mem_append,
          List.mem_singleton, not_or]
        refine ⟨hfresh kv (by simp [hkv]), ?_⟩
        intro heq
        have hk : kv.1 = k0 := List.append_cancel_left heq
        exact hnd.1 (List.mem_map.mpr ⟨kv, hkv, hk⟩)) h
      rw [this]
      simp

/-- A successful `Env.Set` adds to the renderer, for every key of the
environment, one function named prefix+key that returns the key's value,
and nothing else. -/
theorem Env.Set_ok {σ : Type} (H : Host σ) (e : Env) (funcs funcs' : FuncLog) (pfx : Bytes)
    (h : Env.Set H e funcs pfx = (funcs', none)) :
    funcs' = funcs ++ e.entries.range.map (fun kv => (pfx ++ kv.1, kv.2)) := by
  cases e with
  | none =>
    simp only [Env.Set, Prod.mk.injEq, and_true] at h
    simp [← h, Env.entries, EnvMap.range]
  | some m =>
    simp only [Env.Set] at h
    cases hl : envSetLoop H (some m) pfx m.range [] with
    | error err => rw [hl] at h; simp at h
    | ok fm =>
      rw [hl] at h
      have hfm := envSetLoop_ok H (some m) pfx m.range [] fm (EnvMap.range_nodup m)
        (by intro kv _; simp) hl
      simp only [List.nil_append] at hfm
      have hmap : m.range.map (fun kv => (pfx ++ kv.1, Env.index (some m) kv.1)) =
          m.range.map (fun kv => (pfx ++ kv.1, kv.2)) := by
        apply List.map_congr_left
        intro kv hkv
        rw [Env.index_of_mem_range m kv.1 kv.2 hkv]
      rw [hmap] at hfm
      simp only [Prod.mk.injEq, and_true] at h
      rw [← h, hfm]
      split
      · rfl
      · rename_i hz
        simp only [ne_eq, List.length_eq_zero, List.map_eq_nil_iff] at hz
        have hz' : m.range = [] := not_not.mp hz
        simp [Env.entries, hz']

theorem Do_tmpl_namespace {σ : Type} (H : Host σ) (fuel : Nat) (t : Template) (funcs : FuncLog)
    (w : σ) (res : DoResult σ) (h : TemplateOf.Do H fuel t funcs w = some res) :
    res.tmpl.Namespace = t.Namespace := by
  cases fuel with
  | zero => simp [TemplateOf.Do] at h
  | succ n =>
    simp only [TemplateOf.Do] at h
    split at h
    · cases h; rfl
    · split at h
      · cases h; rfl
      · split at h
        · cases h
        · cases h; rfl
        · cases h; rfl

/-- A completed iteration on a step with `uses`: the sub-template ran to a
result `r` without error, its exports were registered on the renderer under
the step's prefix, then the step's set loop ran from there, and the
accumulated out changed by the step's own out only. -/
theorem doStep_uses {σ : Type} (H : Host σ) (fuel : Nat) (step : Step) (st st' : LoopState σ)
    (held : Step) (hu : step.Uses ≠ []) (hs : skipCheck H st.funcs step = .next false)
    (h : doStep H fuel (TemplateOf.Do H fuel) step st = some (st', .next (), held)) :
    ∃ sub w1 r name, TemplateOf.Do H fuel sub st.funcs w1 = some r ∧ r.err = none ∧
      (step.Template.Steps.length ≠ 0 → sub = step.Template ∧ w1 = st.world) ∧
      setLoop H name (responseText H r.result) r.result (Env.setLinks step.Set) step.Set
        (r.funcs ++ r.out.entries.range.map
          (fun kv => (exportPrefix sub.Namespace ++ kv.1, kv.2))) = some (st'.funcs, .next ()) ∧
      ((step.Out.entries.length = 0 ∧ st'.out = st.out) ∨
        (∃ e, ToEnv H st'.funcs (responseText H r.result) step.Out = (e, none) ∧
          st'.out = copyInto st.out e)) := by
  rcases doStep_next H fuel _ step st st' held h with ⟨hs', _⟩ | ⟨_, s1, h1, st1, f1, hb, hl, hp, _⟩
  · rw [hs] at hs'; cases hs'
  · obtain ⟨ho, hO, hS⟩ := runBranch_inv H fuel _ step st _ _ _ _ hb
    unfold runBranch at hb
    rw [if_pos hu] at hb
    cases hru : runUses H (Unmarshal H.Decoder fuel) (TemplateOf.Do H fuel) step st with
    | none => rw [hru] at hb; cases hb
    | some q =>
      obtain ⟨s2, fr, st2, fl⟩ := q
      rw [hru] at hb
      simp only [Option.some.injEq, Prod.mk.injEq] at hb
      obtain ⟨e1, _, e3, e4⟩ := hb
      subst e1 e3 e4
      obtain ⟨_, _, _, hinv⟩ := runUses_inv H _ _ step st _ _ _ _ hru
      obtain ⟨sub, w1, r, hres, hd, he, hs2, hset, hr, _⟩ := hinv rfl
      have hns := Do_tmpl_namespace H fuel sub st.funcs w1 r hd
      rw [hns] at hset
      have hf := Env.Set_ok H r.out r.funcs st2.funcs _ hset
      obtain ⟨hpf, hpr, _, hcase⟩ := projectOut_next H _ _ _ _ _ hp
      simp only [] at hpf hpr
      refine ⟨sub, w1, r, s2.Template.String, hd, he, ?_, ?_, ?_⟩
      · intro hlen
        rcases hres with ⟨h0, _⟩ | ⟨_, e1, e2⟩
        · exact absurd h0 hlen
        · exact ⟨e1, e2⟩
      · rw [← hf, ← hr, ← hS, hpf]
        exact hl
      · rcases hcase with ⟨hlen, hout⟩ | ⟨_, e, hT, hout⟩
        · exact Or.inl ⟨by rw [← hO]; exact hlen, by rw [hout]; exact ho⟩
        · refine Or.inr ⟨e, ?_, by rw [hout]; simp [ho]⟩
          rw [hpf, ← hr, ← hO]
          exact hT

/-! ## Execution: the set chain -/

theorem SetChain.setLinks_eq {set : Env} {links : List EnvMap} {v : Value}
    (h : SetChain set links v) : Env.setLinks set = links.length := by
  induction h with
  | stop m v hi hz =>
    simp only [Env.setLinks, EnvMap.nextLinks_eq, hi, hz, List.length_singleton]
  | linkMap m m' rest v hi _ ih =>
    simp only [Env.setLinks, EnvMap.nextLinks_eq, hi, Value.setLinks, List.length_cons] at ih ⊢
    omega
  | linkEnv m m' rest v hi _ ih =>
    simp only [Env.setLinks, EnvMap.nextLinks_eq, hi, Value.setLinks, List.length_cons] at ih ⊢
    omega

theorem SetChain.exists_of_links (n : Nat) :
    ∀ m : EnvMap, Env.setLinks (some m) ≤ n + 1 → ∃ links v, SetChain (some m) links v := by
  induction n with
  | zero =>
    intro m h
    simp only [Env.setLinks, EnvMap.nextLinks_eq] at h
    exact ⟨_, _, SetChain.stop m _ rfl (by omega)⟩
  | succ n ih =>
    intro m h
    simp only [Env.setLinks, EnvMap.nextLinks_eq] at h
    cases hv : Env.index (some m) (lit "set") with
    | nil => exact ⟨_, _, SetChain.stop m _ hv rfl⟩
    | str s => exact ⟨_, _, SetChain.stop m _ hv rfl⟩
    | other t => exact ⟨_, _, SetChain.stop m _ hv rfl⟩
    | map o =>
      cases o with
      | none => exact ⟨_, _, SetChain.stop m _ hv rfl⟩
      | some m' =>
        rw [hv] at h
        simp only [Value.setLinks] at h
        obtain ⟨links, v, hc⟩ := ih m' (by omega)
        exact ⟨_, _, SetChain.linkMap m m' links v hv hc⟩
    | env o =>
      cases o with
      | none => exact ⟨_, _, SetChain.stop m _ hv rfl⟩
      | some m' =>
        rw [hv] at h
        simp only [Value.setLinks] at h
        obtain ⟨links, v, hc⟩ := ih m' (by omega)
        exact ⟨_, _, SetChain.linkEnv m m' links v hv hc⟩

theorem setLoop_chain {σ : Type} (H : Host σ) (name text result : Bytes)
    {set : Env} {links : List EnvMap} {v : Value} (h : SetChain set links v) :
    ∀ (fuel : Nat) (funcs : FuncLog), links.length ≤ fuel →
      setLoop H name text result fuel set funcs =
        some (chainResult H name text result links v funcs) := by
  induction h with
  | stop m v hi hz =>
    intro fuel funcs hf
    cases fuel with
    | zero => simp at hf
    | succ n =>
      simp only [setLoop, chainResult, registerLinks]
      rcases hT : ToEnv H funcs text (some (EnvMap.delete m (lit "set"))) with ⟨parent, e⟩
      cases e with
      | some err => rfl
      | none =>
        simp only []
        rcases hS : Env.Set H parent funcs [] with ⟨f1, e'⟩
        cases e' with
        | some err => rfl
        | none =>
          simp only [hi]
          cases v with
          | nil => rfl
          | str s => rfl
          | other t => rfl
          | map o =>
            cases o with
            | none => simp [setLoop, chainEnd]
            | some m' => simp [Value.setLinks, Env.setLinks] at hz
          | env o =>
            cases o with
            | none => simp [setLoop, chainEnd]
            | some m' => simp [Value.setLinks, Env.setLinks] at hz
  | linkMap m m' rest v hi _ ih =>
    intro fuel funcs hf
    cases fuel with
    | zero => simp at hf
    | succ n =>
      simp only [List.length_cons, Nat.add_le_add_iff_right] at hf
      simp only [setLoop, chainResult, registerLinks]
      rcases hT : ToEnv H funcs text (some (EnvMap.delete m (lit "set"))) with ⟨parent, e⟩
      cases e with
      | some err => rfl
      | none =>
        simp only []
        rcases hS : Env.Set H parent funcs [] with ⟨f1, e'⟩
        cases e' with
        | some err => rfl
        | none =>
          simp only [hi]
          rw [ih n f1 hf]
          rfl
  | linkEnv m m' rest v hi _ ih =>
    intro fuel funcs hf
    cases fuel with
    | zero => simp at hf
    | succ n =>
      simp only [List.length_cons, Nat.add_le_add_iff_right] at hf
      simp only [setLoop, chainResult, registerLinks]
      rcases hT : ToEnv H funcs text (some (EnvMap.delete m (lit "set"))) with ⟨parent, e⟩
      cases e with
      | some err => rfl
      | none =>
        simp only []
        rcases hS : Env.Set H parent funcs [] with ⟨f1, e'⟩
        cases e' with
        | some err => rfl
        | none =>
          simp only [hi]
          rw [ih n f1 hf]
          rfl

theorem registerLinks_cons {σ : Type} (H : Host σ) (name text result : Bytes) (b : EnvMap)
    (rest : List EnvMap) (funcs f' : FuncLog)
    (h : registerLinks H name text result (b :: rest) funcs = (f', .next ())) :
    ∃ e, ToEnv H funcs text (some b) = (e, none) ∧
      registerLinks H name text result rest (funcs ++ e.entries.range) = (f', .next ()) := by
  simp only [registerLinks] at h
  rcases hT : ToEnv H funcs text (some b) with ⟨parent, e⟩
  rw [hT] at h
  cases e with
  | some err => simp at h
  | none =>
    simp only [] at h
    rcases hS : Env.Set H parent funcs [] with ⟨f1, e'⟩
    rw [hS] at h
    cases e' with
    | some err => simp at h
    | none =>
      simp only [] at h
      have := Env.Set_ok H parent funcs f1 [] hS
      simp only [List.nil_append, Prod.mk.eta, List.map_id'] at this
      rw [this] at h
      exact ⟨parent, rfl, h⟩

theorem registerLinks_aborts {σ : Type} (H : Host σ) (name text result : Bytes) :
    ∀ (links : List EnvMap) (funcs : FuncLog),
      (registerLinks H name text result links funcs).2.Aborts := by
  intro links
  induction links with
  | nil => intro funcs; simp [registerLinks, Flow.Aborts]
  | cons b rest ih =>
    intro funcs
    simp only [registerLinks]
    split
    · simp [Flow.Aborts]
    · split
      · simp [Flow.Aborts]
      · exact ih _

theorem chainResult_invalid {σ : Type} (H : Host σ) (name text result : Bytes)
    (links : List EnvMap) (v : Value) (funcs : FuncLog)
    (hv : (∃ s, v = .str s) ∨ (∃ n, v = .other n)) :
    ∃ f r e, chainResult H name text result links v funcs = (f, .ret none r (some e)) := by
  unfold chainResult
  have ha := registerLinks_aborts H name text result links funcs
  rcases hr : registerLinks H name text result links funcs with ⟨f, fl⟩
  rw [hr] at ha
  cases fl with
  | next u =>
    rcases hv with ⟨s, rfl⟩ | ⟨n, rfl⟩
    · exact ⟨f, [], _, rfl⟩
    · exact ⟨f, [], _, rfl⟩
  | ret o r e =>
    simp only [Flow.Aborts] at ha
    obtain ⟨ho, he⟩ := ha
    subst ho
    cases e with
    | none => exact absurd rfl he
    | some err => exact ⟨f, r, err, rfl⟩

theorem doStep_set_ret {σ : Type} (H : Host σ) (fuel : Nat)
    (doSub : Template → FuncLog → σ → Option (DoResult σ)) (step step1 h1 : Step)
    (st st1 : LoopState σ) (f : FuncLog) (o : Env) (r : Bytes) (e : Option Error)
    (hs : skipCheck H st.funcs step = .next false)
    (hb : runBranch H fuel doSub step st = some (step1, h1, st1, .next ()))
    (hl : setLoop H step1.Template.String (responseText H st1.result) st1.result
      (Env.setLinks step1.Set) step1.Set st1.funcs = some (f, .ret o r e)) :
    doStep H fuel doSub step st = some ({ st1 with funcs := f }, .ret o r e, h1.afterSet) := by
  simp only [doStep, hs, hb, hl]

/-- C10. Set chaining.  (1) Every non-nil `set` is a chain `s0`,
`s1 = s0["set"]`, ..., `sn`, ended by a value `sn["set"]` that is not a
non-nil map.  (2) On such a chain the set loop of `Do` makes one iteration
for each link and does what registering the links in order does: each
link's entries without the reserved "set" key are rendered, then
registered, then the next link is taken; when all links are registered the
loop ends normally if the last "set" value is absent or nil, and returns an
error if it is a string or a value of another type.  (3) Registering a chain
`b :: rest` successfully means rendering `b` on the functions registered so
far, adding one function for each of its rendered entries under the entry's
own key, and registering `rest` on the result: every batch is rendered with
all earlier batches registered.  (4) In a completed iteration the step's out
is rendered on the functions the set loop left, so after all batches.  (5)
When the run of `Do` reaches a step that is not skipped, whose branch
completes, and whose chain ends in a string or a value of another type, `Do`
returns a nil environment and an error. -/
theorem C10_set_chaining {σ : Type} (H : Host σ) (fuel : Nat) :
    (∀ m : EnvMap, ∃ links v, SetChain (some m) links v) ∧
    (∀ (set : Env) (links : List EnvMap) (v : Value), SetChain set links v →
      Env.setLinks set = links.length ∧
      ∀ (name text result : Bytes) (n : Nat) (funcs : FuncLog), links.length ≤ n →
        setLoop H name text result n set funcs =
          some (chainResult H name text result links v funcs)) ∧
    (∀ (name text result : Bytes) (b : EnvMap) (rest : List EnvMap) (funcs f' : FuncLog),
      registerLinks H name text result (b :: rest) funcs = (f', .next ()) →
      ∃ e, ToEnv H funcs text (some b) = (e, none) ∧
        registerLinks H name text result rest (funcs ++ e.entries.range) = (f', .next ())) ∧
    (∀ (doSub : Template → FuncLog → σ → Option (DoResult σ)) (step : Step)
      (st st' : LoopState σ) (held : Step),
      skipCheck H st.funcs step = .next false →
      doStep H fuel doSub step st = some (st', .next (), held) →
      ∃ name f0, setLoop H name (responseText H st'.result) st'.result
          (Env.setLinks step.Set) step.Set f0 = some (st'.funcs, .next ()) ∧
        ((step.Out.entries.length = 0 ∧ st'.out = st.out) ∨
          (∃ e, ToEnv H st'.funcs (responseText H st'.result) step.Out = (e, none) ∧
            st'.out = copyInto st.out e))) ∧
    (∀ (t : Template) (funcs : FuncLog) (w : σ) (pre rest held : List Step) (step step1 h1 : Step)
      (st st1 : LoopState σ) (links : List EnvMap) (v : Value),
      t.Steps = pre ++ step :: rest → ReachesStep H fuel t funcs w pre st held →
      skipCheck H st.funcs step = .next false →
      runBranch H fuel (TemplateOf.Do H fuel) step st = some (step1, h1, st1, .next ()) →
      SetChain step.Set links v → ((∃ s, v = .str s) ∨ (∃ n, v = .other n)) →
      ∃ res, TemplateOf.Do H (fuel + 1) t funcs w = some res ∧ res.out = none ∧
        res.err ≠ none) := by
  refine ⟨fun m => SetChain.exists_of_links (Env.setLinks (some m)) m (Nat.le_succ _), ?_, ?_, ?_, ?_⟩
  · intro set links v hc
    exact ⟨hc.setLinks_eq, fun name text result n funcs hn =>
      setLoop_chain H name text result hc n funcs hn⟩
  · intro name text result b rest funcs f' h
    exact registerLinks_cons H name text result b rest funcs f' h
  · intro doSub step st st' held hs h
    rcases doStep_next H fuel doSub step st st' held h with ⟨hs', _⟩ | ⟨_, s1, h1, st1, f1, hb, hl, hp, _⟩
    · rw [hs] at hs'; cases hs'
    · obtain ⟨ho, hO, hS⟩ := runBranch_inv H fuel doSub step st _ _ _ _ hb
      obtain ⟨hpf, hpr, _, hcase⟩ := projectOut_next H _ _ _ _ _ hp
      simp only [] at hpf hpr
      refine ⟨s1.Template.String, st1.funcs, ?_, ?_⟩
      · rw [hpf, hpr, ← hS]; exact hl
      · rcases hcase with ⟨hlen, hout⟩ | ⟨_, e, hT, hout⟩
        · exact Or.inl ⟨by rw [← hO]; exact hlen, by rw [hout]; exact ho⟩
        · refine Or.inr ⟨e, ?_, by rw [hout]; simp [ho]⟩
          rw [hpf, hpr, ← hO]
          exact hT
  · intro t funcs w pre rest held step step1 h1 st st1 links v hsteps hreach hs hb hc hv
    obtain ⟨_, _, hS⟩ := runBranch_inv H fuel _ step st _ _ _ _ hb
    rw [← hS] at hc
    obtain ⟨f, r, e, hres⟩ := chainResult_invalid H step1.Template.String
      (responseText H st1.result) st1.result links v st1.funcs hv
    have hl := setLoop_chain H step1.Template.String (responseText H st1.result) st1.result hc
      (Env.setLinks step1.Set) st1.funcs (le_of_eq hc.setLinks_eq.symm)
    rw [hres] at hl
    have hd := doStep_set_ret H fuel _ step step1 h1 st st1 f none r (some e) hs hb hl
    exact ⟨_, Do_of_ret H fuel t funcs w pre rest step st _ held _ _ _ _ hsteps hreach hd,
      rfl, by simp⟩

/-- C10 on the spec's example: the set {x: "1", set: {y: ..., set: nil}}
is the chain of the two links {x} and {y}; `Do` registers x, then y, which is
rendered from x, and renders the step's out from both; a step whose set
holds a string under "set" makes `Do` fail after its first batch. -/
theorem C10_set_chaining_witness :
    SetChain chainSet
      [[(lit "x", .str (lit "1"))], [(lit "y", .str (lit "\x7b\x7bx\x7d\x7d2"))]] .nil ∧
    Env.setLinks chainSet = 2 ∧
    (∃ res, TemplateOf.Do smallHost 1 chainTemplate [] [] = some res ∧ res.err = none ∧
      res.funcs = [(lit "x", .str (lit "1")), (lit "y", .str (lit "12"))] ∧
      res.out = some [(lit "r", .str (lit "1-12"))]) ∧
    (∃ res, TemplateOf.Do smallHost 1 brokenSetTemplate [] [] = some res ∧ res.out = none ∧
      res.err = some (.invalidSetValue (.str (lit "y"))) ∧
      res.funcs = [(lit "x", .str (lit "1"))]) :=
  ⟨SetChain.linkMap _ _ _ _ rfl (SetChain.stop _ _ rfl rfl),
   ((C10_set_chaining smallHost 0).2.1 chainSet _ .nil
      (SetChain.linkMap _ _ _ _ rfl (SetChain.stop _ _ rfl rfl))).1,
   ⟨_, rfl, rfl, rfl, rfl⟩,
   ⟨_, rfl, rfl, rfl, rfl⟩⟩

/-! ## The version order -/

theorem Version.Less_iff (a b : Version) : a.Less b = true ↔ a.LexLess b := by
  unfold Version.Less Version.LexLess
  by_cases h1 : a.Major < b.Major
  · rw [if_pos h1]
    exact ⟨fun _ => Or.inl h1, fun _ => rfl⟩
  · rw [if_neg h1]
    by_cases h2 : a.Major > b.Major
    · rw [if_pos h2]
      constructor
      · intro h; cases h
      · intro h; omega
    · rw [if_neg h2]
      by_cases h3 : a.Minor < b.Minor
      · rw [if_pos h3]
        exact ⟨fun _ => Or.inr ⟨by omega, Or.inl h3⟩, fun _ => rfl⟩
      · rw [if_neg h3]
        by_cases h4 : a.Minor > b.Minor
        · rw [if_pos h4]
          constructor
          · intro h; cases h
          · intro h; omega
        · rw [if_neg h4, decide_eq_true_eq]
          constructor
          · intro h; exact Or.inr ⟨by omega, Or.inr ⟨by omega, h⟩⟩
          · intro h; omega

theorem Version.Equal_iff (a b : Version) : a.Equal b = true ↔ a = b := by
  cases a; cases b
  simp [Version.Equal, Bool.and_eq_true, and_assoc]

/-- C15. Version order: `a.Less(b)` holds exactly when `(Major, Minor,
Patch)` of `a` is lexicographically smaller than that of `b`; exactly one of
`a.Less(b)`, `a.Equal(b)`, `b.Less(a)` holds; `Less` is irreflexive and
transitive; `Equal` is component-wise equality; {1,0,0} is less than {1,0,1}
and {2,0,0} is greater than {1,9,9}. -/
theorem C15_version_order (a b c : Version) :
    (a.Less b = true ↔ a.LexLess b) ∧
    ((a.Less b = true ∧ a.Equal b = false ∧ b.Less a = false) ∨
     (a.Less b = false ∧ a.Equal b = true ∧ b.Less a = false) ∨
     (a.Less b = false ∧ a.Equal b = false ∧ b.Less a = true)) ∧
    a.Less a = false ∧
    (a.Less b = true → b.Less c = true → a.Less c = true) ∧
    (a.Equal b = true ↔ a = b) ∧
    (Version.mk 1 0 0).Less (Version.mk 1 0 1) = true ∧
    (Version.mk 1 9 9).Less (Version.mk 2 0 0) = true ∧
    (Version.mk 2 0 0).Less (Version.mk 1 9 9) = false := by
  have hlt : ∀ x y : Version, x.Less y = false ↔ ¬ x.LexLess y := by
    intro x y
    rw [← Version.Less_iff]
    cases x.Less y <;> simp
  have heq : ∀ x y : Version, x.Equal y = false ↔ x ≠ y := by
    intro x y
    rw [Ne, ← Version.Equal_iff]
    cases x.Equal y <;> simp
  refine ⟨Version.Less_iff a b, ?_, ?_, ?_, Version.Equal_iff a b, by decide, by decide,
    by decide⟩
  · rw [Version.Less_iff, Version.Less_iff, Version.Equal_iff, hlt, hlt, heq]
    cases a with
    | mk a1 a2 a3 =>
      cases b with
      | mk b1 b2 b3 =>
        simp only [Version.LexLess, Version.mk.injEq, ne_eq]
        omega
  · rw [hlt]
    unfold Version.LexLess
    omega
  · rw [Version.Less_iff, Version.Less_iff, Version.Less_iff]
    unfold Version.LexLess
    omega

/-- C15 at concrete versions: 1.2.3 is less than 1.2.4, which is less than
1.3.0, so 1.2.3 is less than 1.3.0. -/
theorem C15_version_order_witness :
    (Version.mk 1 2 3).Less (Version.mk 1 3 0) = true :=
  (C15_version_order (Version.mk 1 2 3) (Version.mk 1 2 4) (Version.mk 1 3 0)).2.2.2.1
    (by decide) (by decide)

/-! ## The environment merge -/

theorem lastEntry_nil (k : Bytes) : lastEntry k [] = none := rfl

theorem lastEntry_cons (k : Bytes) (x : Env) (xs : List Env) :
    lastEntry k (x :: xs) =
      match lastEntry k xs with
      | some v => some v
      | none => x.entries.lookup k := by
  unfold lastEntry
  rw [List.reverse_cons, List.findSome?_append]
  cases h : List.findSome? (fun e => e.entries.lookup k) xs.reverse with
  | some v => simp
  | none =>
    cases h' : EnvMap.lookup x.entries k <;> simp [List.findSome?, h']

theorem lastEntry_isSome (k : Bytes) (envs : List Env) :
    (lastEntry k envs).isSome = true ↔ ∃ x ∈ envs, x.has k = true := by
  induction envs with
  | nil => simp [lastEntry_nil]
  | cons x xs ih =>
    rw [lastEntry_cons]
    cases h : lastEntry k xs with
    | some v =>
      rw [h] at ih
      simp only [Option.isSome_some, true_iff] at ih ⊢
      obtain ⟨y, hy, hk⟩ := ih
      exact ⟨y, List.mem_cons_of_mem _ hy, hk⟩
    | none =>
      rw [h] at ih
      simp only [Option.isSome_none, Bool.false_eq_true, false_iff, not_exists, not_and] at ih
      simp only [List.mem_cons, exists_eq_or_imp, Env.has]
      constructor
      · intro hx; exact Or.inl hx
      · rintro (hx | ⟨y, hy, hk⟩)
        · exact hx
        · exact absurd hk (ih y hy)

theorem lookup_foldl_copyInto (k : Bytes) (elems : List Env) : ∀ n : EnvMap,
    (elems.foldl copyInto n).lookup k =
      match lastEntry k elems with
      | some v => some v
      | none => n.lookup k := by
  induction elems with
  | nil => intro n; rfl
  | cons x xs ih =>
    intro n
    rw [List.foldl_cons, ih, lastEntry_cons, lookup_copyInto]
    cases h : lastEntry k xs with
    | some v => rfl
    | none => rfl

/-- The entry `AppendEnv(e, elems...)` holds under a key: that of the last
of `e`, `elems[0]`, `elems[1]`, ... that has the key. -/
theorem lookup_AppendEnv (e : Env) (elems : List Env) (k : Bytes) :
    (AppendEnv e elems).entries.lookup k = lastEntry k (e :: elems) := by
  simp only [AppendEnv, Env.entries, Option.getD_some]
  rw [lookup_foldl_copyInto, lastEntry_cons, lookup_copyInto]
  cases h : lastEntry k elems with
  | some v => rfl
  | none =>
    cases h' : EnvMap.lookup (e.getD []) k <;> simp [Env.entries, h', EnvMap.lookup]

/-- C13. Environment merge: for every environment `e` and list of
environments `elems`, `AppendEnv(e, elems...)` is a non-nil environment that
has a key exactly when `e` or one of `elems` has it, and holds under every
key the value of the last argument, in the order `e`, `elems[0]`,
`elems[1]`, ..., that has the key; merging {a: 1} with {a: 2, b: 3} gives
{a: 2, b: 3}.  The function reads its arguments and writes only the map it
makes: its value is all it leaves. -/
theorem C13_append_env (e : Env) (elems : List Env) (k : Bytes) :
    AppendEnv e elems ≠ none ∧
    ((AppendEnv e elems).has k = true ↔ ∃ x ∈ e :: elems, x.has k = true) ∧
    (AppendEnv e elems).entries.lookup k = lastEntry k (e :: elems) ∧
    AppendEnv (some [(lit "a", .other 1)]) [some [(lit "a", .other 2), (lit "b", .other 3)]] =
      some [(lit "a", .other 2), (lit "b", .other 3)] := by
  refine ⟨by simp [AppendEnv], ?_, lookup_AppendEnv e elems k, rfl⟩
  rw [← lastEntry_isSome, ← lookup_AppendEnv]
  rfl

/-- C13 at three environments: {a: 1, c: 5}, {a: 2} and {b: 3} merge to
a: 2, b: 3, c: 5 and nothing under another key. -/
theorem C13_append_env_witness :
    (AppendEnv (some [(lit "a", .other 1), (lit "c", .other 5)])
      [some [(lit "a", .other 2)], some [(lit "b", .other 3)]]).entries.lookup (lit "a") =
        some (.other 2) ∧
    (AppendEnv (some [(lit "a", .other 1), (lit "c", .other 5)])
      [some [(lit "a", .other 2)], some [(lit "b", .other 3)]]).has (lit "d") = false :=
  ⟨((C13_append_env _ _ (lit "a")).2.2.1).trans rfl, rfl⟩

/-! ## The env after resolution -/

theorem overrideLoop_some (args : List Bytes) : ∀ m : EnvMap,
    ∃ m', overrideLoop args (some m) = some (some m') := by
  induction args with
  | nil => intro m; exact ⟨m, rfl⟩
  | cons expr rest ih =>
    intro m
    simp only [overrideLoop]
    rcases hc : Cut 61 expr with ⟨k, v, ok⟩
    cases ok with
    | false => simpa using ih m
    | true => simpa [Env.store] using ih _

/-- C20. After every successful `Unmarshal(uses, tmpl)` the env of the
template is a non-nil map (`AppendEnv` returns a non-nil map whatever it is
given), so the loop of the command that assigns the `--name=value`
overrides into `t.Env` completes without a write to a nil map, for every
list of arguments. -/
theorem C20_env_non_nil_after_unmarshal {σ : Type} (D : Option (DecoderFn σ)) (fuel : Nat)
    (uses : Bytes) (tmpl tmpl' : Template) (w w' : σ)
    (h : Unmarshal D fuel uses tmpl w = some (tmpl', none, w')) :
    tmpl'.Env ≠ none ∧
    (∀ args : List Bytes, ∃ m, overrideLoop args tmpl'.Env = some (some m)) ∧
    (∀ (e : Env) (elems : List Env), AppendEnv e elems ≠ none) := by
  obtain ⟨_, _, d, _, _, _, _, _, _, _, henv, _⟩ := Unmarshal_ok _ _ _ _ _ _ _ h
  have hne : ∃ m, tmpl'.Env = some m := by rw [henv]; exact ⟨_, rfl⟩
  obtain ⟨m, hm⟩ := hne
  refine ⟨by rw [hm]; simp, fun args => ?_, fun e elems => by simp [AppendEnv]⟩
  rw [hm]
  exact overrideLoop_some args m

/-- C20 when nobody declares an env: the caller's template has a nil env
and the decoder leaves it nil; after `Unmarshal` the env is the empty
non-nil map, and the override `--a=b` is written into it, whereas the same
write into the nil env the caller started with would panic. -/
theorem C20_env_non_nil_after_unmarshal_witness :
    (∃ t', Unmarshal (some silentDecoder) 1 (lit "t.yml") zeroTemplate () = some (t', none, ()) ∧
      t'.Env = some [] ∧
      overrideLoop [lit "--a=b", lit "c"] t'.Env = some (some [(lit "a", .str (lit "b"))])) ∧
    zeroTemplate.Env = none ∧
    overrideLoop [lit "--a=b", lit "c"] zeroTemplate.Env = none ∧
    (∀ args : List Bytes, ∃ m,
      overrideLoop args (AppendEnv none [AppendEnv none []]) = some (some m)) :=
  ⟨⟨_, rfl, rfl, rfl⟩, rfl, rfl,
   (C20_env_non_nil_after_unmarshal (some silentDecoder) 1 (lit "t.yml") zeroTemplate _ () ()
      rfl).2.1⟩

/-! ## The identity of a template -/

theorem Cut_of_not_mem (sep : Nat) : ∀ s : Bytes, sep ∉ s → Cut sep s = (s, [], false) := by
  intro s
  induction s with
  | nil => intro _; rfl
  | cons c cs ih =>
    intro h
    have hc : c ≠ sep := fun e => h (by simp [e])
    have hcs : sep ∉ cs := fun e => h (by simp [e])
    simp only [Cut, hc, if_false, ih hcs]

theorem Cut_append (sep : Nat) (rest : Bytes) : ∀ a : Bytes, sep ∉ a →
    Cut sep (a ++ sep :: rest) = (a, rest, true) := by
  intro a
  induction a with
  | nil => intro _; simp [Cut]
  | cons c cs ih =>
    intro h
    have hc : c ≠ sep := fun e => h (by simp [e])
    have hcs : sep ∉ cs := fun e => h (by simp [e])
    rw [List.cons_append, Cut, if_neg hc, ih hcs]

/-- A string either lacks the separator or splits at its first occurrence. -/
theorem first_occurrence (sep : Nat) : ∀ s : Bytes,
    sep ∉ s ∨ ∃ a rest, s = a ++ sep :: rest ∧ sep ∉ a := by
  intro s
  induction s with
  | nil => exact Or.inl (by simp)
  | cons c cs ih =>
    by_cases hc : c = sep
    · exact Or.inr ⟨[], cs, by simp [hc], by simp⟩
    · rcases ih with h | ⟨a, rest, h1, h2⟩
      · left
        intro hm
        rcases List.mem_cons.mp hm with h' | h'
        · exact hc h'.symm
        · exact h h'
      · right
        refine ⟨c :: a, rest, by simp [h1], ?_⟩
        intro hm
        rcases List.mem_cons.mp hm with h' | h'
        · exact hc h'.symm
        · exact h2 h'

/-- C16. Identity parsing, for every receiver `t` and string `s`.  (1) `s`
either has no slash, or splits at its first slash into an author and a rest
which either has no at-sign or splits at its first at-sign into a namespace
and a version text.  (2) Without a slash, and (3) with a slash but no
at-sign in the rest, `Unmarshal` returns the format error made from `s`,
whose message names the pattern author/namespace@vX.Y.Z, and leaves the
version as it was (the author, and in (3) the namespace, are overwritten with
what stands before the missing separator).  (4) Otherwise it sets Author and
Namespace to the two parts, runs `Version.UnmarshalText` on the version
text, returns that call's error, so it succeeds exactly when the version
text is accepted, and the version is what that call left. -/
theorem C16_identity_parsing (t : Template) (s : Bytes) :
    (47 ∉ s ∨ ∃ a rest, s = a ++ 47 :: rest ∧ 47 ∉ a ∧
      (64 ∉ rest ∨ ∃ ns vt, rest = ns ++ 64 :: vt ∧ 64 ∉ ns)) ∧
    (47 ∉ s → t.Unmarshal s = ({ t with Author := s }, some (.invalidUses s))) ∧
    (∀ a rest, s = a ++ 47 :: rest → 47 ∉ a → 64 ∉ rest →
      t.Unmarshal s = ({ t with Author := a, Namespace := rest }, some (.invalidUses s))) ∧
    (∀ a ns vt, s = a ++ 47 :: (ns ++ 64 :: vt) → 47 ∉ a → 64 ∉ ns →
      t.Unmarshal s =
        ({ t with Author := a, Namespace := ns, Version := (t.Version.UnmarshalText vt).1 },
          (t.Version.UnmarshalText vt).2.map Error.version) ∧
      ((t.Unmarshal s).2 = none ↔ (t.Version.UnmarshalText vt).2 = none)) ∧
    lit "author/namespace@vX.Y.Z" <:+: invalidUsesText s := by
  refine ⟨?_, ?_, ?_, ?_, ?_⟩
  · rcases first_occurrence 47 s with h | ⟨a, rest, h1, h2⟩
    · exact Or.inl h
    · exact Or.inr ⟨a, rest, h1, h2, first_occurrence 64 rest⟩
  · intro h
    simp [TemplateOf.Unmarshal, Cut_of_not_mem 47 s h]
  · intro a rest hs ha hr
    subst hs
    simp [TemplateOf.Unmarshal, Cut_append 47 rest a ha, Cut_of_not_mem 64 rest hr]
  · intro a ns vt hs ha hn
    subst hs
    have hU : t.Unmarshal (a ++ 47 :: (ns ++ 64 :: vt)) =
        ({ t with Author := a, Namespace := ns, Version := (t.Version.UnmarshalText vt).1 },
          (t.Version.UnmarshalText vt).2.map Error.version) := by
      simp [TemplateOf.Unmarshal, Cut_append 47 _ a ha, Cut_append 64 vt ns hn]
    refine ⟨hU, ?_⟩
    rw [hU]
    cases (t.Version.UnmarshalText vt).2 <;> simp
  · exact ⟨lit "template: invalid template uses: " ++ 34 :: (s ++ 34 :: (lit ", expected " ++ [34])),
      [34], by simp [invalidUsesText]⟩

/-- C16 at concrete strings: "drelf/weibo@v1.2.3" is parsed into its three
parts; "drelf" and "drelf/weibo" give the format error; "drelf/weibo@1.2.3"
gives the error of the version parser. -/
theorem C16_identity_parsing_witness :
    zeroTemplate.Unmarshal (lit "drelf/weibo@v1.2.3") = (namedTemplate, none) ∧
    (zeroTemplate.Unmarshal (lit "drelf")).2 = some (.invalidUses (lit "drelf")) ∧
    (zeroTemplate.Unmarshal (lit "drelf/weibo")).2 = some (.invalidUses (lit "drelf/weibo")) ∧
    (zeroTemplate.Unmarshal (lit "drelf/weibo@1.2.3")).2 =
      some (.version (.invalidPrefix 49)) :=
  ⟨((C16_identity_parsing zeroTemplate (lit "drelf/weibo@v1.2.3")).2.2.2.1 (lit "drelf")
      (lit "weibo") (lit "v1.2.3") rfl (by decide) (by decide)).1.trans rfl,
   rfl, rfl, rfl⟩

/-- C19. Identity round trip: for every template `t` with an empty
description, an author without a slash, a namespace without an at-sign and
64-bit version components, and every receiver `r`, `Unmarshal` applied to
`t.String()` succeeds and leaves the author, namespace and version of `t`;
and there is a template with a slash in its author whose text is parsed into
a different author. -/
theorem C19_identity_round_trip (t r : Template) (hd : t.Description = [])
    (ha : 47 ∉ t.Author) (hn : 64 ∉ t.Namespace) (hv : t.Version.InRange) :
    ((r.Unmarshal t.String).2 = none ∧ (r.Unmarshal t.String).1.Author = t.Author ∧
      (r.Unmarshal t.String).1.Namespace = t.Namespace ∧
      (r.Unmarshal t.String).1.Version = t.Version) ∧
    (∃ t' : Template, t'.Description = [] ∧ 47 ∈ t'.Author ∧ t'.Version.InRange ∧
      (zeroTemplate.Unmarshal t'.String).1.Author ≠ t'.Author) := by
  constructor
  · have hS : t.String = t.Author ++ 47 :: (t.Namespace ++ 64 :: t.Version.String) := by
      simp [TemplateOf.String, hd]
    have hP : r.Version.UnmarshalText t.Version.String = (t.Version, none) := by
      obtain ⟨hM, hm, hp⟩ := hv
      unfold Version.UnmarshalText Version.String
      simp only [ne_eq, not_true_eq_false, if_false]
      rw [Split_append_sep 46 _ _ (fmtUint_no_dot _), Split_append_sep 46 _ _ (fmtUint_no_dot _),
        Split_of_not_mem 46 _ (fmtUint_no_dot _)]
      simp only [parsePart_fmtUint _ hM, parsePart_fmtUint _ hm, parsePart_fmtUint _ hp]
    rw [hS]
    simp [TemplateOf.Unmarshal, Cut_append 47 _ t.Author ha, Cut_append 64 _ t.Namespace hn, hP]
  · exact ⟨slashTemplate, rfl, by decide, by decide, by decide⟩

/-- C19 at drelf/weibo@v1.2.3: the text of the template is parsed back into
author "drelf", namespace "weibo" and version 1.2.3, over any receiver. -/
theorem C19_identity_round_trip_witness :
    namedTemplate.String = lit "drelf/weibo@v1.2.3" ∧
    (slashTemplate.Unmarshal namedTemplate.String).2 = none ∧
    (slashTemplate.Unmarshal namedTemplate.String).1.Author = lit "drelf" ∧
    (slashTemplate.Unmarshal namedTemplate.String).1.Namespace = lit "weibo" ∧
    (slashTemplate.Unmarshal namedTemplate.String).1.Version = ⟨1, 2, 3⟩ :=
  ⟨by decide,
   (C19_identity_round_trip namedTemplate slashTemplate rfl (by decide) (by decide)
      (by decide)).1⟩

/-! ## Execution: a step without uses and without URL -/

theorem Step.Request_empty {σ : Type} (H : Host σ) (s : Step) (funcs : FuncLog)
    (h : s.URL = []) : s.Request H funcs = .error .ErrEmptyURL := by
  simp [Step.Request, h]

theorem doStep_empty_url {σ : Type} (H : Host σ) (fuel : Nat)
    (doSub : Template → FuncLog → σ → Option (DoResult σ)) (step : Step) (st : LoopState σ)
    (hs : step.Skip = []) (hu : step.Uses = []) (hl : step.URL = []) :
    doStep H fuel doSub step st = some (st, .ret none [] (some .ErrEmptyURL), step) := by
  simp only [doStep, skipCheck_empty H st.funcs step hs, runBranch, hu, ne_eq,
    not_true_eq_false, if_false, runRequest, Step.Request_empty H step st.funcs hl]

/-- C11 as stated fails: on the small host, the template whose first step
has no skip, no uses and no URL makes `Do` fail with `ErrEmptyURL` and a nil
environment; nothing of the step's set is registered, and the step after it
is not executed (no request is sent). -/
theorem C11_degenerate_step_is_legal_counterexample :
    TemplateOf.Do smallHost 1 degenerateTemplate [] [] =
      some { out := none, result := [], err := some .ErrEmptyURL, funcs := [], world := [],
             tmpl := degenerateTemplate } :=
  rfl

/-- C11, amended. A step whose uses and url are both empty and whose skip is
empty makes `Do` fail: the iteration on it issues no HTTP call, registers
nothing of its set, exports nothing of its out, leaves the step as it is,
and returns a nil environment with the error `ErrEmptyURL`; `Do` of any
template in which the run reaches such a step returns that error, unwrapped,
with the renderer and the world as they were before the step and the
following steps not executed. -/
theorem C11_degenerate_step_fails {σ : Type} (H : Host σ) (fuel : Nat) (step : Step)
    (st : LoopState σ) (hs : step.Skip = []) (hu : step.Uses = []) (hl : step.URL = []) :
    (∀ doSub : Template → FuncLog → σ → Option (DoResult σ),
      doStep H fuel doSub step st = some (st, .ret none [] (some .ErrEmptyURL), step)) ∧
    (∀ (t : Template) (funcs : FuncLog) (w : σ) (pre rest held : List Step),
      t.Steps = pre ++ step :: rest → ReachesStep H fuel t funcs w pre st held →
      TemplateOf.Do H (fuel + 1) t funcs w =
        some { out := none, result := [], err := some .ErrEmptyURL, funcs := st.funcs,
               world := st.world, tmpl := { t with Steps := held ++ step :: rest } }) :=
  ⟨fun doSub => doStep_empty_url H fuel doSub step st hs hu hl,
   fun t funcs w pre rest held hsteps hreach =>
    Do_of_ret H fuel t funcs w pre rest step st st held _ _ _ step hsteps hreach
      (doStep_empty_url H fuel _ step st hs hu hl)⟩

/-- C11 amended, on the small host: after a plain step, the degenerate step
makes `Do` return `ErrEmptyURL`; the world holds the request of the plain
step only and the step that follows is not executed. -/
theorem C11_degenerate_step_fails_witness :
    TemplateOf.Do smallHost 1 (templateOf [plainStep, degenerateStep, skippedStep]) [] [] =
      some { out := none, result := [], err := some .ErrEmptyURL, funcs := [],
             world := [plainRequest],
             tmpl := { templateOf [plainStep, degenerateStep, skippedStep] with
                         Steps := [plainStep] ++ degenerateStep :: [skippedStep] } } :=
  (C11_degenerate_step_fails smallHost 0 degenerateStep afterPlain rfl rfl rfl).2
    (templateOf [plainStep, degenerateStep, skippedStep]) [] [] [plainStep] [skippedStep]
    [plainStep] rfl ⟨_, _, rfl, rfl, rfl⟩

/-! ## Execution: what `Do` leaves of the template -/

/-- C12 fails on the code: on the small host, `Do` of the template whose
step has the set chain {x: "1", set: {y: ..., set: nil}} succeeds, exporting
r = "1-12", and leaves a template whose step's set no longer has the entry
under "set" (the body's `delete(set, "set")` acts on the map the template
holds); a second `Do` of the template as the first left it, on a fresh
renderer, registers x only and fails to render the out that reads y. -/
theorem C12_do_changes_the_template :
    Env.has chainStep.Set (lit "set") = true ∧
    TemplateOf.Do smallHost 1 (templateOf [chainStep]) [] [] =
      some { out := some [(lit "r", .str (lit "1-12"))], result := lit "hello", err := none,
             funcs := [(lit "x", .str (lit "1")), (lit "y", .str (lit "12"))],
             world := [chainRequest], tmpl := templateOf [chainStepAfter] } ∧
    Env.has chainStepAfter.Set (lit "set") = false ∧
    TemplateOf.Do smallHost 1 (templateOf [chainStepAfter]) [] [] =
      some { out := none, result := lit "hello",
             err := some (.outFailed chainStepAfter.Template.String
               (.external (lit "function not defined"))),
             funcs := [(lit "x", .str (lit "1"))],
             world := [chainRequest], tmpl := templateOf [chainStepAfter] } :=
  ⟨rfl, rfl, rfl, rfl⟩

/-! ## Registration of a batch of functions -/

theorem EnvMap.mem_range_iff (m : EnvMap) (k : Bytes) (v : Value) :
    (k, v) ∈ m.range ↔ m.lookup k = some v := by
  constructor
  · intro h
    have := EnvMap.lookup_of_mem m.range (EnvMap.range_nodup m) k v h
    rwa [EnvMap.lookup_range] at this
  · intro h
    rw [← EnvMap.lookup_range] at h
    generalize m.range = l at h
    induction l with
    | nil => simp [EnvMap.lookup] at h
    | cons p tl ih =>
      obtain ⟨k0, v0⟩ := p
      simp only [EnvMap.lookup] at h
      by_cases hk : k0 = k
      · rw [if_pos hk] at h
        cases h
        subst hk
        exact List.mem_cons_self _ _
      · rw [if_neg hk] at h
        exact List.mem_cons_of_mem _ (ih h)

theorem envSetLoop_error {σ : Type} (H : Host σ) (e : Env) (pfx : Bytes) :
    ∀ (l fm : EnvMap) (err : Error), envSetLoop H e pfx l fm = .error err →
      ∃ kv ∈ l, H.GoodName (pfx ++ kv.1) = false ∧ err = .invalidName (pfx ++ kv.1) := by
  intro l
  induction l with
  | nil => intro fm err h; simp [envSetLoop] at h
  | cons p tl ih =>
    intro fm err h
    obtain ⟨k0, v0⟩ := p
    simp only [envSetLoop] at h
    by_cases hg : H.GoodName (pfx ++ k0) = true
    · simp only [hg, Bool.not_true, Bool.false_eq_true, if_false] at h
      obtain ⟨kv, hkv, h1, h2⟩ := ih _ err h
      exact ⟨kv, List.mem_cons_of_mem _ hkv, h1, h2⟩
    · have hg' : H.GoodName (pfx ++ k0) = false := by simpa using hg
      simp only [hg', Bool.not_false, if_true, Except.error.injEq] at h
      exact ⟨(k0, v0), List.mem_cons_self _ _, hg', h.symm⟩

theorem envSetLoop_good {σ : Type} (H : Host σ) (e : Env) (pfx : Bytes) :
    ∀ (l fm fm' : EnvMap), envSetLoop H e pfx l fm = .ok fm' →
      ∀ kv ∈ l, H.GoodName (pfx ++ kv.1) = true := by
  intro l
  induction l with
  | nil => intro fm fm' _ kv hkv; simp at hkv
  | cons p tl ih =>
    intro fm fm' h kv hkv
    obtain ⟨k0, v0⟩ := p
    simp only [envSetLoop] at h
    by_cases hg : H.GoodName (pfx ++ k0) = true
    · simp only [hg, Bool.not_true, Bool.false_eq_true, if_false] at h
      rcases List.mem_cons.mp hkv with h' | h'
      · subst h'; exact hg
      · exact ih _ fm' h kv h'
    · have hg' : H.GoodName (pfx ++ k0) = false := by simpa using hg
      simp [hg'] at h

/-- What `Env.Set` returns: on an error the renderer's functions as they
were and the name of a key that is not a good name; otherwise every key
gives a good name. -/
theorem Env.Set_cases {σ : Type} (H : Host σ) (e : Env) (funcs : FuncLog) (pfx : Bytes) :
    (∃ k v, e.entries.lookup k = some v ∧ H.GoodName (pfx ++ k) = false ∧
      Env.Set H e funcs pfx = (funcs, some (.invalidName (pfx ++ k)))) ∨
    ((∀ k v, e.entries.lookup k = some v → H.GoodName (pfx ++ k) = true) ∧
      Env.Set H e funcs pfx =
        (funcs ++ e.entries.range.map (fun kv => (pfx ++ kv.1, kv.2)), none)) := by
  cases e with
  | none =>
    right
    exact ⟨fun k v h => by simp [Env.entries, EnvMap.lookup] at h, by
      simp [Env.Set, Env.entries, EnvMap.range]⟩
  | some m =>
    cases hl : envSetLoop H (some m) pfx m.range [] with
    | error err =>
      left
      obtain ⟨kv, hkv, hg, he⟩ := envSetLoop_error H (some m) pfx _ _ err hl
      refine ⟨kv.1, kv.2, (EnvMap.mem_range_iff m kv.1 kv.2).mp hkv, hg, ?_⟩
      simp [Env.Set, hl, he]
    | ok fm =>
      right
      have hset : Env.Set H (some m) funcs pfx =
          (if fm.length ≠ 0 then funcs ++ fm else funcs, none) := by
        simp [Env.Set, hl]
      refine ⟨fun k v h => envSetLoop_good H (some m) pfx _ _ fm hl (k, v)
        ((EnvMap.mem_range_iff m k v).mpr h), ?_⟩
      rw [← Env.Set_ok H (some m) funcs _ pfx hset]
      exact hset

/-- C14. Function-batch registration is atomic, for every environment `e`,
prefix `p`, renderer functions `funcs` and good-name rule of the renderer.
`Env.Set` returns an error exactly when some key `k` of `e` makes `p+k` not
a good name; the error then names such a `p+k` and the renderer's functions
are unchanged.  Otherwise the renderer gains a batch of functions with
distinct names that holds, for every key `k` of `e`, the function named
`p+k` returning `e[k]`, and nothing else. -/
theorem C14_env_set_atomic {σ : Type} (H : Host σ) (e : Env) (funcs : FuncLog) (pfx : Bytes) :
    ((Env.Set H e funcs pfx).2 ≠ none ↔
      ∃ k, e.has k = true ∧ H.GoodName (pfx ++ k) = false) ∧
    ((Env.Set H e funcs pfx).2 ≠ none →
      (Env.Set H e funcs pfx).1 = funcs ∧
      ∃ k, e.has k = true ∧ H.GoodName (pfx ++ k) = false ∧
        (Env.Set H e funcs pfx).2 = some (.invalidName (pfx ++ k))) ∧
    ((Env.Set H e funcs pfx).2 = none →
      ∃ batch : FuncLog, (Env.Set H e funcs pfx).1 = funcs ++ batch ∧
        (batch.map Prod.fst).Nodup ∧
        (∀ k, e.has k = true → (pfx ++ k, e.index k) ∈ batch) ∧
        (∀ name v, (name, v) ∈ batch →
          ∃ k, e.has k = true ∧ name = pfx ++ k ∧ v = e.index k)) := by
  have hhas : ∀ k, e.has k = true ↔ ∃ v, e.entries.lookup k = some v := by
    intro k
    simp [Env.has, Option.isSome_iff_exists]
  rcases Env.Set_cases H e funcs pfx with ⟨k, v, hk, hg, hS⟩ | ⟨hall, hS⟩
  · rw [hS]
    refine ⟨⟨fun _ => ⟨k, (hhas k).mpr ⟨v, hk⟩, hg⟩, fun _ => by simp⟩, ?_, fun h => by simp at h⟩
    intro _
    exact ⟨rfl, k, (hhas k).mpr ⟨v, hk⟩, hg, rfl⟩
  · rw [hS]
    refine ⟨⟨fun h => absurd rfl h, ?_⟩, fun h => absurd rfl h, fun _ => ?_⟩
    · rintro ⟨k, hk, hg⟩
      obtain ⟨v, hv⟩ := (hhas k).mp hk
      rw [hall k v hv] at hg
      cases hg
    · refine ⟨_, rfl, ?_, ?_, ?_⟩
      · rw [List.map_map]
        have hnd := EnvMap.range_nodup e.entries
        have hinj : Function.Injective (fun k : Bytes => pfx ++ k) :=
          fun a b h => List.append_cancel_left h
        have := List.Nodup.map hinj hnd
        rw [List.map_map] at this
        exact this
      · intro k hk
        obtain ⟨v, hv⟩ := (hhas k).mp hk
        have hm := (EnvMap.mem_range_iff e.entries k v).mpr hv
        have hi : e.index k = v := by simp [Env.index, hv]
        rw [hi]
        exact List.mem_map.mpr ⟨(k, v), hm, rfl⟩
      · intro name v hm
        obtain ⟨kv, hkv, heq⟩ := List.mem_map.mp hm
        have hl := (EnvMap.mem_range_iff e.entries kv.1 kv.2).mp hkv
        simp only [Prod.mk.injEq] at heq
        refine ⟨kv.1, (hhas kv.1).mpr ⟨kv.2, hl⟩, heq.1.symm, ?_⟩
        simp [Env.index, hl, heq.2]

/-- C14 on the small host's good-name rule: the environment {a: 1, b-c: 2}
under the prefix "ns_" is refused with the name "ns_b-c" and leaves the
renderer's one function alone, although the key before it gave a good name;
{a: 1, b: 2} registers ns_a and ns_b after it. -/
theorem C14_env_set_atomic_witness :
    Env.Set smallHost (some [(lit "a", .other 1), (lit "b-c", .other 2)])
        [(lit "f", .other 0)] (lit "ns_") =
      ([(lit "f", .other 0)], some (.invalidName (lit "ns_b-c"))) ∧
    Env.Set smallHost (some [(lit "a", .other 1), (lit "b", .other 2)])
        [(lit "f", .other 0)] (lit "ns_") =
      ([(lit "f", .other 0), (lit "ns_a", .other 1), (lit "ns_b", .other 2)], none) ∧
    (Env.Set smallHost (some [(lit "a", .other 1), (lit "b-c", .other 2)])
        [(lit "f", .other 0)] (lit "ns_")).1 = [(lit "f", .other 0)] :=
  ⟨rfl, rfl,
   ((C14_env_set_atomic smallHost (some [(lit "a", .other 1), (lit "b-c", .other 2)])
      [(lit "f", .other 0)] (lit "ns_")).2.1 (by simp [show
        Env.Set smallHost (some [(lit "a", .other 1), (lit "b-c", .other 2)])
          [(lit "f", .other 0)] (lit "ns_") =
        ([(lit "f", .other 0)], some (.invalidName (lit "ns_b-c"))) from rfl])).1⟩

/-! ## Resolution: the calls of the decoder -/

theorem StopsAtFirstFailure.append {calls1 calls2 : List (Bytes × Option Error)}
    {err : Option Error} (h1 : StopsAtFirstFailure calls1 none)
    (h2 : StopsAtFirstFailure calls2 err) : StopsAtFirstFailure (calls1 ++ calls2) err := by
  cases err with
  | none =>
    intro c hc
    rcases List.mem_append.mp hc with h | h
    · exact h1 c h
    · exact h2 c h
  | some e =>
    obtain ⟨init, u, hc, hi⟩ := h2
    refine ⟨calls1 ++ init, u, by rw [hc, List.append_assoc], ?_⟩
    intro c hc'
    rcases List.mem_append.mp hc' with h | h
    · exact h1 c h
    · exact hi c h

theorem StopsAtFirstFailure.single (u : Bytes) (err : Option Error) :
    StopsAtFirstFailure [(u, err)] err := by
  cases err with
  | none => intro c hc; simp at hc; rw [hc]
  | some e => exact ⟨[], u, rfl, by simp⟩

theorem StopsAtFirstFailure.error_iff {calls : List (Bytes × Option Error)}
    {err : Option Error} (h : StopsAtFirstFailure calls err) :
    err ≠ none ↔ ∃ c ∈ calls, c.2 ≠ none := by
  cases err with
  | none =>
    simp only [ne_eq, not_true_eq_false, false_iff, not_exists, not_and, not_not]
    exact h
  | some e =>
    obtain ⟨init, u, hc, _⟩ := h
    simp only [ne_eq, reduceCtorEq, not_false_eq_true, true_iff]
    exact ⟨(u, some e), by rw [hc]; simp, by simp⟩

/-- The loop of `Unmarshal` with a recording decoder: its calls are added
after those recorded before, and stop at the first failure. -/
theorem unmarshalSteps_calls {σ : Type}
    (rec : Bytes → Template → σ × List (Bytes × Option Error) →
      Option (Template × Option Error × (σ × List (Bytes × Option Error))))
    (hrec : ∀ u t w log t' err w' log', rec u t (w, log) = some (t', err, (w', log')) →
      ∃ calls, log' = log ++ calls ∧ StopsAtFirstFailure calls err) :
    ∀ (steps : List Step) (w : σ) (log : List (Bytes × Option Error)) (steps' : List Step)
      (err : Option Error) (w' : σ) (log' : List (Bytes × Option Error)),
      unmarshalSteps rec steps (w, log) = some (steps', err, (w', log')) →
      ∃ calls, log' = log ++ calls ∧ StopsAtFirstFailure calls err := by
  intro steps
  induction steps with
  | nil =>
    intro w log steps' err w' log' h
    simp only [unmarshalSteps, Option.some.injEq, Prod.mk.injEq] at h
    obtain ⟨_, he, _, hl⟩ := h
    subst he hl
    exact ⟨[], by simp, fun c hc => by simp at hc⟩
  | cons p rest ih =>
    intro w log steps' err w' log' h
    simp only [unmarshalSteps] at h
    by_cases hu : p.Uses = []
    · simp only [hu, ne_eq, not_true_eq_false, if_false] at h
      cases hr : unmarshalSteps rec rest (w, log) with
      | none => rw [hr] at h; simp at h
      | some r =>
        obtain ⟨rest', err2, w2, log2⟩ := r
        rw [hr] at h
        simp only [Option.some.injEq, Prod.mk.injEq] at h
        obtain ⟨_, he, _, hl⟩ := h
        subst he hl
        exact ih w log rest' err2 w2 log2 hr
    · simp only [hu, ne_eq, not_false_eq_true, if_true] at h
      cases hc : rec p.Uses p.Template (w, log) with
      | none => rw [hc] at h; simp at h
      | some r =>
        obtain ⟨t, e, w1, log1⟩ := r
        rw [hc] at h
        obtain ⟨calls1, hl1, hs1⟩ := hrec _ _ _ _ _ _ _ _ hc
        cases e with
        | some er =>
          simp only [Option.some.injEq, Prod.mk.injEq] at h
          obtain ⟨_, he, _, hl⟩ := h
          subst he hl
          exact ⟨calls1, hl1, hs1⟩
        | none =>
          simp only [] at h
          cases hr : unmarshalSteps rec rest (w1, log1) with
          | none => rw [hr] at h; simp at h
          | some r' =>
            obtain ⟨rest', err2, w2, log2⟩ := r'
            rw [hr] at h
            simp only [Option.some.injEq, Prod.mk.injEq] at h
            obtain ⟨_, he, _, hl⟩ := h
            subst he hl
            obtain ⟨calls2, hl2, hs2⟩ := ih w1 log1 rest' err2 w2 log2 hr
            exact ⟨calls1 ++ calls2, by rw [hl2, hl1, List.append_assoc], hs1.append hs2⟩

/-- `Unmarshal` with a recording decoder: the first call recorded is the one
for the root identity, and the calls stop at the first failure, whose error
is the result. -/
theorem Unmarshal_calls {σ : Type} (dec : DecoderFn σ) (fuel : Nat) :
    ∀ (uses : Bytes) (tmpl : Template) (w : σ) (log : List (Bytes × Option Error))
      (t' : Template) (err : Option Error) (w' : σ) (log' : List (Bytes × Option Error)),
      Unmarshal (some (recordingDecoder dec)) fuel uses tmpl (w, log) =
        some (t', err, (w', log')) →
      ∃ first calls, log' = log ++ (uses, first) :: calls ∧
        StopsAtFirstFailure ((uses, first) :: calls) err := by
  induction fuel with
  | zero => intro uses tmpl w log t' err w' log' h; simp [Unmarshal] at h
  | succ n ih =>
    intro uses tmpl w log t' err w' log' h
    simp only [Unmarshal, recordingDecoder] at h
    rcases hd : dec uses tmpl w with ⟨⟨d, e⟩, w1⟩
    rw [hd] at h
    cases e with
    | some er =>
      simp only [Option.some.injEq, Prod.mk.injEq] at h
      obtain ⟨_, he, _, hl⟩ := h
      subst he hl
      exact ⟨some er, [], rfl, StopsAtFirstFailure.single uses (some er)⟩
    | none =>
      simp only [] at h
      split at h
      · cases h
      · rename_i steps err2 s2 hs
        simp only [Option.some.injEq, Prod.mk.injEq] at h
        obtain ⟨_, he, hw⟩ := h
        subst he
        obtain ⟨w2, log2⟩ := s2
        simp only [Prod.mk.injEq] at hw
        obtain ⟨_, hl⟩ := hw
        subst hl
        obtain ⟨calls, hl2, hs2⟩ := unmarshalSteps_calls
          (Unmarshal (some (recordingDecoder dec)) n)
          (fun u t w log t' err w' log' hh => by
            obtain ⟨f, c, h1, h2⟩ := ih u t w log t' err w' log' hh
            exact ⟨_, h1, h2⟩) _ _ _ _ _ _ _ hs
        refine ⟨none, calls, by rw [hl2]; simp, ?_⟩
        have hs1 : StopsAtFirstFailure [(uses, (none : Option Error))] none :=
          StopsAtFirstFailure.single uses none
        exact StopsAtFirstFailure.append hs1 hs2

theorem unmarshalSteps_erase {σ : Type}
    (rec' : Bytes → Template → σ × List (Bytes × Option Error) →
      Option (Template × Option Error × (σ × List (Bytes × Option Error))))
    (rec : Bytes → Template → σ → Option (Template × Option Error × σ))
    (hrec : ∀ u t w log, (rec' u t (w, log)).map (fun r => (r.1, r.2.1, r.2.2.1)) = rec u t w) :
    ∀ (steps : List Step) (w : σ) (log : List (Bytes × Option Error)),
      (unmarshalSteps rec' steps (w, log)).map (fun r => (r.1, r.2.1, r.2.2.1)) =
        unmarshalSteps rec steps w := by
  intro steps
  induction steps with
  | nil => intro w log; rfl
  | cons p rest ih =>
    intro w log
    simp only [unmarshalSteps]
    by_cases hu : p.Uses = []
    · simp only [hu, ne_eq, not_true_eq_false, if_false]
      rw [← ih w log]
      cases unmarshalSteps rec' rest (w, log) with
      | none => rfl
      | some r => rfl
    · simp only [hu, ne_eq, not_false_eq_true, if_true]
      rw [← hrec p.Uses p.Template w log]
      cases rec' p.Uses p.Template (w, log) with
      | none => rfl
      | some r =>
        obtain ⟨t, e, w1, log1⟩ := r
        cases e with
        | some er => rfl
        | none =>
          simp only [Option.map_some']
          rw [← ih w1 log1]
          cases unmarshalSteps rec' rest (w1, log1) with
          | none => rfl
          | some r' => rfl

/-- Recording the calls changes nothing else: without the record, the run
with the recording decoder is the run with the decoder. -/
theorem Unmarshal_erase {σ : Type} (dec : DecoderFn σ) (fuel : Nat) :
    ∀ (uses : Bytes) (tmpl : Template) (w : σ) (log : List (Bytes × Option Error)),
      (Unmarshal (some (recordingDecoder dec)) fuel uses tmpl (w, log)).map
        (fun r => (r.1, r.2.1, r.2.2.1)) = Unmarshal (some dec) fuel uses tmpl w := by
  induction fuel with
  | zero => intro uses tmpl w log; rfl
  | succ n ih =>
    intro uses tmpl w log
    simp only [Unmarshal, recordingDecoder]
    rcases hd : dec uses tmpl w with ⟨⟨d, e⟩, w1⟩
    cases e with
    | some er => rfl
    | none =>
      simp only []
      rw [← unmarshalSteps_erase (Unmarshal (some (recordingDecoder dec)) n)
        (Unmarshal (some dec) n) ih _ w1 (log ++ [(uses, none)])]
      cases unmarshalSteps (Unmarshal (some (recordingDecoder dec)) n)
          (if tmpl.Namespace ≠ [] then { d with Namespace := tmpl.Namespace } else d).Steps
          (w1, log ++ [(uses, none)]) with
      | none => rfl
      | some r => rfl

/-! ## Executions that share a renderer root -/

/-- C18 fails on the code: two `SafeTemplate.Do` calls on one root, one
after the other, on the small host.  The first execution registers
foo = "1".  The second execution declares foo as the action foo followed by
"2": on a root of its own the rendering of its environment fails, no function
foo being defined, but on the shared root it renders with the value the
first execution registered and registers foo = "12".  The registration of
the first call reached the function maps of the root, which the child
renderer of the second call shares. -/
theorem C18_executions_share_functions :
    SafeTemplate.Do smallHost { root := [] } 1 fooTemplate [] =
      some { out := some [], result := [], err := none,
             funcs := [(lit "foo", .str (lit "1"))], world := [], tmpl := fooTemplate } ∧
    SafeTemplate.Do smallHost { root := [] } 1 fooAgainTemplate [] =
      some { out := none, result := [],
             err := some (.envFailed fooAgainTemplate.String
               (.external (lit "function not defined"))),
             funcs := [], world := [], tmpl := fooAgainTemplate } ∧
    (SafeTemplate.Do smallHost { root := [] } 1 fooTemplate []).bind
        (fun res => SafeTemplate.Do smallHost (SafeTemplate.afterDo { root := [] } res) 1
          fooAgainTemplate []) =
      some { out := some [], result := [], err := none,
             funcs := [(lit "foo", .str (lit "1")), (lit "foo", .str (lit "12"))],
             world := [], tmpl := fooAgainTemplate } :=
  ⟨rfl, rfl, rfl⟩

/-! ## Resolution: the order of the decoder's calls -/

theorem unmarshalSteps_mono {σ : Type}
    (rec rec' : Bytes → Template → σ → Option (Template × Option Error × σ))
    (h : ∀ u t w r, rec u t w = some r → rec' u t w = some r) :
    ∀ (steps : List Step) (w : σ) (r : List Step × Option Error × σ),
      unmarshalSteps rec steps w = some r → unmarshalSteps rec' steps w = some r := by
  intro steps
  induction steps with
  | nil => intro w r hr; exact hr
  | cons p rest ih =>
    intro w r hr
    simp only [unmarshalSteps] at hr ⊢
    by_cases hu : p.Uses = []
    · simp only [hu, ne_eq, not_true_eq_false, if_false] at hr ⊢
      cases hs : unmarshalSteps rec rest w with
      | none => rw [hs] at hr; simp at hr
      | some q => rw [hs] at hr; rw [ih w q hs]; exact hr
    · simp only [hu, ne_eq, not_false_eq_true, if_true] at hr ⊢
      cases hc : rec p.Uses p.Template w with
      | none => rw [hc] at hr; simp at hr
      | some q =>
        rw [hc] at hr
        rw [h _ _ _ q hc]
        obtain ⟨t, e, w1⟩ := q
        cases e with
        | some er => exact hr
        | none =>
          simp only [] at hr ⊢
          cases hs : unmarshalSteps rec rest w1 with
          | none => rw [hs] at hr; simp at hr
          | some q' => rw [hs] at hr; rw [ih w1 q' hs]; exact hr

/-- More fuel does not change a run of `Unmarshal` that returned. -/
theorem Unmarshal_mono {σ : Type} (D : Option (DecoderFn σ)) (fuel : Nat) :
    ∀ (uses : Bytes) (tmpl : Template) (w : σ) (r : Template × Option Error × σ),
      Unmarshal D fuel uses tmpl w = some r → Unmarshal D (fuel + 1) uses tmpl w = some r := by
  induction fuel with
  | zero => intro uses tmpl w r h; simp [Unmarshal] at h
  | succ n ih =>
    intro uses tmpl w r h
    cases D with
    | none => exact h
    | some dec =>
      rw [Unmarshal] at h ⊢
      simp only [] at h ⊢
      rcases hd : dec uses tmpl w with ⟨⟨d, e⟩, w1⟩
      rw [hd] at h
      cases e with
      | some er => exact h
      | none =>
        simp only [] at h ⊢
        split at h
        · cases h
        · rename_i steps err w2 hs
          rw [unmarshalSteps_mono _ _ ih _ _ _ hs]
          exact h

theorem Unmarshal_mono_le {σ : Type} (D : Option (DecoderFn σ)) (fuel fuel' : Nat)
    (hle : fuel ≤ fuel') (uses : Bytes) (tmpl : Template) (w : σ)
    (r : Template × Option Error × σ) (h : Unmarshal D fuel uses tmpl w = some r) :
    Unmarshal D fuel' uses tmpl w = some r := by
  induction hle with
  | refl => exact h
  | step _ ih => exact Unmarshal_mono D _ uses tmpl w r ih

theorem unmarshalSteps_resolves {σ : Type} (dec : DecoderFn σ)
    (rec : Bytes → Template → σ × List (Bytes × Option Error) →
      Option (Template × Option Error × (σ × List (Bytes × Option Error))))
    (hrec : ∀ u t w log t' err w' log', rec u t (w, log) = some (t', err, (w', log')) →
      ∃ calls, log' = log ++ calls ∧ Resolves dec (.template u t) w calls err w') :
    ∀ (steps : List Step) (w : σ) (log : List (Bytes × Option Error)) (steps' : List Step)
      (err : Option Error) (w' : σ) (log' : List (Bytes × Option Error)),
      unmarshalSteps rec steps (w, log) = some (steps', err, (w', log')) →
      ∃ calls, log' = log ++ calls ∧ Resolves dec (.steps steps) w calls err w' := by
  intro steps
  induction steps with
  | nil =>
    intro w log steps' err w' log' h
    simp only [unmarshalSteps, Option.some.injEq, Prod.mk.injEq] at h
    obtain ⟨_, he, hw, hl⟩ := h
    subst he hl hw
    exact ⟨[], by simp, Resolves.done w⟩
  | cons p rest ih =>
    intro w log steps' err w' log' h
    simp only [unmarshalSteps] at h
    by_cases hu : p.Uses = []
    · simp only [hu, ne_eq, not_true_eq_false, if_false] at h
      cases hr : unmarshalSteps rec rest (w, log) with
      | none => rw [hr] at h; simp at h
      | some r =>
        obtain ⟨rest', err2, w2, log2⟩ := r
        rw [hr] at h
        simp only [Option.some.injEq, Prod.mk.injEq] at h
        obtain ⟨_, he, hw, hl⟩ := h
        subst he hl hw
        obtain ⟨calls, hl, hres⟩ := ih w log rest' err2 w2 log2 hr
        exact ⟨calls, hl, Resolves.pass p rest w w2 calls err2 hu hres⟩
    · simp only [hu, ne_eq, not_false_eq_true, if_true] at h
      cases hc : rec p.Uses p.Template (w, log) with
      | none => rw [hc] at h; simp at h
      | some r =>
        obtain ⟨t, e, w1, log1⟩ := r
        rw [hc] at h
        obtain ⟨calls1, hl1, hs1⟩ := hrec _ _ _ _ _ _ _ _ hc
        cases e with
        | some er =>
          simp only [Option.some.injEq, Prod.mk.injEq] at h
          obtain ⟨_, he, hw, hl⟩ := h
          subst he hl hw
          exact ⟨calls1, hl1, Resolves.stop p rest w w1 calls1 er hu hs1⟩
        | none =>
          simp only [] at h
          cases hr : unmarshalSteps rec rest (w1, log1) with
          | none => rw [hr] at h; simp at h
          | some r' =>
            obtain ⟨rest', err2, w2, log2⟩ := r'
            rw [hr] at h
            simp only [Option.some.injEq, Prod.mk.injEq] at h
            obtain ⟨_, he, hw, hl⟩ := h
            subst he hl hw
            obtain ⟨calls2, hl2, hs2⟩ := ih w1 log1 rest' err2 w2 log2 hr
            exact ⟨calls1 ++ calls2, by rw [hl2, hl1, List.append_assoc],
              Resolves.next p rest w w1 w2 calls1 calls2 err2 hu hs1 hs2⟩

/-- A run of `Unmarshal` that returns made the calls of the spec's
resolution, in its order. -/
theorem Unmarshal_resolves {σ : Type} (dec : DecoderFn σ) (fuel : Nat) :
    ∀ (uses : Bytes) (tmpl : Template) (w : σ) (log : List (Bytes × Option Error))
      (t' : Template) (err : Option Error) (w' : σ) (log' : List (Bytes × Option Error)),
      Unmarshal (some (recordingDecoder dec)) fuel uses tmpl (w, log) =
        some (t', err, (w', log')) →
      ∃ calls, log' = log ++ calls ∧ Resolves dec (.template uses tmpl) w calls err w' := by
  induction fuel with
  | zero => intro uses tmpl w log t' err w' log' h; simp [Unmarshal] at h
  | succ n ih =>
    intro uses tmpl w log t' err w' log' h
    simp only [Unmarshal, recordingDecoder] at h
    rcases hd : dec uses tmpl w with ⟨⟨d, e⟩, w1⟩
    rw [hd] at h
    cases e with
    | some er =>
      simp only [Option.some.injEq, Prod.mk.injEq] at h
      obtain ⟨_, he, hw, hl⟩ := h
      subst he hl hw
      exact ⟨[(uses, some er)], rfl, Resolves.fail uses tmpl d er w w1 hd⟩
    | none =>
      simp only [] at h
      split at h
      · cases h
      · rename_i steps err2 s2 hs
        simp only [Option.some.injEq, Prod.mk.injEq] at h
        obtain ⟨_, he, hw⟩ := h
        subst he
        obtain ⟨w2, log2⟩ := s2
        simp only [Prod.mk.injEq] at hw
        obtain ⟨hw2, hl⟩ := hw
        subst hl hw2
        have hsteps : (if tmpl.Namespace ≠ [] then { d with Namespace := tmpl.Namespace }
            else d).Steps = d.Steps := by
          split <;> rfl
        simp only [hsteps] at hs
        obtain ⟨calls, hl2, hs2⟩ := unmarshalSteps_resolves dec
          (Unmarshal (some (recordingDecoder dec)) n) ih _ _ _ _ _ _ _ hs
        exact ⟨(uses, none) :: calls, by rw [hl2]; simp,
          Resolves.decoded uses tmpl d w w1 w2 calls err2 hd hs2⟩

/-- The spec's resolution is a run of `Unmarshal`: with enough fuel the
code returns its error, after its calls. -/
theorem Resolves.run {σ : Type} (dec : DecoderFn σ) (task : ResolveTask) (w w' : σ)
    (calls : List (Bytes × Option Error)) (err : Option Error)
    (h : Resolves dec task w calls err w') :
    match task with
    | .template uses tmpl => ∀ log, ∃ fuel t',
        Unmarshal (some (recordingDecoder dec)) fuel uses tmpl (w, log) =
          some (t', err, (w', log ++ calls))
    | .steps steps => ∀ log, ∃ fuel steps',
        unmarshalSteps (Unmarshal (some (recordingDecoder dec)) fuel) steps (w, log) =
          some (steps', err, (w', log ++ calls)) := by
  induction h with
  | fail uses tmpl d e w w1 hd =>
    intro log
    exact ⟨1, d, by simp [Unmarshal, recordingDecoder, hd]⟩
  | decoded uses tmpl d w w1 w2 calls err hd _ ih =>
    intro log
    obtain ⟨fuel, steps', hs⟩ := ih (log ++ [(uses, none)])
    have hsteps : (if tmpl.Namespace ≠ [] then { d with Namespace := tmpl.Namespace }
        else d).Steps = d.Steps := by
      split <;> rfl
    refine ⟨fuel + 1, ?_⟩
    simp only [Unmarshal, recordingDecoder, hd, hsteps, hs, List.append_assoc,
      List.singleton_append]
    exact ⟨_, rfl⟩
  | done w =>
    intro log
    exact ⟨0, [], by simp [unmarshalSteps]⟩
  | pass s rest w w1 calls err hu _ ih =>
    intro log
    obtain ⟨fuel, steps', hs⟩ := ih log
    refine ⟨fuel, ?_⟩
    simp only [unmarshalSteps, hu, ne_eq, not_true_eq_false, if_false, hs]
    exact ⟨_, rfl⟩
  | stop s rest w w1 calls e hu _ ih =>
    intro log
    obtain ⟨fuel, t', hs⟩ := ih log
    refine ⟨fuel, ?_⟩
    simp only [unmarshalSteps, hu, ne_eq, not_false_eq_true, if_true, hs]
    exact ⟨_, rfl⟩
  | next s rest w w1 w2 calls1 calls2 err hu _ _ ih1 ih2 =>
    intro log
    obtain ⟨fuel1, t', hs1⟩ := ih1 log
    obtain ⟨fuel2, steps', hs2⟩ := ih2 (log ++ calls1)
    have h1 := Unmarshal_mono_le _ fuel1 (max fuel1 fuel2) (le_max_left _ _) _ _ _ _ hs1
    have h2 := unmarshalSteps_mono _ (Unmarshal (some (recordingDecoder dec)) (max fuel1 fuel2))
      (fun u t w r hr => Unmarshal_mono_le _ fuel2 (max fuel1 fuel2) (le_max_right _ _) u t w r hr)
      _ _ _ hs2
    refine ⟨max fuel1 fuel2, ?_⟩
    simp only [unmarshalSteps, hu, ne_eq, not_false_eq_true, if_true, h1, h2,
      List.append_assoc]
    exact ⟨_, rfl⟩

theorem Step.usesOrder_eq (s : Step) :
    s.usesOrder = if s.Uses ≠ [] then s.Uses :: usesOrderList s.Template.Steps else [] := by
  cases s with
  | mk t id skip uses method url body header set out =>
    cases t
    simp only [Step.usesOrder, usesOrderOf, Step.Uses, Step.Template]

theorem unmarshalSteps_order {σ : Type}
    (rec : Bytes → Template → σ × List (Bytes × Option Error) →
      Option (Template × Option Error × (σ × List (Bytes × Option Error))))
    (hrec : ∀ u t w log t' w' log', rec u t (w, log) = some (t', none, (w', log')) →
      log' = log ++ (u :: usesOrderList t'.Steps).map (fun i => (i, none))) :
    ∀ (steps : List Step) (w : σ) (log : List (Bytes × Option Error)) (steps' : List Step)
      (w' : σ) (log' : List (Bytes × Option Error)),
      unmarshalSteps rec steps (w, log) = some (steps', none, (w', log')) →
      log' = log ++ (usesOrderList steps').map (fun i => (i, none)) := by
  intro steps
  induction steps with
  | nil =>
    intro w log steps' w' log' h
    simp only [unmarshalSteps, Option.some.injEq, Prod.mk.injEq] at h
    obtain ⟨hs, _, _, hl⟩ := h
    subst hs hl
    simp [usesOrderList]
  | cons p rest ih =>
    intro w log steps' w' log' h
    simp only [unmarshalSteps] at h
    by_cases hu : p.Uses = []
    · simp only [hu, ne_eq, not_true_eq_false, if_false] at h
      cases hr : unmarshalSteps rec rest (w, log) with
      | none => rw [hr] at h; simp at h
      | some r =>
        obtain ⟨rest', err2, w2, log2⟩ := r
        rw [hr] at h
        simp only [Option.some.injEq, Prod.mk.injEq] at h
        obtain ⟨hs, he, _, hl⟩ := h
        subst hs he hl
        rw [ih w log rest' w2 log2 hr]
        simp [usesOrderList, Step.usesOrder_eq, hu]
    · simp only [hu, ne_eq, not_false_eq_true, if_true] at h
      cases hc : rec p.Uses p.Template (w, log) with
      | none => rw [hc] at h; simp at h
      | some r =>
        obtain ⟨t, e, w1, log1⟩ := r
        rw [hc] at h
        cases e with
        | some er => simp at h
        | none =>
          simp only [] at h
          cases hr : unmarshalSteps rec rest (w1, log1) with
          | none => rw [hr] at h; simp at h
          | some r' =>
            obtain ⟨rest', err2, w2, log2⟩ := r'
            rw [hr] at h
            simp only [Option.some.injEq, Prod.mk.injEq] at h
            obtain ⟨hs, he, _, hl⟩ := h
            subst hs he hl
            rw [ih w1 log1 rest' w2 log2 hr, hrec _ _ _ _ _ _ _ hc]
            simp [usesOrderList, Step.usesOrder_eq, hu]

/-- A run of `Unmarshal` that succeeds called the decoder once for the root
identity and once for every step with a non-empty `uses` of the tree it
leaves, depth first and in declared order. -/
theorem Unmarshal_order {σ : Type} (dec : DecoderFn σ) (fuel : Nat) :
    ∀ (uses : Bytes) (tmpl : Template) (w : σ) (log : List (Bytes × Option Error))
      (t' : Template) (w' : σ) (log' : List (Bytes × Option Error)),
      Unmarshal (some (recordingDecoder dec)) fuel uses tmpl (w, log) =
        some (t', none, (w', log')) →
      log' = log ++ (uses :: usesOrderList t'.Steps).map (fun i => (i, none)) := by
  induction fuel with
  | zero => intro uses tmpl w log t' w' log' h; simp [Unmarshal] at h
  | succ n ih =>
    intro uses tmpl w log t' w' log' h
    simp only [Unmarshal, recordingDecoder] at h
    rcases hd : dec uses tmpl w with ⟨⟨d, e⟩, w1⟩
    rw [hd] at h
    cases e with
    | some er => simp at h
    | none =>
      simp only [] at h
      split at h
      · cases h
      · rename_i steps err2 s2 hs
        simp only [Option.some.injEq, Prod.mk.injEq] at h
        obtain ⟨ht, he, hw⟩ := h
        subst he ht
        obtain ⟨w2, log2⟩ := s2
        simp only [Prod.mk.injEq] at hw
        obtain ⟨_, hl⟩ := hw
        subst hl
        rw [unmarshalSteps_order (Unmarshal (some (recordingDecoder dec)) n) ih _ _ _ _ _ _ hs]
        simp

/-- C17. Resolver failure policy.  (1) With no decoder configured,
`Unmarshal(uses, tmpl)` returns `ErrInvalidDecoder` and leaves the template
and the world as they were.  (2) With a decoder, keeping a record of the
decoder's calls changes nothing else of the run.  (3) `Unmarshal` returns
with an error value `err` (nil or not), given enough fuel, exactly when the
spec's depth-first, declared-order resolution over the steps with non-empty
uses ends with `err`, and (4) the decoder calls it has then made are exactly
the calls of that resolution, in its order.  (5) The calls start with the
root identity; the result is an error exactly when some call failed; that
call is then the last one made, every call before it succeeded, and the
error returned is the error of that call as the decoder returned it.  (6) A
run that succeeds has called the decoder once for the root identity and once
for every step with non-empty uses of the tree it leaves, depth first and in
declared order. -/
theorem C17_unmarshal_failure_policy {σ : Type} (dec : DecoderFn σ) (uses : Bytes)
    (tmpl : Template) (w : σ) :
    (∀ fuel : Nat, Unmarshal (none : Option (DecoderFn σ)) (fuel + 1) uses tmpl w =
      some (tmpl, some .ErrInvalidDecoder, w)) ∧
    (∀ (fuel : Nat) (log : List (Bytes × Option Error)),
      (Unmarshal (some (recordingDecoder dec)) fuel uses tmpl (w, log)).map
        (fun r => (r.1, r.2.1, r.2.2.1)) = Unmarshal (some dec) fuel uses tmpl w) ∧
    (∀ (err : Option Error) (w' : σ),
      (∃ calls, Resolves dec (.template uses tmpl) w calls err w') ↔
        ∃ fuel t', Unmarshal (some dec) fuel uses tmpl w = some (t', err, w')) ∧
    (∀ (log calls : List (Bytes × Option Error)) (err : Option Error) (w' : σ),
      Resolves dec (.template uses tmpl) w calls err w' ↔
        ∃ fuel t', Unmarshal (some (recordingDecoder dec)) fuel uses tmpl (w, log) =
          some (t', err, (w', log ++ calls))) ∧
    (∀ (calls : List (Bytes × Option Error)) (err : Option Error) (w' : σ),
      Resolves dec (.template uses tmpl) w calls err w' →
      (∃ first rest, calls = (uses, first) :: rest) ∧ StopsAtFirstFailure calls err ∧
        (err ≠ none ↔ ∃ c ∈ calls, c.2 ≠ none)) ∧
    (∀ (fuel : Nat) (log : List (Bytes × Option Error)) (t' : Template) (w' : σ)
      (log' : List (Bytes × Option Error)),
      Unmarshal (some (recordingDecoder dec)) fuel uses tmpl (w, log) =
        some (t', none, (w', log')) →
      log' = log ++ (uses :: usesOrderList t'.Steps).map (fun i => (i, none))) := by
  have h4 : ∀ (log calls : List (Bytes × Option Error)) (err : Option Error) (w' : σ),
      Resolves dec (.template uses tmpl) w calls err w' ↔
        ∃ fuel t', Unmarshal (some (recordingDecoder dec)) fuel uses tmpl (w, log) =
          some (t', err, (w', log ++ calls)) := by
    intro log calls err w'
    constructor
    · intro h
      exact Resolves.run dec _ w w' calls err h log
    · rintro ⟨fuel, t', h⟩
      obtain ⟨calls', hl, hr⟩ := Unmarshal_resolves dec fuel uses tmpl w log t' err w' _ h
      rw [List.append_cancel_left hl]
      exact hr
  refine ⟨fun fuel => rfl, fun fuel log => Unmarshal_erase dec fuel uses tmpl w log, ?_, h4, ?_,
    fun fuel log t' w' log' h => Unmarshal_order dec fuel uses tmpl w log t' w' log' h⟩
  · intro err w'
    constructor
    · rintro ⟨calls, h⟩
      obtain ⟨fuel, t', hrun⟩ := (h4 [] calls err w').mp h
      refine ⟨fuel, t', ?_⟩
      rw [← Unmarshal_erase dec fuel uses tmpl w [], hrun]
      rfl
    · rintro ⟨fuel, t', h⟩
      rw [← Unmarshal_erase dec fuel uses tmpl w []] at h
      cases hrun : Unmarshal (some (recordingDecoder dec)) fuel uses tmpl (w, []) with
      | none => rw [hrun] at h; cases h
      | some r =>
        obtain ⟨t1, e1, w1, log1⟩ := r
        rw [hrun] at h
        simp only [Option.map_some', Option.some.injEq, Prod.mk.injEq] at h
        obtain ⟨_, he, hw⟩ := h
        subst he hw
        obtain ⟨calls, _, hr⟩ := Unmarshal_resolves dec fuel uses tmpl w [] t1 e1 w1 log1 hrun
        exact ⟨calls, hr⟩
  · intro calls err w' h
    obtain ⟨fuel, t', hrun⟩ := (h4 [] calls err w').mp h
    obtain ⟨first, rest, hl, hs⟩ := Unmarshal_calls dec fuel uses tmpl w [] t' err w' _ hrun
    simp only [List.nil_append] at hl
    rw [hl]
    exact ⟨⟨first, rest, rfl⟩, hs, hs.error_iff⟩

/-- C17 on the decoder `treeDecoder`: resolving "root" calls the decoder for
root, a/b, g/h (the step under a/b) and c/d, which fails with "gone";
`Unmarshal` returns that error, unwrapped, the step that uses e/f is never
resolved, and these calls are a resolution in the spec's sense.  Resolving
"a/b@v1.0.0" succeeds after the calls a/b and g/h.  Without a decoder the
result is `ErrInvalidDecoder`. -/
theorem C17_unmarshal_failure_policy_witness :
    (∃ t', Unmarshal (some (recordingDecoder treeDecoder)) 3 (lit "root") zeroTemplate
        ((), []) =
      some (t', some (.external (lit "gone")),
        ((), [(lit "root", none), (lit "a/b@v1.0.0", none), (lit "g/h@v1.0.0", none),
              (lit "c/d@v1.0.0", some (.external (lit "gone")))]))) ∧
    Resolves treeDecoder (.template (lit "root") zeroTemplate) ()
      [(lit "root", none), (lit "a/b@v1.0.0", none), (lit "g/h@v1.0.0", none),
       (lit "c/d@v1.0.0", some (.external (lit "gone")))]
      (some (.external (lit "gone"))) () ∧
    (∃ t', Unmarshal (some treeDecoder) 3 (lit "root") zeroTemplate () =
      some (t', some (.external (lit "gone")), ())) ∧
    (∃ t', Unmarshal (some (recordingDecoder treeDecoder)) 2 (lit "a/b@v1.0.0") zeroTemplate
        ((), []) =
      some (t', none, ((), [(lit "a/b@v1.0.0", none), (lit "g/h@v1.0.0", none)])) ∧
      usesOrderList t'.Steps = [lit "g/h@v1.0.0"]) ∧
    Unmarshal (none : Option (DecoderFn Unit)) 2 (lit "root") zeroTemplate () =
      some (zeroTemplate, some .ErrInvalidDecoder, ()) :=
  ⟨⟨_, rfl⟩,
   ((C17_unmarshal_failure_policy treeDecoder (lit "root") zeroTemplate ()).2.2.2.1 [] _ _ ()).mpr
     ⟨3, _, rfl⟩,
   ⟨_, rfl⟩, ⟨_, rfl, rfl⟩,
   (C17_unmarshal_failure_policy treeDecoder (lit "root") zeroTemplate ()).1 1⟩

/-! ## Execution: the out projection along the run -/

end Tmpl
